import Mathlib

/-!
# Verification of the xv6 page allocator (`kernel/kalloc.c`) and buffer cache (`kernel/bio.c`)

Shallow embedding of the copy-on-write reference-counting page allocator and of the
bucketed buffer cache.

Modelling conventions.

* Physical addresses (`uint64`) are natural numbers.  No address handled by the allocator
  comes near `2^64`, so address arithmetic is not wrapped.
* `ref.cnt[]` holds C `int`s and is a function from frame index to `Int`.  `++` and `--`
  on a count leave the value the compiled code leaves, the two's-complement wrap of the
  mathematical result into `[-2^31, 2^31)` (`wrapInt`): the decrement of 0 is -1 and the
  increment of `INT_MAX` is `INT_MIN`.
* `kmem.freelist` is an intrusive singly linked list threaded through the free pages.  It is
  the `List` of page addresses met when following `next` from `kmem.freelist`; the head of
  the list is `kmem.freelist` itself and `[]` is the null pointer.  A page has one `next`
  field, so a linked list in memory holds a page at most once.  The push of `kfree` is a
  `List` cons, which is what the code does to the list when the freed page is not on it; a
  push of a page that is already on the list ties the list into a loop in memory and is
  outside what a `List` describes.  Statements about the free list are therefore made for
  lists without repetition and for pushes of pages that are not on the list (`p ∉ rest`,
  `q ∉ t.freelist`, `Nodup`, runs that respect ownership).
* The junk fills (`memset`) write page contents only and are not part of the state.
* `panic` stops the kernel.  A panicking operation yields `Result.panic s`, where `s` is the
  state at the moment of the panic.
* Buffer-cache counters (`uint`) are natural numbers reduced modulo `2^32` where the code
  increments or decrements them.
* A `struct buf *` is a pair `(k, i)`: buffer `i` of bucket `k`.
* The spinlocks of `kalloc.c` appear as the sequence of `acquire`/`release` calls of each
  function.  The bucket spinlocks of `bio.c` are held for the whole of each critical section
  and do not appear in the state; the sleep lock of a buffer does.
* A caller of `bget` that finds the sleep lock held sleeps in `acquiresleep`; the outcome
  `asleep` records the bucket update it made, and the sleeper is entered in the list
  `BState.asleep`.  Its wake-up is the event `BOp.wake`: once the lock is free the sleeper
  takes it and goes on where it slept, without looking at the buffer's identity again
  (`wakeup`).
* Clients change the payload of a buffer in place; this is the event `BOp.store`.
-/

namespace Kalloc

/-- Page size in bytes.  `riscv.h` is not among the sources; the value is the one the header
comment of `kalloc.c` gives ("Allocates whole 4096-byte pages"). -/
def PGSIZE : Nat := 4096

/-- The two link-time constants the allocator is compiled against: `end`, the first address
after the kernel image (from `kernel.ld`), and `PHYSTOP` (from `memlayout.h`).  Neither file
is among the sources, so both are parameters. -/
structure Layout where
  kend : Nat
  PHYSTOP : Nat
deriving DecidableEq

/-- Modelled from the spec: the macro `PGROUNDUP` of `riscv.h`, which is not among the
sources; it rounds an address up to the next page boundary ("for every page-aligned frame
in the half-open range"). -/
def PGROUNDUP (sz : Nat) : Nat := (sz + PGSIZE - 1) / PGSIZE * PGSIZE

/-- Allocator state: the reference table `ref.cnt` and the free list `kmem.freelist`. -/
structure KState where
  cnt : Nat → Int
  freelist : List Nat

/-- Outcome of an operation that may `panic`. -/
inductive Result (σ : Type) where
  | ok (s : σ) : Result σ
  | panic (s : σ) : Result σ

/-- State carried by an outcome. -/
def Result.state {σ : Type} : Result σ → σ
  | .ok s => s
  | .panic s => s

/-- Whether the outcome is a panic. -/
def Result.isPanic {σ : Type} : Result σ → Bool
  | .ok _ => false
  | .panic _ => true

/-- The state of the kernel image before `kinit`: globals are zero-initialised. -/
def boot : KState := { cnt := fun _ => 0, freelist := [] }

/-- The test shared by `kfree` and `kaddrefcnt`:
`(pa % PGSIZE) != 0 || (char*)pa < end || pa >= PHYSTOP`. -/
def badPa (L : Layout) (pa : Nat) : Prop :=
  pa % PGSIZE ≠ 0 ∨ pa < L.kend ∨ pa ≥ L.PHYSTOP

instance (L : Layout) (pa : Nat) : Decidable (badPa L pa) := by
  unfold badPa; infer_instance

/-- Largest value of a C `int`. -/
def INT_MAX : Int := 2147483647

/-- Smallest value of a C `int`. -/
def INT_MIN : Int := -2147483648

/-- The value a C `int` holds after the compiled code has computed `x` in it: the
two's-complement wrap of `x` into `[-2^31, 2^31)`. -/
def wrapInt (x : Int) : Int := (x + 2147483648) % 4294967296 - 2147483648

/-- `krefcnt`: unsynchronised read of a frame's reference count. -/
def krefcnt (s : KState) (pa : Nat) : Int := s.cnt (pa / PGSIZE)

/-- `kaddrefcnt`: returns the status and the new state. -/
def kaddrefcnt (L : Layout) (s : KState) (pa : Nat) : Int × KState :=
  if badPa L pa then (-1, s)
  else (0, { s with
    cnt := Function.update s.cnt (pa / PGSIZE) (wrapInt (s.cnt (pa / PGSIZE) + 1)) })

/-- `kfree`.  The push `r->next = kmem.freelist; kmem.freelist = r` is the cons of `pa`
onto the list; it describes the list in memory when `pa` is not already on it. -/
def kfree (L : Layout) (s : KState) (pa : Nat) : Result KState :=
  if badPa L pa then .panic s
  else
    let c := wrapInt (s.cnt (pa / PGSIZE) - 1)
    let ref := Function.update s.cnt (pa / PGSIZE) c
    if c = 0 then .ok { cnt := ref, freelist := pa :: s.freelist }
    else .ok { cnt := ref, freelist := s.freelist }

/-- `kalloc`: returns the pointer (`0` when the free list is empty) and the new state. -/
def kalloc (s : KState) : Nat × KState :=
  match s.freelist with
  | [] => (0, s)
  | r :: rest => (r, { cnt := Function.update s.cnt (r / PGSIZE) 1, freelist := rest })

/-- The loop of `freerange`, started at `p`. -/
def freerangeLoop (L : Layout) (pa_end : Nat) (p : Nat) (s : KState) : Result KState :=
  if p + PGSIZE ≤ pa_end then
    match kfree L { s with cnt := Function.update s.cnt (p / PGSIZE) 1 } p with
    | .panic s' => .panic s'
    | .ok s' => freerangeLoop L pa_end (p + PGSIZE) s'
  else .ok s
termination_by pa_end - p
decreasing_by
  have : 0 < PGSIZE := by decide
  omega

/-- `freerange`. -/
def freerange (L : Layout) (s : KState) (pa_start pa_end : Nat) : Result KState :=
  freerangeLoop L pa_end (PGROUNDUP pa_start) s

/-- `kinit`: `freerange(end, PHYSTOP)` on the zero-initialised globals. -/
def kinit (L : Layout) : Result KState :=
  freerange L boot L.kend L.PHYSTOP

/-- The pages `p, p + PGSIZE, ..., p + (n-1) * PGSIZE` in the order in which a stack that
received them one after the other lists them (last pushed first). -/
def pushedPages (p n : Nat) : List Nat :=
  ((List.range n).map (fun k => p + k * PGSIZE)).reverse

/-- A layout whose managed range holds exactly two frames, `0x87FFE000` and `0x87FFF000`
(the top two pages below xv6's `PHYSTOP = 0x88000000`). -/
def twoFrames : Layout := { kend := 0x87FFE000, PHYSTOP := 0x88000000 }

/-- The state `kinit` leaves for the layout `twoFrames` (see `twoFrames_kinit`). -/
def twoFramesInit : KState := { cnt := fun _ => 0, freelist := [0x87FFF000, 0x87FFE000] }

/-- The state after `kinit` for `twoFrames` followed by `kaddrefcnt(0x87FFF000)`, a call on
an accepted pointer whose frame is still on the free list. -/
def addrefOnFreeFrame : KState := (kaddrefcnt twoFrames twoFramesInit 0x87FFF000).2

/-- Invariant of ownership-respecting use: the free list holds accepted pointers, holds none
twice, and every frame on it has count 0. -/
def FreeListInv (L : Layout) (s : KState) : Prop :=
  (∀ p ∈ s.freelist, ¬ badPa L p) ∧ s.freelist.Nodup ∧ ∀ p ∈ s.freelist, s.cnt (p / PGSIZE) = 0

/-- One call made by a client of the allocator. -/
inductive Op where
  | alloc : Op
  | free (pa : Nat) : Op
  | addref (pa : Nat) : Op
deriving DecidableEq

/-- Effect of one call on the allocator state. -/
def step (L : Layout) (s : KState) : Op → Result KState
  | .alloc => .ok (kalloc s).2
  | .free pa => kfree L s pa
  | .addref pa => .ok (kaddrefcnt L s pa).2

/-- The call passes a pointer that `kfree` and `kaddrefcnt` accept (aligned, in range). -/
def Op.validPtr (L : Layout) : Op → Prop
  | .alloc => True
  | .free pa => ¬ badPa L pa
  | .addref pa => ¬ badPa L pa

/-- The call respects ownership: `free` and `addReference` are applied to an accepted
pointer whose frame currently has a count of at least 1. -/
def Op.owned (L : Layout) (s : KState) : Op → Prop
  | .alloc => True
  | .free pa => ¬ badPa L pa ∧ 1 ≤ s.cnt (pa / PGSIZE)
  | .addref pa => ¬ badPa L pa ∧ 1 ≤ s.cnt (pa / PGSIZE)

/-- States reachable from `kinit` by calls that satisfy the precondition `pre` in the state
in which they are made and that return (do not panic). -/
inductive ReachableBy (L : Layout) (pre : KState → Op → Prop) : KState → Prop where
  | init (s : KState) (h : kinit L = .ok s) : ReachableBy L pre s
  | step (s s' : KState) (op : Op) (hs : ReachableBy L pre s) (hp : pre s op)
      (h : step L s op = .ok s') : ReachableBy L pre s'

/-- States reachable from `kinit` by any sequence of calls on accepted pointers. -/
def Reachable (L : Layout) (s : KState) : Prop :=
  ReachableBy L (fun _ op => op.validPtr L) s

/-- States reachable from `kinit` by calls that respect ownership. -/
def ReachableOwned (L : Layout) (s : KState) : Prop :=
  ReachableBy L (fun t op => op.owned L t) s

/-- Every count of the reference table is a value of the C type `int`. -/
def CntInt (s : KState) : Prop := ∀ i, INT_MIN ≤ s.cnt i ∧ s.cnt i ≤ INT_MAX

/-- The state for the layout `twoFrames` in which the frame `0x87FFF000`, returned by the
first `kalloc` after `kinit`, has `n` references: the state after `kinit`, `kalloc` and
`n - 1` calls of `kaddrefcnt(0x87FFF000)`, none of which overflowed the count. -/
def sharedTimes (n : Nat) : KState :=
  { cnt := Function.update (fun _ => 0) (0x87FFF000 / PGSIZE) (n : Int),
    freelist := [0x87FFE000] }

/-- A frame that `kinit` hands to the allocator: a page-aligned address `p` at or above
`end`, rounded up to a page, with the whole page below `PHYSTOP` (the bounds of the loop of
`freerange`). -/
def managed (L : Layout) (p : Nat) : Prop :=
  p % PGSIZE = 0 ∧ PGROUNDUP L.kend ≤ p ∧ p + PGSIZE ≤ L.PHYSTOP

instance (L : Layout) (p : Nat) : Decidable (managed L p) := by
  unfold managed; infer_instance

/-- Whether the call is a `free`. -/
def Op.isFree : Op → Bool
  | .free _ => true
  | _ => false

/-- The state `t` is reached from `s` by ownership-respecting calls none of which is a
`free`. -/
inductive OwnedNoFree (L : Layout) : KState → KState → Prop where
  | refl (s : KState) : OwnedNoFree L s s
  | step (s t t' : KState) (op : Op) (hs : OwnedNoFree L s t) (ho : op.owned L t)
      (hf : op.isFree = false) (h : step L t op = .ok t') : OwnedNoFree L s t'

/-- The two spinlocks of `kalloc.c`: `ref.lock` and `kmem.lock`. -/
inductive Lock where
  | ref : Lock
  | kmem : Lock
deriving DecidableEq

/-- A call of `acquire` or `release` on one of the two spinlocks. -/
inductive LockEv where
  | acquire (l : Lock) : LockEv
  | release (l : Lock) : LockEv
deriving DecidableEq

/-- The `acquire`/`release` calls of `kaddrefcnt`, in program order: none when the pointer is
rejected, otherwise `ref.lock` around the increment. -/
def kaddrefcntLocks (L : Layout) (pa : Nat) : List LockEv :=
  if badPa L pa then []
  else [.acquire .ref, .release .ref]

/-- The `acquire`/`release` calls of `kfree`, in program order: none before the panic;
otherwise `ref.lock` around the decrement, released in both branches, and then, when the
count reached 0, `kmem.lock` around the push. -/
def kfreeLocks (L : Layout) (s : KState) (pa : Nat) : List LockEv :=
  if badPa L pa then []
  else if wrapInt (s.cnt (pa / PGSIZE) - 1) = 0 then
    [.acquire .ref, .release .ref, .acquire .kmem, .release .kmem]
  else [.acquire .ref, .release .ref]

/-- The `acquire`/`release` calls of `kalloc`, in program order: `kmem.lock` is taken first
and released last; when the free list is not empty, `ref.lock` is taken and released inside
(lines 108 to 117). -/
def kallocLocks (s : KState) : List LockEv :=
  match s.freelist with
  | [] => [.acquire .kmem, .release .kmem]
  | _ :: _ => [.acquire .kmem, .acquire .ref, .release .ref, .release .kmem]

/-- The `acquire`/`release` calls of the loop of `freerange` started at `p`: those of the
`kfree` of each iteration, one after the other. -/
def freerangeLoopLocks (L : Layout) (pa_end : Nat) (p : Nat) (s : KState) : List LockEv :=
  if p + PGSIZE ≤ pa_end then
    kfreeLocks L { s with cnt := Function.update s.cnt (p / PGSIZE) 1 } p ++
      match kfree L { s with cnt := Function.update s.cnt (p / PGSIZE) 1 } p with
      | .panic _ => []
      | .ok s' => freerangeLoopLocks L pa_end (p + PGSIZE) s'
  else []
termination_by pa_end - p
decreasing_by
  have : 0 < PGSIZE := by decide
  omega

/-- The `acquire`/`release` calls of `kinit` (`initlock` takes no lock). -/
def kinitLocks (L : Layout) : List LockEv :=
  freerangeLoopLocks L L.PHYSTOP (PGROUNDUP L.kend) boot

/-- The locks held after an event, given whether `ref.lock` and `kmem.lock` were held
before it. -/
def LockEv.apply : LockEv → Bool × Bool → Bool × Bool
  | .acquire .ref, (_, k) => (true, k)
  | .release .ref, (_, k) => (false, k)
  | .acquire .kmem, (r, _) => (r, true)
  | .release .kmem, (r, _) => (r, false)

/-- Whether, starting with the given locks held, there is a point of the sequence at which
both `ref.lock` and `kmem.lock` are held. -/
def everBoth : Bool × Bool → List LockEv → Bool
  | h, [] => h.1 && h.2
  | h, ev :: evs => (h.1 && h.2) || everBoth (ev.apply h) evs

end Kalloc

/-! ## Buffer cache (`kernel/bio.c`): definitions -/

namespace Bio

/-- Largest `uint`; the value of `mintime` after `uint mintime = -1`. -/
def UINT_MAX : Nat := 2 ^ 32 - 1

/-- Modelled from the spec: `struct sleeplock` of `sleeplock.h`, which is not among the
sources: the exclusive-access lock of a cache entry, with "at most one exclusive holder at a
time"; `locked` tells whether it is held and `pid` names the holder. -/
structure Sleeplock where
  locked : Bool
  pid : Nat
deriving DecidableEq

/-- Modelled from the spec: `struct buf` of `buf.h`, which is not among the sources:
"CacheEntry: {device id, block number, validity flag, payload bytes of fixed block size,
reference count ≥0, last-idle-tick, exclusive-access lock}".  The fields carry the names
`bio.c` uses; `dev`, `blockno`, `refcnt` and `timeticks` are `uint`. -/
structure Buf where
  valid : Bool
  dev : Nat
  blockno : Nat
  lock : Sleeplock
  refcnt : Nat
  timeticks : Nat
  data : List Nat
deriving DecidableEq

/-- One element of `bcache[]`: the array `buf[NBUF]` of a bucket.  The bucket's spinlock is
held for the whole of every function below that touches the bucket and is not part of the
state. -/
abbrev Bucket := List Buf

/-- The array `bcache[NBUCKET]`. -/
abbrev Bcache := List Bucket

/-- `idx`: the bucket of a block number.  `NBUCKET` (from `param.h`, not among the sources)
is a parameter. -/
def idx (NBUCKET blockno : Nat) : Nat := blockno % NBUCKET

/-- Applies `f` to the element at position `i`, if there is one. -/
def modifyAt {α : Type} (f : α → α) : List α → Nat → List α
  | [], _ => []
  | a :: as, 0 => f a :: as
  | a :: as, i + 1 => a :: modifyAt f as i

/-- What the loop of `bget` has established when it ends. -/
inductive Scan where
  | found (i : Nat) : Scan
  | notFound (min_b : Option Nat) (mintime : Nat) : Scan
deriving DecidableEq

/-- The loop of `bget` over the buffers of the bucket from position `i` on, entered with the
current values of `min_b` and `mintime`.  It stops at the first buffer holding
`(dev, blockno)`; otherwise a buffer with `refcnt == 0` and `timeticks < mintime` becomes the
new `min_b`. -/
def bgetScan (dev blockno : Nat) : List Buf → Nat → Option Nat → Nat → Scan
  | [], _, min_b, mintime => .notFound min_b mintime
  | b :: bs, i, min_b, mintime =>
    if b.dev = dev ∧ b.blockno = blockno then .found i
    else if b.refcnt = 0 ∧ b.timeticks < mintime then
      bgetScan dev blockno bs (i + 1) (some i) b.timeticks
    else bgetScan dev blockno bs (i + 1) min_b mintime

/-- How a call of `bget` ends. -/
inductive BgetResult where
  /-- Returns buffer `i` of the target bucket with its sleep lock held by the caller. -/
  | locked (c : Bcache) (i : Nat) : BgetResult
  /-- The caller sleeps in `acquiresleep` on buffer `i`, whose lock is held; the bucket has
  already been updated. -/
  | asleep (c : Bcache) (i : Nat) : BgetResult
  /-- Ends in `panic("bget: no buffers")`. -/
  | panic (c : Bcache) : BgetResult
deriving DecidableEq

/-- Modelled from the spec: `acquiresleep` of `sleeplock.c`, which is not among the sources,
applied to buffer `i` of bucket `index` by process `pid`: "block on its exclusive lock".  A
free lock is taken; on a held lock the caller sleeps. -/
def acquiresleepAt (c : Bcache) (index i pid : Nat) : BgetResult :=
  match (c.getD index [])[i]? with
  | none => .panic c
  | some b =>
    if b.lock.locked then .asleep c i
    else .locked
      (c.set index (modifyAt (fun b => { b with lock := { locked := true, pid := pid } })
        (c.getD index []) i)) i

/-- `bget`, called by process `pid`. -/
def bget (NBUCKET : Nat) (c : Bcache) (pid dev blockno : Nat) : BgetResult :=
  let index := idx NBUCKET blockno
  match bgetScan dev blockno (c.getD index []) 0 none UINT_MAX with
  | .found i =>
    acquiresleepAt
      (c.set index (modifyAt (fun b => { b with refcnt := (b.refcnt + 1) % 2 ^ 32 })
        (c.getD index []) i)) index i pid
  | .notFound (some i) _ =>
    acquiresleepAt
      (c.set index (modifyAt
        (fun b => { b with dev := dev, blockno := blockno, valid := false, refcnt := 1 })
        (c.getD index []) i)) index i pid
  | .notFound none _ => .panic c

/-- A buffer with the given identity, reference count and idle tick, unlocked, not valid,
with an empty payload. -/
def mkBuf (dev blockno refcnt timeticks : Nat) : Buf :=
  { valid := false, dev := dev, blockno := blockno, lock := { locked := false, pid := 0 },
    refcnt := refcnt, timeticks := timeticks, data := [] }

/-- A cache of two buckets of three buffers.  Bucket 1 holds block 3 in use and blocks 5 and
7 idle, released at ticks 7 and 4. -/
def smallCache : Bcache :=
  [[mkBuf 1 2 0 1, mkBuf 1 4 0 2, mkBuf 1 6 0 3],
   [mkBuf 1 3 1 0, mkBuf 1 5 0 7, mkBuf 1 7 0 4]]

/-- The cache `smallCache` after process 1 got block 9 of device 1: buffer 2 of bucket 1,
the older idle one, has been recycled and locked. -/
def smallCacheAfter : Bcache :=
  [[mkBuf 1 2 0 1, mkBuf 1 4 0 2, mkBuf 1 6 0 3],
   [mkBuf 1 3 1 0, mkBuf 1 5 0 7,
    { valid := false, dev := 1, blockno := 9, lock := { locked := true, pid := 1 },
      refcnt := 1, timeticks := 4, data := [] }]]

/-- Buffer `i` of bucket `k`: what the pointer `&bcache[k].buf[i]` points at. -/
def getBuf (c : Bcache) (k i : Nat) : Option Buf := (c.getD k [])[i]?

/-- The cache after `f` has been applied to buffer `i` of bucket `k`. -/
def updBuf (c : Bcache) (k i : Nat) (f : Buf → Buf) : Bcache :=
  c.set k (modifyAt f (c.getD k []) i)

/-- Modelled from the spec: `holdingsleep` of `sleeplock.c`, which is not among the sources:
whether the caller `pid` holds the exclusive lock ("caller must hold the exclusive lock"). -/
def holdingsleep (lk : Sleeplock) (pid : Nat) : Bool := lk.locked && lk.pid == pid

/-- Modelled from the spec: `releasesleep` of `sleeplock.c`, which is not among the sources:
"releases it". -/
def releasesleep (_lk : Sleeplock) : Sleeplock := { locked := false, pid := 0 }

/-- A process asleep in the `acquiresleep` of `bget` (line 72 or 87): process `pid` waits for
the sleep lock of buffer `i` of bucket `k`; `read` tells whether `bget` was called by `bread`,
which goes on to the valid test once `bget` returns. -/
structure Sleeper where
  pid : Nat
  k : Nat
  i : Nat
  read : Bool
deriving DecidableEq

/-- The buffer cache together with its two collaborators: the disk, "a map from
(dev, blockno) to payload", and the global tick counter `ticks` (a `uint` of `trap.c`);
`asleep` lists the processes that sleep in `acquiresleep`. -/
structure BState where
  bcache : Bcache
  disk : Nat → Nat → List Nat
  ticks : Nat
  asleep : List Sleeper := []

/-- Modelled from the spec: `virtio_disk_rw(b, write)` of the disk driver, which is not
among the sources, for the buffer `b = &bcache[k].buf[i]`: "a synchronous
`transfer(entry, isWrite)` that fully fills or fully flushes the entry's payload for its
(device, block number)". -/
def virtio_disk_rw (s : BState) (k i : Nat) (write : Bool) : BState :=
  match getBuf s.bcache k i with
  | none => s
  | some b =>
    if write then
      { s with disk := fun d n => if d = b.dev ∧ n = b.blockno then b.data else s.disk d n }
    else
      { s with bcache := updBuf s.bcache k i (fun b => { b with data := s.disk b.dev b.blockno }) }

/-- How a call of `bread` ends; as for `bget`. -/
inductive BreadResult where
  | locked (s : BState) (i : Nat) : BreadResult
  | asleep (s : BState) (i : Nat) : BreadResult
  | panic (s : BState) : BreadResult

/-- `bread`, called by process `pid`.  When `bget` sleeps in `acquiresleep` the call stops
there until the sleeper is woken (`wakeup`); the sleeper is entered in `asleep`. -/
def bread (NBUCKET : Nat) (s : BState) (pid dev blockno : Nat) : BreadResult :=
  match bget NBUCKET s.bcache pid dev blockno with
  | .panic c => .panic { s with bcache := c }
  | .asleep c i =>
    .asleep { s with bcache := c, asleep := s.asleep ++ [⟨pid, idx NBUCKET blockno, i, true⟩] } i
  | .locked c i =>
    match getBuf c (idx NBUCKET blockno) i with
    | none => .locked { s with bcache := c } i
    | some b =>
      if b.valid then .locked { s with bcache := c } i
      else
        .locked
          { virtio_disk_rw { s with bcache := c } (idx NBUCKET blockno) i false with
            bcache := updBuf
              (virtio_disk_rw { s with bcache := c } (idx NBUCKET blockno) i false).bcache
              (idx NBUCKET blockno) i (fun b => { b with valid := true }) } i

open Kalloc (Result)

/-- `bwrite(b)` for `b = &bcache[k].buf[i]`, called by process `pid`. -/
def bwrite (s : BState) (pid k i : Nat) : Result BState :=
  match getBuf s.bcache k i with
  | none => .panic s
  | some b =>
    if holdingsleep b.lock pid then .ok (virtio_disk_rw s k i true)
    else .panic s

/-- The value of a `uint` after `--`. -/
def uintDec (x : Nat) : Nat := (x + 2 ^ 32 - 1) % 2 ^ 32

/-- The value of a `uint` after `++`. -/
def uintInc (x : Nat) : Nat := (x + 1) % 2 ^ 32

/-- The buffer after the body of `brelse`: `releasesleep(&b->lock)`, `b->refcnt--`, and
`b->timeticks = ticks` when the count has become 0. -/
def Buf.release (ticks : Nat) (b : Buf) : Buf :=
  { b with
    lock := releasesleep b.lock
    refcnt := uintDec b.refcnt
    timeticks := if uintDec b.refcnt = 0 then ticks else b.timeticks }

/-- `brelse(b)` for `b = &bcache[k].buf[i]`, called by process `pid`. -/
def brelse (s : BState) (pid k i : Nat) : Result BState :=
  match getBuf s.bcache k i with
  | none => .panic s
  | some b =>
    if holdingsleep b.lock pid then
      .ok { s with bcache := updBuf s.bcache k i (Buf.release s.ticks) }
    else .panic s

/-- `bpin(b)` for `b = &bcache[k].buf[i]`. -/
def bpin (c : Bcache) (k i : Nat) : Bcache :=
  updBuf c k i (fun b => { b with refcnt := uintInc b.refcnt })

/-- `bunpin(b)` for `b = &bcache[k].buf[i]`. -/
def bunpin (c : Bcache) (k i : Nat) : Bcache :=
  updBuf c k i (fun b => { b with refcnt := uintDec b.refcnt })

/-- The buffer after `b->refcnt++` (the hit branch of `bget`). -/
def Buf.hit (b : Buf) : Buf := { b with refcnt := (b.refcnt + 1) % 2 ^ 32 }

/-- The buffer after the miss branch of `bget` has reassigned it to `(dev, blockno)`. -/
def Buf.recycle (dev blockno : Nat) (b : Buf) : Buf :=
  { b with dev := dev, blockno := blockno, valid := false, refcnt := 1 }

/-- The buffer after process `pid` has taken its sleep lock. -/
def Buf.lockBy (pid : Nat) (b : Buf) : Buf := { b with lock := { locked := true, pid := pid } }

/-- The rest of `bread` after `bget` has returned buffer `i` of bucket `k` (lines 101 to
105): the transfer from the disk when the buffer is not valid. -/
def breadRest (s : BState) (k i : Nat) : BState :=
  match getBuf s.bcache k i with
  | none => s
  | some b =>
    if b.valid then s
    else
      { virtio_disk_rw s k i false with
        bcache := updBuf (virtio_disk_rw s k i false).bcache k i
          (fun b => { b with valid := true }) }

/-- Modelled from the spec: the return of `acquiresleep` (of `sleeplock.c`, which is not
among the sources; "block on its exclusive lock") to the sleeper `w`, followed by the code
after the call.  A sleeper that finds the lock still held goes on sleeping (`none`); one
that finds it free takes it and returns to `bget`, which returns the buffer as it now is,
and `bread` goes on to the valid test and the transfer (lines 72 to 73, 87 to 88 and 101 to
105).  Neither function looks at `dev` and `blockno` again. -/
def wakeup (s : BState) (w : Sleeper) : Option BState :=
  if w ∈ s.asleep then
    match getBuf s.bcache w.k w.i with
    | none => none
    | some b =>
      if b.lock.locked then none
      else if w.read then
        some (breadRest
          { s with bcache := updBuf s.bcache w.k w.i (Buf.lockBy w.pid),
                   asleep := s.asleep.erase w } w.k w.i)
      else
        some { s with bcache := updBuf s.bcache w.k w.i (Buf.lockBy w.pid),
                      asleep := s.asleep.erase w }
  else none

/-- Whether the buffer holds block `(dev, blockno)`: the test
`b->dev == dev && b->blockno == blockno` of `bget`. -/
def Buf.holds (dev blockno : Nat) (b : Buf) : Prop := b.dev = dev ∧ b.blockno = blockno

instance (dev blockno : Nat) (b : Buf) : Decidable (b.holds dev blockno) := by
  unfold Buf.holds; infer_instance

/-- The cache a call of `bget` leaves. -/
def BgetResult.cache : BgetResult → Bcache
  | .locked c _ => c
  | .asleep c _ => c
  | .panic c => c

/-- The buffer of the target bucket a call of `bget` selected, if any. -/
def BgetResult.slot : BgetResult → Option Nat
  | .locked _ i => some i
  | .asleep _ i => some i
  | .panic _ => none

/-- Whether the call of `bget` ended in `panic`. -/
def BgetResult.isPanic : BgetResult → Bool
  | .panic _ => true
  | _ => false

/-- Whether the caller of `bget` sleeps in `acquiresleep`. -/
def BgetResult.sleeps : BgetResult → Bool
  | .asleep _ _ => true
  | _ => false

/-- The sleeper a call of `bget` by process `pid` on bucket `k` leaves, if the caller
sleeps. -/
def BgetResult.sleeper (pid k : Nat) (read : Bool) : BgetResult → List Sleeper
  | .asleep _ i => [⟨pid, k, i, read⟩]
  | _ => []

/-- A cache of one bucket of four buffers: blocks 1, 2 and 3 are in use and block 4 is idle,
released when `ticks` was `0xFFFFFFFF`. -/
def maxTickCache : Bcache :=
  [[mkBuf 1 1 1 0, mkBuf 1 2 1 0, mkBuf 1 3 1 0, mkBuf 1 4 0 4294967295]]

/-- The cache `smallCacheAfter` with an empty disk at tick 9: process 1 holds buffer 2 of
bucket 1. -/
def smallState : BState := { bcache := smallCacheAfter, disk := fun _ _ => [], ticks := 9 }

/-- A call of `bpin` or `bunpin`. -/
inductive PinOp where
  | pin : PinOp
  | unpin : PinOp
deriving DecidableEq

/-- The cache after one `bpin` or `bunpin` on buffer `i` of bucket `k`. -/
def PinOp.run (c : Bcache) (k i : Nat) : PinOp → Bcache
  | .pin => bpin c k i
  | .unpin => bunpin c k i

/-- The cache after a sequence of `bpin` and `bunpin` calls on buffer `i` of bucket `k`. -/
def runPins (c : Bcache) (k i : Nat) : List PinOp → Bcache
  | [] => c
  | op :: ops => runPins (op.run c k i) k i ops

/-- Every `bunpin` of the sequence finds a count of at least 1. -/
def UnpinsHeld (c : Bcache) (k i : Nat) : List PinOp → Prop
  | [] => True
  | .pin :: ops => UnpinsHeld (bpin c k i) k i ops
  | .unpin :: ops =>
    (∃ e, getBuf c k i = some e ∧ 1 ≤ e.refcnt) ∧ UnpinsHeld (bunpin c k i) k i ops

/-- The `refcnt` of buffer `i` of bucket `k` after the sequence of calls. -/
def countAfter (c : Bcache) (k i : Nat) (ops : List PinOp) : Option Nat :=
  (getBuf (runPins c k i ops) k i).map Buf.refcnt

/-- `binit`: `initlock` on every bucket, whose spinlock is not part of the state, and
`initsleeplock` on every buffer.  `initsleeplock` of `sleeplock.c` is not among the sources;
modelled from the spec, it leaves the sleep lock free. -/
def binit (c : Bcache) : Bcache :=
  c.map (fun bucket => bucket.map (fun b => { b with lock := { locked := false, pid := 0 } }))

/-- A buffer of the zero-initialised array `bcache`; `BSIZE` (from `fs.h`, not among the
sources) is a parameter. -/
def zeroBuf (BSIZE : Nat) : Buf :=
  { valid := false, dev := 0, blockno := 0, lock := { locked := false, pid := 0 },
    refcnt := 0, timeticks := 0, data := List.replicate BSIZE 0 }

/-- The state after `binit` on the zero-initialised cache of `NBUCKET` buckets of `NBUF`
buffers, with the given disk content, at tick 0. -/
def bootState (NBUCKET NBUF BSIZE : Nat) (disk : Nat → Nat → List Nat) : BState :=
  { bcache := binit (List.replicate NBUCKET (List.replicate NBUF (zeroBuf BSIZE)))
    disk := disk
    ticks := 0 }

/-- The state a call of `bread` leaves. -/
def BreadResult.state : BreadResult → BState
  | .locked s _ => s
  | .asleep s _ => s
  | .panic s => s

/-- Whether the call of `bread` ended in `panic`. -/
def BreadResult.isPanic : BreadResult → Bool
  | .panic _ => true
  | _ => false

/-- One event at the boundary of the buffer cache: a call of one of its functions, a store
by a client into the payload of a buffer, a timer tick, or the wake-up of a sleeper. -/
inductive BOp where
  | bget (pid dev blockno : Nat) : BOp
  | bread (pid dev blockno : Nat) : BOp
  | bwrite (pid k i : Nat) : BOp
  | brelse (pid k i : Nat) : BOp
  | bpin (k i : Nat) : BOp
  | bunpin (k i : Nat) : BOp
  | store (k i : Nat) (data : List Nat) : BOp
  | tick : BOp
  | wake (w : Sleeper) : BOp

/-- Effect of one event.  A caller that sleeps in `acquiresleep` has updated the bucket and
is entered in `asleep`; the event `wake` lets it go on once the lock is free, and changes
nothing while the lock is held. -/
def bstep (NBUCKET : Nat) (s : BState) : BOp → Result BState
  | .bget pid dev blockno =>
    if (bget NBUCKET s.bcache pid dev blockno).isPanic then
      .panic { s with bcache := (bget NBUCKET s.bcache pid dev blockno).cache }
    else
      .ok { s with
        bcache := (bget NBUCKET s.bcache pid dev blockno).cache
        asleep := s.asleep ++
          (bget NBUCKET s.bcache pid dev blockno).sleeper pid (idx NBUCKET blockno) false }
  | .bread pid dev blockno =>
    if (bread NBUCKET s pid dev blockno).isPanic then
      .panic (bread NBUCKET s pid dev blockno).state
    else .ok (bread NBUCKET s pid dev blockno).state
  | .bwrite pid k i => bwrite s pid k i
  | .brelse pid k i => brelse s pid k i
  | .bpin k i => .ok { s with bcache := bpin s.bcache k i }
  | .bunpin k i => .ok { s with bcache := bunpin s.bcache k i }
  | .store k i data => .ok { s with bcache := updBuf s.bcache k i (fun b => { b with data := data }) }
  | .tick => .ok { s with ticks := uintInc s.ticks }
  | .wake w =>
    match wakeup s w with
    | some s' => .ok s'
    | none => .ok s

/-- The event respects the pin discipline: `bpin` and `bunpin` are applied to a buffer whose
`refcnt` is at least 1. -/
def BOp.pinsHeld (s : BState) : BOp → Prop
  | .bpin k i => ∃ e, getBuf s.bcache k i = some e ∧ 1 ≤ e.refcnt
  | .bunpin k i => ∃ e, getBuf s.bcache k i = some e ∧ 1 ≤ e.refcnt
  | _ => True

/-- States reachable from `s0` by events that satisfy `pre` in the state in which they occur
and that do not panic. -/
inductive BReachableBy (NBUCKET : Nat) (pre : BState → BOp → Prop) (s0 : BState) :
    BState → Prop where
  | init : BReachableBy NBUCKET pre s0 s0
  | step (s s' : BState) (op : BOp) (hs : BReachableBy NBUCKET pre s0 s) (hp : pre s op)
      (h : bstep NBUCKET s op = .ok s') : BReachableBy NBUCKET pre s0 s'

/-- Buffer `i` of bucket `k` is referenced: its `refcnt` is at least 1. -/
def held (c : Bcache) (k i : Nat) : Prop := ∃ e, getBuf c k i = some e ∧ 1 ≤ e.refcnt

/-- The state `t` is reached from `s` by events that satisfy `pre` in the state in which
they occur and that do not panic. -/
inductive RunBy (NBUCKET : Nat) (pre : BState → BOp → Prop) : BState → BState → Prop where
  | refl (s : BState) : RunBy NBUCKET pre s s
  | step (s t t' : BState) (op : BOp) (hs : RunBy NBUCKET pre s t) (hp : pre t op)
      (h : bstep NBUCKET t op = .ok t') : RunBy NBUCKET pre s t'

/-- The state `t` is reached from `s` by events each of which finds buffer `i` of bucket `k`
referenced. -/
def HeldRun (NBUCKET k i : Nat) (s t : BState) : Prop :=
  RunBy NBUCKET (fun u _ => held u.bcache k i) s t

/-- A buffer that is in use in some way: valid, locked or, when `r` is set, referenced. -/
def marked (r : Bool) (e : Buf) : Prop :=
  e.valid = true ∨ e.lock.locked = true ∨ (r = true ∧ 0 < e.refcnt)

/-- No buffer before position `i` in bucket `k` holds the block that `e` holds. -/
def FirstMatch (c : Bcache) (k i : Nat) (e : Buf) : Prop :=
  ∀ (j : Nat) (e' : Buf), j < i → getBuf c k j = some e' → ¬ e'.holds e.dev e.blockno

/-- Buffer `i` of bucket `k`, if there is one, sits in the bucket of its block number and is
the first buffer of that bucket holding its block. -/
def Settled (NBUCKET : Nat) (c : Bcache) (k i : Nat) : Prop :=
  ∀ e : Buf, getBuf c k i = some e → idx NBUCKET e.blockno = k ∧ FirstMatch c k i e

/-- Invariant of the sleepers: the buffer a process sleeps on is settled. -/
def SleepInv (NBUCKET : Nat) (s : BState) : Prop :=
  ∀ w ∈ s.asleep, Settled NBUCKET s.bcache w.k w.i

/-- Invariant of the cache: a buffer in use sits in the bucket of its block number and is
the first buffer of that bucket holding its block. -/
def CacheInv (NBUCKET : Nat) (r : Bool) (c : Bcache) : Prop :=
  ∀ (k i : Nat) (e : Buf), getBuf c k i = some e → marked r e →
    idx NBUCKET e.blockno = k ∧ FirstMatch c k i e

/-- The buffer after the transfer of `bread`: the payload is the disk content of the
buffer's block and `valid` is set. -/
def Buf.load (disk : Nat → Nat → List Nat) (b : Buf) : Buf :=
  { b with data := disk b.dev b.blockno, valid := true }

/-- A cache of one bucket with two buffers after boot, on an empty disk, in which process 1
has got block 0 of device 0 with `bget`: buffer 0 is in use, buffer 1 still holds the
initial `(0, 0)` with `refcnt = 0`. -/
def demoHeld : BState := (bstep 1 (bootState 1 2 0 (fun _ _ => [])) (.bget 1 0 0)).state

/-- The state `demoHeld` after a `bunpin` of the buffer process 1 holds: its `refcnt`
is 0. -/
def demoUnpinned : BState := (bstep 1 demoHeld (.bunpin 0 0)).state

/-- The state `smallState` before process 1 got block 9: the cache `smallCache` with an empty
disk at tick 9. -/
def smallStart : BState := { bcache := smallCache, disk := fun _ _ => [], ticks := 9 }

/-- The state `smallState` after process 3 has got block 11 of device 1, which falls in the
bucket of block 9, with `bget`. -/
def smallBusy : BState := (bstep 2 smallState (.bget 3 1 11)).state

/-- A cache of one bucket with one buffer after boot and two calls of `bunpin` on the
buffer: its `refcnt` has wrapped to `0xFFFFFFFE`. -/
def wrappedBoot : BState :=
  (bstep 1 (bstep 1 (bootState 1 1 0 (fun _ _ => [])) (.bunpin 0 0)).state (.bunpin 0 0)).state

end Bio

/-! ## Page allocator: auxiliary lemmas -/

namespace Kalloc

theorem PGSIZE_pos : 0 < PGSIZE := by decide

theorem PGROUNDUP_mod (a : Nat) : PGROUNDUP a % PGSIZE = 0 := by
  unfold PGROUNDUP
  exact Nat.mul_mod_left _ _

theorem PGROUNDUP_ge (a : Nat) : a ≤ PGROUNDUP a := by
  unfold PGROUNDUP PGSIZE
  omega

theorem PGROUNDUP_of_aligned (a : Nat) (h : a % PGSIZE = 0) : PGROUNDUP a = a := by
  unfold PGROUNDUP PGSIZE at *
  omega

theorem pushedPages_succ (p n : Nat) :
    pushedPages p (n + 1) = pushedPages (p + PGSIZE) n ++ [p] := by
  unfold pushedPages
  rw [List.range_succ_eq_map]
  simp only [List.map_cons, List.map_map, List.reverse_cons, Nat.zero_mul, Nat.add_zero]
  congr 2
  apply List.map_congr_left
  intro k _
  simp only [Function.comp, Nat.succ_mul]
  omega

theorem mem_pushedPages (p n q : Nat) :
    q ∈ pushedPages p n ↔ ∃ k, k < n ∧ q = p + k * PGSIZE := by
  unfold pushedPages
  simp only [List.mem_reverse, List.mem_map, List.mem_range]
  constructor
  · rintro ⟨k, hk, rfl⟩
    exact ⟨k, hk, rfl⟩
  · rintro ⟨k, hk, rfl⟩
    exact ⟨k, hk, rfl⟩

theorem pushedPages_nodup (p n : Nat) : (pushedPages p n).Nodup := by
  unfold pushedPages
  rw [List.nodup_reverse]
  apply List.Nodup.map _ (List.nodup_range n)
  intro a b hab
  simp only [PGSIZE] at hab
  omega

/-- A value in the range of an `int` is left alone by the wrap. -/
theorem wrapInt_of_range (x : Int) (h1 : INT_MIN ≤ x) (h2 : x ≤ INT_MAX) : wrapInt x = x := by
  unfold INT_MIN at h1
  unfold INT_MAX at h2
  unfold wrapInt
  omega

/-- The wrap of any value is in the range of an `int`. -/
theorem wrapInt_range (x : Int) : INT_MIN ≤ wrapInt x ∧ wrapInt x ≤ INT_MAX := by
  unfold INT_MIN INT_MAX wrapInt
  omega

@[simp] theorem wrapInt_zero : wrapInt 0 = 0 := by decide

@[simp] theorem wrapInt_one : wrapInt 1 = 1 := by decide

/-- The body of the loop of `freerange`: marking an accepted page with count 1 and freeing
it pushes the page and leaves its count at 0. -/
theorem kfree_after_mark (L : Layout) (s : KState) (p : Nat) (h : ¬ badPa L p) :
    kfree L { s with cnt := Function.update s.cnt (p / PGSIZE) 1 } p =
      .ok { cnt := Function.update s.cnt (p / PGSIZE) 0, freelist := p :: s.freelist } := by
  unfold kfree
  rw [if_neg h]
  simp

/-- One iteration of the loop of `freerange` on an accepted page pushes it and leaves its
count at 0. -/
theorem freerangeLoop_spec (L : Layout) (pa_end : Nat) (hend : pa_end ≤ L.PHYSTOP) :
    ∀ (n p : Nat) (s : KState), p % PGSIZE = 0 → L.kend ≤ p → n = (pa_end - p) / PGSIZE →
      freerangeLoop L pa_end p s = .ok
        { cnt := fun i => if p / PGSIZE ≤ i ∧ i < p / PGSIZE + n then 0 else s.cnt i,
          freelist := pushedPages p n ++ s.freelist } := by
  intro n
  induction n with
  | zero =>
    intro p s _ _ hn
    have hlt : ¬ (p + PGSIZE ≤ pa_end) := by
      intro h
      have : 1 ≤ (pa_end - p) / PGSIZE := by
        rw [Nat.le_div_iff_mul_le PGSIZE_pos]; omega
      omega
    rw [freerangeLoop, if_neg hlt]
    cases s
    simp only [pushedPages, List.range_zero, List.map_nil, List.reverse_nil, List.nil_append,
      Nat.add_zero]
    refine congrArg Result.ok ?_
    refine congrArg₂ KState.mk ?_ rfl
    funext i
    have : ¬ (p / PGSIZE ≤ i ∧ i < p / PGSIZE) := by omega
    rw [if_neg this]
  | succ n ih =>
    intro p s hp hk hn
    have hle : p + PGSIZE ≤ pa_end := by
      by_contra h
      have hpos := PGSIZE_pos
      have : (pa_end - p) / PGSIZE = 0 := by
        apply Nat.div_eq_of_lt; omega
      omega
    have hgood : ¬ badPa L p := by
      unfold badPa
      have := PGSIZE_pos
      omega
    have hn' : n = (pa_end - (p + PGSIZE)) / PGSIZE := by
      have h1 : pa_end - p = (pa_end - (p + PGSIZE)) + PGSIZE := by omega
      rw [h1, Nat.add_div_right _ PGSIZE_pos] at hn
      omega
    have hp' : (p + PGSIZE) % PGSIZE = 0 := by
      simp [Nat.add_mod, hp]
    have hdiv : (p + PGSIZE) / PGSIZE = p / PGSIZE + 1 := Nat.add_div_right _ PGSIZE_pos
    rw [freerangeLoop, if_pos hle, kfree_after_mark L s p hgood]
    simp only
    rw [ih (p + PGSIZE) _ hp' (by omega) hn', pushedPages_succ, hdiv]
    simp only [List.append_assoc, List.singleton_append]
    refine congrArg Result.ok ?_
    refine congrArg₂ KState.mk ?_ rfl
    funext i
    by_cases hi : i = p / PGSIZE
    · subst hi
      simp
    · simp only [Function.update_noteq hi]
      by_cases h1 : p / PGSIZE + 1 ≤ i ∧ i < p / PGSIZE + 1 + n
      · have h2 : p / PGSIZE ≤ i ∧ i < p / PGSIZE + (n + 1) := by omega
        simp [h1, h2]
      · have h2 : ¬ (p / PGSIZE ≤ i ∧ i < p / PGSIZE + (n + 1)) := by omega
        simp [h1, h2]

/-- The state `kinit` leaves: every count 0 and the pages of the range pushed in ascending
order. `kinit` never panics. -/
theorem kinit_eq (L : Layout) :
    kinit L = .ok
      { cnt := fun _ => 0,
        freelist := pushedPages (PGROUNDUP L.kend) ((L.PHYSTOP - PGROUNDUP L.kend) / PGSIZE) } := by
  unfold kinit freerange
  rw [freerangeLoop_spec L L.PHYSTOP (Nat.le_refl _) _ _ boot (PGROUNDUP_mod _)
    (PGROUNDUP_ge _) rfl]
  simp [boot]

end Kalloc

/-! ## Page allocator: the claims -/

namespace Kalloc

theorem pushedPages_two (p : Nat) : pushedPages p 2 = [p + PGSIZE, p] := by
  simp [pushedPages, List.range_succ]

theorem kfree_ok (L : Layout) (s : KState) (pa : Nat) (h : ¬ badPa L pa) :
    kfree L s pa = .ok
      { cnt := Function.update s.cnt (pa / PGSIZE) (wrapInt (s.cnt (pa / PGSIZE) - 1)),
        freelist :=
          if wrapInt (s.cnt (pa / PGSIZE) - 1) = 0 then pa :: s.freelist else s.freelist } := by
  unfold kfree
  rw [if_neg h]
  by_cases hc : wrapInt (s.cnt (pa / PGSIZE) - 1) = 0 <;> simp [hc]

theorem kaddrefcnt_ok (L : Layout) (s : KState) (pa : Nat) (h : ¬ badPa L pa) :
    kaddrefcnt L s pa =
      (0, { s with
        cnt := Function.update s.cnt (pa / PGSIZE) (wrapInt (s.cnt (pa / PGSIZE) + 1)) }) := by
  unfold kaddrefcnt
  rw [if_neg h]

theorem kalloc_cons (s : KState) (r : Nat) (rest : List Nat) (h : s.freelist = r :: rest) :
    kalloc s = (r, { cnt := Function.update s.cnt (r / PGSIZE) 1, freelist := rest }) := by
  unfold kalloc
  rw [h]

theorem kfree_last (L : Layout) (s : KState) (pa : Nat) (h : ¬ badPa L pa)
    (hc : s.cnt (pa / PGSIZE) = 1) :
    kfree L s pa = .ok
      { cnt := Function.update s.cnt (pa / PGSIZE) 0, freelist := pa :: s.freelist } := by
  rw [kfree_ok L s pa h, hc]
  simp

theorem kfree_shared (L : Layout) (s : KState) (pa : Nat) (h : ¬ badPa L pa)
    (hc : 1 < s.cnt (pa / PGSIZE)) (hm : s.cnt (pa / PGSIZE) ≤ INT_MAX) :
    kfree L s pa = .ok
      { cnt := Function.update s.cnt (pa / PGSIZE) (s.cnt (pa / PGSIZE) - 1),
        freelist := s.freelist } := by
  rw [kfree_ok L s pa h]
  have hw : wrapInt (s.cnt (pa / PGSIZE) - 1) = s.cnt (pa / PGSIZE) - 1 := by
    unfold INT_MAX at hm
    unfold wrapInt
    omega
  rw [hw]
  have : ¬ (s.cnt (pa / PGSIZE) - 1 = 0) := by omega
  rw [if_neg this]

theorem wrapInt_two : wrapInt (1 + 1) = 2 := by decide

theorem twoFrames_kinit : kinit twoFrames = .ok twoFramesInit := by
  rw [kinit_eq]
  have h1 : PGROUNDUP twoFrames.kend = 0x87FFE000 := by decide
  have h2 : (twoFrames.PHYSTOP - 0x87FFE000) / PGSIZE = 2 := by decide
  rw [h1, h2, pushedPages_two]
  rfl

theorem two_frames_range (L : Layout) (h2 : (L.PHYSTOP - PGROUNDUP L.kend) / PGSIZE = 2) :
    ¬ badPa L (PGROUNDUP L.kend + PGSIZE) := by
  have h1 := PGROUNDUP_mod L.kend
  have h3 := PGROUNDUP_ge L.kend
  have h4 : 2 * PGSIZE ≤ L.PHYSTOP - PGROUNDUP L.kend := by
    have := (Nat.le_div_iff_mul_le PGSIZE_pos).1 (Nat.le_of_eq h2.symm)
    omega
  unfold badPa
  unfold PGSIZE at *
  omega

theorem kinit_freelist_valid (L : Layout) (s : KState) (h : kinit L = .ok s) :
    ∀ p ∈ s.freelist, ¬ badPa L p := by
  rw [kinit_eq] at h
  injection h with h
  subst h
  intro p hp
  simp only [mem_pushedPages] at hp
  obtain ⟨k, hk, rfl⟩ := hp
  have h1 := PGROUNDUP_mod L.kend
  have h3 := PGROUNDUP_ge L.kend
  have h4 : (k + 1) * PGSIZE ≤ L.PHYSTOP - PGROUNDUP L.kend :=
    (Nat.le_div_iff_mul_le PGSIZE_pos).1 hk
  have h5 : (PGROUNDUP L.kend + k * PGSIZE) % PGSIZE = 0 := by
    rw [Nat.add_mul_mod_self_right]; exact h1
  have h6 : (k + 1) * PGSIZE = k * PGSIZE + PGSIZE := by ring
  have h7 := PGSIZE_pos
  unfold badPa
  omega

/-- C1, as stated, fails: after `kinit` over the two frames `P0 = 0x87FFE000` (first of the
range) and `P1 = 0x87FFF000`, the first `kalloc` returns `P1`, not `P0`. -/
theorem C1_first_kalloc_not_first_frame :
    (kinit twoFrames).isPanic = false ∧
      (kinit twoFrames).state.freelist = [0x87FFF000, 0x87FFE000] ∧
      (kalloc (kinit twoFrames).state).1 = 0x87FFF000 ∧
      (kalloc (kinit twoFrames).state).1 ≠ twoFrames.kend := by
  rw [twoFrames_kinit]
  simp [Result.state, Result.isPanic, kalloc, twoFrames, twoFramesInit]

/-- C1, amended: after `kinit` over a range holding exactly two frames `P0` and
`P1 = P0 + PGSIZE`, `kalloc` returns `P1` with count 1; `kaddrefcnt P1` succeeds and makes the
count 2; the first `kfree P1` makes it 1 and leaves the free list as it was (without `P1`);
the second `kfree P1` makes it 0 and pushes `P1`; the next `kalloc` returns `P1` again. -/
theorem C1_scenario_last_frame (L : Layout)
    (h2 : (L.PHYSTOP - PGROUNDUP L.kend) / PGSIZE = 2) :
    ∃ s0 s1 s2 s3 s4 s5 : KState,
      kinit L = .ok s0 ∧ s0.freelist = [PGROUNDUP L.kend + PGSIZE, PGROUNDUP L.kend] ∧
      kalloc s0 = (PGROUNDUP L.kend + PGSIZE, s1) ∧
      krefcnt s1 (PGROUNDUP L.kend + PGSIZE) = 1 ∧
      kaddrefcnt L s1 (PGROUNDUP L.kend + PGSIZE) = (0, s2) ∧
      krefcnt s2 (PGROUNDUP L.kend + PGSIZE) = 2 ∧
      kfree L s2 (PGROUNDUP L.kend + PGSIZE) = .ok s3 ∧
      krefcnt s3 (PGROUNDUP L.kend + PGSIZE) = 1 ∧
      s3.freelist = s2.freelist ∧ PGROUNDUP L.kend + PGSIZE ∉ s3.freelist ∧
      kfree L s3 (PGROUNDUP L.kend + PGSIZE) = .ok s4 ∧
      krefcnt s4 (PGROUNDUP L.kend + PGSIZE) = 0 ∧
      s4.freelist = (PGROUNDUP L.kend + PGSIZE) :: s3.freelist ∧
      kalloc s4 = (PGROUNDUP L.kend + PGSIZE, s5) := by
  have hv := two_frames_range L h2
  have hne : PGROUNDUP L.kend + PGSIZE ≠ PGROUNDUP L.kend := by
    have := PGSIZE_pos; omega
  have e0 := kinit_eq L
  rw [h2, pushedPages_two] at e0
  have e1 := kalloc_cons ⟨fun _ => 0, [PGROUNDUP L.kend + PGSIZE, PGROUNDUP L.kend]⟩ _ _ rfl
  have e2 := kaddrefcnt_ok L
    ⟨Function.update (fun _ => (0 : Int)) ((PGROUNDUP L.kend + PGSIZE) / PGSIZE) 1,
      [PGROUNDUP L.kend]⟩ _ hv
  simp only [Function.update_same, Function.update_idem] at e2
  rw [wrapInt_two] at e2
  have e3 := kfree_shared L
    ⟨Function.update (fun _ => (0 : Int)) ((PGROUNDUP L.kend + PGSIZE) / PGSIZE) 2,
      [PGROUNDUP L.kend]⟩ _ hv (by simp) (by simp [INT_MAX])
  simp only [Function.update_same, Function.update_idem] at e3
  have e4 := kfree_last L
    ⟨Function.update (fun _ => (0 : Int)) ((PGROUNDUP L.kend + PGSIZE) / PGSIZE) (2 - 1),
      [PGROUNDUP L.kend]⟩ _ hv (by simp)
  simp only [Function.update_same, Function.update_idem] at e4
  have e5 := kalloc_cons
    ⟨Function.update (fun _ => (0 : Int)) ((PGROUNDUP L.kend + PGSIZE) / PGSIZE) 0,
      [PGROUNDUP L.kend + PGSIZE, PGROUNDUP L.kend]⟩ _ _ rfl
  refine ⟨_, _, _, _, _, _, e0, rfl, e1, ?_, e2, ?_, e3, ?_, rfl, ?_, e4, ?_, rfl, e5⟩
  · simp [krefcnt]
  · simp [krefcnt]
  · simp [krefcnt]
  · simp [hne]
  · simp [krefcnt]

/-- Witness of `C1_scenario_last_frame` at the layout `twoFrames`. -/
theorem C1_scenario_last_frame_witness :
    (twoFrames.PHYSTOP - PGROUNDUP twoFrames.kend) / PGSIZE = 2 ∧
    ∃ s0 s1 s2 s3 s4 s5 : KState,
      kinit twoFrames = .ok s0 ∧
      s0.freelist = [PGROUNDUP twoFrames.kend + PGSIZE, PGROUNDUP twoFrames.kend] ∧
      kalloc s0 = (PGROUNDUP twoFrames.kend + PGSIZE, s1) ∧
      krefcnt s1 (PGROUNDUP twoFrames.kend + PGSIZE) = 1 ∧
      kaddrefcnt twoFrames s1 (PGROUNDUP twoFrames.kend + PGSIZE) = (0, s2) ∧
      krefcnt s2 (PGROUNDUP twoFrames.kend + PGSIZE) = 2 ∧
      kfree twoFrames s2 (PGROUNDUP twoFrames.kend + PGSIZE) = .ok s3 ∧
      krefcnt s3 (PGROUNDUP twoFrames.kend + PGSIZE) = 1 ∧
      s3.freelist = s2.freelist ∧ PGROUNDUP twoFrames.kend + PGSIZE ∉ s3.freelist ∧
      kfree twoFrames s3 (PGROUNDUP twoFrames.kend + PGSIZE) = .ok s4 ∧
      krefcnt s4 (PGROUNDUP twoFrames.kend + PGSIZE) = 0 ∧
      s4.freelist = (PGROUNDUP twoFrames.kend + PGSIZE) :: s3.freelist ∧
      kalloc s4 = (PGROUNDUP twoFrames.kend + PGSIZE, s5) :=
  ⟨by decide, C1_scenario_last_frame twoFrames (by decide)⟩

/-- C2: in every allocator state whose free list is not empty (a list of accepted pointers
that holds no page twice, as every linked list of pages pushed by `kfree` is), `kalloc`
followed at once by `kfree` of the returned page succeeds, the next `kalloc` returns the same
page, and the state (reference table and free list) after the second `kalloc` is the state
after the first. -/
theorem C2_alloc_free_alloc (L : Layout) (s : KState)
    (hv : ∀ p ∈ s.freelist, ¬ badPa L p) (hnd : s.freelist.Nodup) (hne : s.freelist ≠ []) :
    ∃ s2 : KState, kfree L (kalloc s).2 (kalloc s).1 = .ok s2 ∧
      (kalloc s).1 ∉ (kalloc s).2.freelist ∧
      s2.freelist = (kalloc s).1 :: (kalloc s).2.freelist ∧
      (kalloc s2).1 = (kalloc s).1 ∧ (kalloc s2).2 = (kalloc s).2 := by
  obtain ⟨p, rest, hfl⟩ := List.exists_cons_of_ne_nil hne
  have hp : ¬ badPa L p := hv p (by rw [hfl]; exact List.mem_cons_self _ _)
  have hn : p ∉ rest := by
    rw [hfl] at hnd
    exact (List.nodup_cons.1 hnd).1
  rw [kalloc_cons s p rest hfl]
  refine ⟨_, kfree_last L _ p hp (by simp), hn, rfl, ?_⟩
  rw [kalloc_cons _ p rest rfl]
  simp

/-- Witness of `C2_alloc_free_alloc` at the state `kinit` leaves for the layout
`twoFrames`. -/
theorem C2_alloc_free_alloc_witness :
    (∀ p ∈ twoFramesInit.freelist, ¬ badPa twoFrames p) ∧ twoFramesInit.freelist.Nodup ∧
    twoFramesInit.freelist ≠ [] ∧
    ∃ s2 : KState,
      kfree twoFrames (kalloc twoFramesInit).2 (kalloc twoFramesInit).1 = .ok s2 ∧
      (kalloc twoFramesInit).1 ∉ (kalloc twoFramesInit).2.freelist ∧
      s2.freelist = (kalloc twoFramesInit).1 :: (kalloc twoFramesInit).2.freelist ∧
      (kalloc s2).1 = (kalloc twoFramesInit).1 ∧ (kalloc s2).2 = (kalloc twoFramesInit).2 :=
  ⟨by decide, by decide, by decide,
    C2_alloc_free_alloc twoFrames twoFramesInit (by decide) (by decide) (by decide)⟩

/-- C3: let `kalloc` return the frame `p` (the head of the free list, an accepted pointer that
the list holds once).  Its count is then 1.  After `kaddrefcnt p` and one `kfree p` the free
list is still the one `kalloc` left, `p` is not on it and its count is 1; after a second
`kfree p` the page `p` is the head of the free list, occurs on it once, and its count is 0.
In any state, `kfree` of an accepted pointer with count `c > 1` (a value of an `int`, so at
most `INT_MAX`) sets the count to `c - 1` and leaves the free list unchanged, and with
count 1, the page not being on the free list, sets the count to 0 and pushes the page
once. -/
theorem C3_addref_then_two_frees (L : Layout) (s : KState) (p : Nat) (rest : List Nat)
    (hfl : s.freelist = p :: rest) (hv : ¬ badPa L p) (hnd : p ∉ rest) :
    (∃ s1 s2 s3 s4 : KState,
      kalloc s = (p, s1) ∧ krefcnt s1 p = 1 ∧
      kaddrefcnt L s1 p = (0, s2) ∧
      kfree L s2 p = .ok s3 ∧ s3.freelist = s1.freelist ∧ p ∉ s3.freelist ∧ krefcnt s3 p = 1 ∧
      kfree L s3 p = .ok s4 ∧ s4.freelist = p :: s3.freelist ∧ s4.freelist.count p = 1 ∧
        krefcnt s4 p = 0) ∧
    (∀ (t : KState) (q : Nat), ¬ badPa L q →
      (1 < krefcnt t q → krefcnt t q ≤ INT_MAX → kfree L t q = .ok
        { cnt := Function.update t.cnt (q / PGSIZE) (krefcnt t q - 1),
          freelist := t.freelist }) ∧
      (krefcnt t q = 1 → q ∉ t.freelist →
        kfree L t q = .ok
          { cnt := Function.update t.cnt (q / PGSIZE) 0, freelist := q :: t.freelist } ∧
        (q :: t.freelist).count q = 1)) := by
  constructor
  · have e1 := kalloc_cons s p rest hfl
    have e2 := kaddrefcnt_ok L ⟨Function.update s.cnt (p / PGSIZE) 1, rest⟩ p hv
    simp only [Function.update_same, Function.update_idem] at e2
    rw [wrapInt_two] at e2
    have e3 := kfree_shared L ⟨Function.update s.cnt (p / PGSIZE) 2, rest⟩ p hv (by simp)
      (by simp [INT_MAX])
    simp only [Function.update_same, Function.update_idem] at e3
    have e4 := kfree_last L ⟨Function.update s.cnt (p / PGSIZE) (2 - 1), rest⟩ p hv
      (by simp)
    simp only [Function.update_same, Function.update_idem] at e4
    refine ⟨_, _, _, _, e1, ?_, e2, e3, rfl, hnd, ?_, e4, rfl, ?_, ?_⟩
    · simp [krefcnt]
    · simp [krefcnt]
    · simp [List.count_cons, List.count_eq_zero_of_not_mem hnd]
    · simp [krefcnt]
  · intro t q hq
    constructor
    · intro hc hm
      exact kfree_shared L t q hq hc hm
    · intro hc hn
      refine ⟨kfree_last L t q hq hc, ?_⟩
      simp [List.count_cons, List.count_eq_zero_of_not_mem hn]

/-- Witness of `C3_addref_then_two_frees` at the state `kinit` leaves for the layout
`twoFrames`, whose free list is `[0x87FFF000, 0x87FFE000]`. -/
theorem C3_addref_then_two_frees_witness :
    twoFramesInit.freelist = 0x87FFF000 :: [0x87FFE000] ∧ ¬ badPa twoFrames 0x87FFF000 ∧
    0x87FFF000 ∉ [0x87FFE000] ∧
    (∃ s1 s2 s3 s4 : KState,
      kalloc twoFramesInit = (0x87FFF000, s1) ∧ krefcnt s1 0x87FFF000 = 1 ∧
      kaddrefcnt twoFrames s1 0x87FFF000 = (0, s2) ∧
      kfree twoFrames s2 0x87FFF000 = .ok s3 ∧ s3.freelist = s1.freelist ∧
        0x87FFF000 ∉ s3.freelist ∧ krefcnt s3 0x87FFF000 = 1 ∧
      kfree twoFrames s3 0x87FFF000 = .ok s4 ∧ s4.freelist = 0x87FFF000 :: s3.freelist ∧
        s4.freelist.count 0x87FFF000 = 1 ∧ krefcnt s4 0x87FFF000 = 0) :=
  ⟨rfl, by decide, by decide,
    (C3_addref_then_two_frees twoFrames twoFramesInit 0x87FFF000 [0x87FFE000] rfl (by decide)
      (by decide)).1⟩

/-- C4: `kalloc` on an empty free list returns 0 and leaves the state unchanged; otherwise
it returns the head of the free list, leaves the tail of the list as the new free list, sets
the count of the returned frame to 1 whatever it was, and leaves every other count
unchanged. -/
theorem C4_kalloc_contract (s : KState) :
    (s.freelist = [] → kalloc s = (0, s)) ∧
    (∀ (r : Nat) (rest : List Nat), s.freelist = r :: rest →
      (kalloc s).1 = r ∧ (kalloc s).2.freelist = rest ∧
      (kalloc s).2.cnt (r / PGSIZE) = 1 ∧
      ∀ i, i ≠ r / PGSIZE → (kalloc s).2.cnt i = s.cnt i) := by
  constructor
  · intro h
    unfold kalloc
    rw [h]
  · intro r rest h
    rw [kalloc_cons s r rest h]
    refine ⟨rfl, rfl, ?_, ?_⟩
    · simp
    · intro i hi
      simp [Function.update_noteq hi]

/-- C5: `kfree` panics exactly when the pointer is not a multiple of the page size, lies
below `end` or is not below `PHYSTOP`; the state at the panic is the state before the
call. -/
theorem C5_kfree_panics_iff_bad (L : Layout) (s : KState) (pa : Nat) :
    ((kfree L s pa).isPanic = true ↔ (pa % PGSIZE ≠ 0 ∨ pa < L.kend ∨ L.PHYSTOP ≤ pa)) ∧
    ((kfree L s pa).isPanic = true → kfree L s pa = .panic s) := by
  by_cases hb : badPa L pa
  · have h : kfree L s pa = .panic s := by
      unfold kfree
      rw [if_pos hb]
    rw [h]
    exact ⟨⟨fun _ => hb, fun _ => rfl⟩, fun _ => rfl⟩
  · rw [kfree_ok L s pa hb]
    constructor
    · constructor
      · intro h
        simp [Result.isPanic] at h
      · intro h
        exact absurd h hb
    · intro h
      simp [Result.isPanic] at h

theorem ReachableBy.mono (L : Layout) (pre pre' : KState → Op → Prop)
    (hpre : ∀ s op, pre s op → pre' s op) (s : KState) (h : ReachableBy L pre s) :
    ReachableBy L pre' s := by
  induction h with
  | init s h => exact ReachableBy.init s h
  | step s s' op _ hp h ih => exact ReachableBy.step s s' op ih (hpre s op hp) h

theorem twoFrames_top_ok : ¬ badPa twoFrames 0x87FFF000 := by decide

theorem sharedTimes_one : (kalloc twoFramesInit).2 = sharedTimes 1 := by
  rw [kalloc_cons twoFramesInit 0x87FFF000 [0x87FFE000] rfl]
  simp [sharedTimes, twoFramesInit]

/-- One more reference to the frame `0x87FFF000`, below `INT_MAX`. -/
theorem kaddrefcnt_sharedTimes (n : Nat) (h : n < 2147483647) :
    kaddrefcnt twoFrames (sharedTimes n) 0x87FFF000 = (0, sharedTimes (n + 1)) := by
  rw [kaddrefcnt_ok twoFrames (sharedTimes n) 0x87FFF000 twoFrames_top_ok]
  have hw : wrapInt ((n : Int) + 1) = ((n + 1 : Nat) : Int) := by
    unfold wrapInt
    omega
  simp only [sharedTimes, Function.update_same, Function.update_idem, hw]

/-- The frame `0x87FFF000` gets any number of references up to `INT_MAX` by calls that
respect ownership. -/
theorem sharedTimes_reachable (n : Nat) (h : n + 1 ≤ 2147483647) :
    ReachableOwned twoFrames (sharedTimes (n + 1)) := by
  induction n with
  | zero =>
    rw [← sharedTimes_one]
    exact ReachableBy.step twoFramesInit _ .alloc (ReachableBy.init _ twoFrames_kinit)
      trivial rfl
  | succ n ih =>
    have hk := kaddrefcnt_sharedTimes (n + 1) (by omega)
    refine ReachableBy.step (sharedTimes (n + 1)) _ (.addref 0x87FFF000) (ih (by omega))
      ⟨twoFrames_top_ok, ?_⟩ ?_
    · simp only [sharedTimes, Function.update_same]
      omega
    · simp only [step, hk]

theorem owned_validPtr (L : Layout) (s : KState) (op : Op) (h : op.owned L s) :
    op.validPtr L := by
  cases op with
  | alloc => trivial
  | free pa => exact h.1
  | addref pa => exact h.1

/-- C6, as stated, fails: the frame `0x87FFF000` of the layout `twoFrames`, returned by
`kalloc` after `kinit` and given `2^31 - 2` further references, has count `INT_MAX`; the
next `kaddrefcnt` on it, an accepted pointer, returns 0 and leaves the count at
`INT_MIN = -2147483648`, which is not the count plus 1. -/
theorem C6_kaddrefcnt_wraps_at_int_max :
    Reachable twoFrames (sharedTimes 2147483647) ∧
      krefcnt (sharedTimes 2147483647) 0x87FFF000 = 2147483647 ∧
      (kfree twoFrames (sharedTimes 2147483647) 0x87FFF000).isPanic = false ∧
      (kaddrefcnt twoFrames (sharedTimes 2147483647) 0x87FFF000).1 = 0 ∧
      krefcnt (kaddrefcnt twoFrames (sharedTimes 2147483647) 0x87FFF000).2 0x87FFF000 =
        -2147483648 ∧
      krefcnt (kaddrefcnt twoFrames (sharedTimes 2147483647) 0x87FFF000).2 0x87FFF000 ≠
        krefcnt (sharedTimes 2147483647) 0x87FFF000 + 1 := by
  have hk := kaddrefcnt_ok twoFrames (sharedTimes 2147483647) 0x87FFF000 twoFrames_top_ok
  have hc : krefcnt (sharedTimes 2147483647) 0x87FFF000 = 2147483647 := by
    simp [krefcnt, sharedTimes]
  have hw : wrapInt (2147483647 + 1) = -2147483648 := by decide
  have hn : krefcnt (kaddrefcnt twoFrames (sharedTimes 2147483647) 0x87FFF000).2 0x87FFF000 =
      -2147483648 := by
    rw [hk]
    unfold krefcnt at hc
    simp only [krefcnt, Function.update_same, hc, hw]
  refine ⟨ReachableBy.mono twoFrames _ _ (fun s op h => owned_validPtr twoFrames s op h) _
    (sharedTimes_reachable 2147483646 (by omega)), hc, ?_, ?_, hn, ?_⟩
  · rw [kfree_ok twoFrames _ 0x87FFF000 twoFrames_top_ok]
    rfl
  · rw [hk]
  · rw [hn, hc]
    decide

/-- C6, amended: `kaddrefcnt` returns -1 exactly for the pointers on which `kfree` panics,
and then leaves the state unchanged; for every other pointer it returns 0, increments the
count of the pointer's frame as the `int` it is (by exactly 1 when the count is below
`INT_MAX`, to `INT_MIN` when it is `INT_MAX`), and leaves every other count and the free
list unchanged. -/
theorem C6_kaddrefcnt_contract (L : Layout) (s : KState) (pa : Nat) :
    ((kaddrefcnt L s pa).1 = -1 ↔ (kfree L s pa).isPanic = true) ∧
    ((kaddrefcnt L s pa).1 = -1 ↔ (pa % PGSIZE ≠ 0 ∨ pa < L.kend ∨ L.PHYSTOP ≤ pa)) ∧
    ((kfree L s pa).isPanic = true → kaddrefcnt L s pa = (-1, s)) ∧
    ((kfree L s pa).isPanic = false →
      (kaddrefcnt L s pa).1 = 0 ∧
      (kaddrefcnt L s pa).2.cnt (pa / PGSIZE) = wrapInt (s.cnt (pa / PGSIZE) + 1) ∧
      (INT_MIN ≤ s.cnt (pa / PGSIZE) → s.cnt (pa / PGSIZE) < INT_MAX →
        (kaddrefcnt L s pa).2.cnt (pa / PGSIZE) = s.cnt (pa / PGSIZE) + 1) ∧
      (s.cnt (pa / PGSIZE) = INT_MAX → (kaddrefcnt L s pa).2.cnt (pa / PGSIZE) = INT_MIN) ∧
      (∀ i, i ≠ pa / PGSIZE → (kaddrefcnt L s pa).2.cnt i = s.cnt i) ∧
      (kaddrefcnt L s pa).2.freelist = s.freelist) := by
  by_cases hb : badPa L pa
  · have h1 : kfree L s pa = .panic s := by
      unfold kfree
      rw [if_pos hb]
    have h2 : kaddrefcnt L s pa = (-1, s) := by
      unfold kaddrefcnt
      rw [if_pos hb]
    rw [h1, h2]
    refine ⟨by simp [Result.isPanic], ⟨fun _ => hb, fun _ => rfl⟩, fun _ => rfl, ?_⟩
    simp [Result.isPanic]
  · have h1 : (kfree L s pa).isPanic = false := by
      rw [kfree_ok L s pa hb]
      rfl
    rw [h1, kaddrefcnt_ok L s pa hb]
    refine ⟨by simp, ⟨fun h => ?_, fun h => absurd h hb⟩, by simp,
      fun _ => ⟨rfl, by simp, ?_, ?_, ?_, rfl⟩⟩
    · simp at h
    · intro hlo hhi
      simp only [Function.update_same]
      unfold INT_MAX at hhi
      unfold INT_MIN at hlo
      unfold wrapInt
      omega
    · intro hmax
      simp only [Function.update_same, hmax]
      decide
    · intro i hi
      simp [Function.update_noteq hi]

/-- C7: after `kinit` with page-aligned `end` and `PHYSTOP`, the free list holds exactly the
page-aligned addresses `p` with `end ≤ p < PHYSTOP`, each once, and each has count 0. -/
theorem C7_kinit_seeds_every_frame (L : Layout) (hs : L.kend % PGSIZE = 0)
    (he : L.PHYSTOP % PGSIZE = 0) :
    ∃ s : KState, kinit L = .ok s ∧
      (∀ p, p ∈ s.freelist ↔ (p % PGSIZE = 0 ∧ L.kend ≤ p ∧ p < L.PHYSTOP)) ∧
      s.freelist.Nodup ∧
      (∀ p, p % PGSIZE = 0 → L.kend ≤ p → p < L.PHYSTOP → s.freelist.count p = 1) ∧
      ∀ p ∈ s.freelist, krefcnt s p = 0 := by
  have hmem : ∀ p, p ∈ pushedPages (PGROUNDUP L.kend) ((L.PHYSTOP - PGROUNDUP L.kend) / PGSIZE)
      ↔ (p % PGSIZE = 0 ∧ L.kend ≤ p ∧ p < L.PHYSTOP) := by
    intro p
    rw [PGROUNDUP_of_aligned L.kend hs, mem_pushedPages]
    constructor
    · rintro ⟨k, hk, rfl⟩
      have h4 : (k + 1) * PGSIZE ≤ L.PHYSTOP - L.kend :=
        (Nat.le_div_iff_mul_le PGSIZE_pos).1 hk
      have h5 : (L.kend + k * PGSIZE) % PGSIZE = 0 := by
        rw [Nat.add_mul_mod_self_right]; exact hs
      have h6 : (k + 1) * PGSIZE = k * PGSIZE + PGSIZE := by ring
      have h7 := PGSIZE_pos
      exact ⟨h5, by omega, by omega⟩
    · rintro ⟨h1, h2, h3⟩
      refine ⟨(p - L.kend) / PGSIZE, ?_, ?_⟩
      · rw [Nat.div_lt_iff_lt_mul PGSIZE_pos, Nat.div_mul_cancel]
        · omega
        · apply Nat.dvd_of_mod_eq_zero
          unfold PGSIZE at *
          omega
      · rw [Nat.div_mul_cancel]
        · omega
        · apply Nat.dvd_of_mod_eq_zero
          unfold PGSIZE at *
          omega
  refine ⟨_, kinit_eq L, hmem, pushedPages_nodup _ _, ?_, ?_⟩
  · intro p h1 h2 h3
    exact List.count_eq_one_of_mem (pushedPages_nodup _ _) ((hmem p).2 ⟨h1, h2, h3⟩)
  · intro p _
    rfl

/-- Witness of `C7_kinit_seeds_every_frame` at the layout `twoFrames`. -/
theorem C7_kinit_seeds_every_frame_witness :
    twoFrames.kend % PGSIZE = 0 ∧ twoFrames.PHYSTOP % PGSIZE = 0 ∧
    ∃ s : KState, kinit twoFrames = .ok s ∧
      (∀ p, p ∈ s.freelist ↔ (p % PGSIZE = 0 ∧ twoFrames.kend ≤ p ∧ p < twoFrames.PHYSTOP)) ∧
      s.freelist.Nodup ∧
      (∀ p, p % PGSIZE = 0 → twoFrames.kend ≤ p → p < twoFrames.PHYSTOP →
        s.freelist.count p = 1) ∧
      ∀ p ∈ s.freelist, krefcnt s p = 0 :=
  ⟨by decide, by decide, C7_kinit_seeds_every_frame twoFrames (by decide) (by decide)⟩

theorem aligned_div_inj (a b : Nat) (ha : a % PGSIZE = 0) (hb : b % PGSIZE = 0)
    (h : a / PGSIZE = b / PGSIZE) : a = b := by
  unfold PGSIZE at *
  omega

theorem not_badPa_aligned (L : Layout) (pa : Nat) (h : ¬ badPa L pa) : pa % PGSIZE = 0 := by
  unfold badPa at h
  omega

theorem kinit_freeListInv (L : Layout) (s : KState) (h : kinit L = .ok s) :
    FreeListInv L s := by
  refine ⟨kinit_freelist_valid L s h, ?_, ?_⟩
  · rw [kinit_eq] at h
    injection h with h
    subst h
    exact pushedPages_nodup _ _
  · rw [kinit_eq] at h
    injection h with h
    subst h
    intro p _
    rfl

theorem step_freeListInv (L : Layout) (s s' : KState) (op : Op) (hi : FreeListInv L s)
    (ho : op.owned L s) (h : step L s op = .ok s') : FreeListInv L s' := by
  obtain ⟨hv, hnd, hz⟩ := hi
  have hnot : ∀ pa, ¬ badPa L pa → 1 ≤ s.cnt (pa / PGSIZE) → pa ∉ s.freelist := by
    intro pa _ hc hmem
    have := hz pa hmem
    omega
  have hidx : ∀ pa p, ¬ badPa L pa → pa ∉ s.freelist → p ∈ s.freelist →
      p / PGSIZE ≠ pa / PGSIZE := by
    intro pa p hb hn hp heq
    have := aligned_div_inj p pa (not_badPa_aligned L p (hv p hp)) (not_badPa_aligned L pa hb) heq
    exact hn (this ▸ hp)
  cases op with
  | alloc =>
    simp only [step, Result.ok.injEq] at h
    subst h
    cases hfl : s.freelist with
    | nil =>
      have : kalloc s = (0, s) := by unfold kalloc; rw [hfl]
      rw [this]
      exact ⟨hv, hnd, hz⟩
    | cons r rest =>
      rw [kalloc_cons s r rest hfl]
      rw [hfl] at hv hnd hz
      have hr : r ∉ rest := (List.nodup_cons.1 hnd).1
      refine ⟨fun p hp => hv p (List.mem_cons_of_mem _ hp), (List.nodup_cons.1 hnd).2, ?_⟩
      intro p hp
      have hne : p / PGSIZE ≠ r / PGSIZE := by
        intro heq
        have := aligned_div_inj p r
          (not_badPa_aligned L p (hv p (List.mem_cons_of_mem _ hp)))
          (not_badPa_aligned L r (hv r (List.mem_cons_self _ _))) heq
        exact hr (this ▸ hp)
      simp only [Function.update_noteq hne]
      exact hz p (List.mem_cons_of_mem _ hp)
  | free pa =>
    obtain ⟨hb, hc⟩ := ho
    simp only [step] at h
    have hn := hnot pa hb hc
    rw [kfree_ok L s pa hb] at h
    injection h with h
    subst h
    by_cases h1 : wrapInt (s.cnt (pa / PGSIZE) - 1) = 0
    · rw [if_pos h1, h1]
      refine ⟨?_, List.nodup_cons.2 ⟨hn, hnd⟩, ?_⟩
      · intro p hp
        rcases List.mem_cons.1 hp with rfl | hp
        · exact hb
        · exact hv p hp
      · intro p hp
        rcases List.mem_cons.1 hp with rfl | hp
        · simp [krefcnt]
        · simp only [krefcnt, Function.update_noteq (hidx pa p hb hn hp)]
          exact hz p hp
    · rw [if_neg h1]
      refine ⟨hv, hnd, ?_⟩
      intro p hp
      simp only [krefcnt, Function.update_noteq (hidx pa p hb hn hp)]
      exact hz p hp
  | addref pa =>
    obtain ⟨hb, hc⟩ := ho
    simp only [step, Result.ok.injEq] at h
    subst h
    have hn := hnot pa hb hc
    rw [kaddrefcnt_ok L s pa hb]
    refine ⟨hv, hnd, ?_⟩
    intro p hp
    simp only [Function.update_noteq (hidx pa p hb hn hp)]
    exact hz p hp

/-- The free-list invariant holds in every state reached by ownership-respecting use. -/
theorem ReachableOwned.freeListInv (L : Layout) (s : KState) (h : ReachableOwned L s) :
    FreeListInv L s := by
  induction h with
  | init s h => exact kinit_freeListInv L s h
  | step s s' op _ ho h ih => exact step_freeListInv L s s' op ih ho h

theorem kinit_cnt_zero (L : Layout) (s : KState) (h : kinit L = .ok s) : ∀ i, s.cnt i = 0 := by
  rw [kinit_eq] at h
  injection h with h
  subst h
  intro i
  rfl

theorem addrefOnFreeFrame_eq :
    addrefOnFreeFrame =
      { cnt := Function.update (fun _ => 0) (0x87FFF000 / PGSIZE) 1,
        freelist := [0x87FFF000, 0x87FFE000] } := by
  unfold addrefOnFreeFrame
  rw [kaddrefcnt_ok twoFrames twoFramesInit 0x87FFF000 twoFrames_top_ok]
  simp [twoFramesInit]

/-- C8, as stated, fails: after `kinit` over the two frames `0x87FFE000` and `0x87FFF000`,
the single call `kaddrefcnt(0x87FFF000)`, on an accepted pointer, returns 0 and leaves
`0x87FFF000` on the free list with count 1. -/
theorem C8_addref_on_free_frame :
    Reachable twoFrames addrefOnFreeFrame ∧
      (kaddrefcnt twoFrames twoFramesInit 0x87FFF000).1 = 0 ∧
      0x87FFF000 ∈ addrefOnFreeFrame.freelist ∧ krefcnt addrefOnFreeFrame 0x87FFF000 = 1 := by
  refine ⟨ReachableBy.step twoFramesInit _ (.addref 0x87FFF000)
    (ReachableBy.init _ twoFrames_kinit) twoFrames_top_ok rfl, ?_, ?_, ?_⟩
  · rw [kaddrefcnt_ok twoFrames twoFramesInit 0x87FFF000 twoFrames_top_ok]
  · rw [addrefOnFreeFrame_eq]
    simp
  · rw [addrefOnFreeFrame_eq]
    simp [krefcnt]

/-- C8, amended: in every state reachable from `kinit` by `kalloc` and by `kfree` and
`kaddrefcnt` applied to accepted pointers whose frame has a count of at least 1, every frame
on the free list has count 0. -/
theorem C8_free_frames_have_count_zero (L : Layout) (s : KState) (h : ReachableOwned L s) :
    ∀ p ∈ s.freelist, krefcnt s p = 0 :=
  (ReachableOwned.freeListInv L s h).2.2

/-- Witness of `C8_free_frames_have_count_zero` at the state `kinit` leaves for the layout
`twoFrames`. -/
theorem C8_free_frames_have_count_zero_witness :
    ReachableOwned twoFrames twoFramesInit ∧
      ∀ p ∈ twoFramesInit.freelist, krefcnt twoFramesInit p = 0 :=
  ⟨ReachableBy.init _ twoFrames_kinit,
    C8_free_frames_have_count_zero twoFrames twoFramesInit (ReachableBy.init _ twoFrames_kinit)⟩

end Kalloc

/-! ## Buffer cache: auxiliary lemmas -/

namespace Bio

theorem modifyAt_getElem?_eq {α : Type} (f : α → α) (l : List α) (i : Nat) :
    (modifyAt f l i)[i]? = (l[i]?).map f := by
  induction l generalizing i with
  | nil => simp [modifyAt]
  | cons a as ih =>
    cases i with
    | zero => simp [modifyAt]
    | succ i => simp [modifyAt, ih]

theorem modifyAt_getElem?_ne {α : Type} (f : α → α) (l : List α) (i j : Nat) (h : j ≠ i) :
    (modifyAt f l i)[j]? = l[j]? := by
  induction l generalizing i j with
  | nil => simp [modifyAt]
  | cons a as ih =>
    cases i with
    | zero =>
      cases j with
      | zero => exact absurd rfl h
      | succ j => simp [modifyAt]
    | succ i =>
      cases j with
      | zero => simp [modifyAt]
      | succ j =>
        simp only [modifyAt, List.getElem?_cons_succ]
        exact ih i j (by omega)

theorem getD_set_self (c : Bcache) (index : Nat) (x : Bucket) (h : index < c.length) :
    (c.set index x).getD index [] = x := by
  simp [List.getD_eq_getElem?_getD, List.getElem?_set, h]

theorem getD_nil_of_length_le (c : Bcache) (index : Nat) (h : c.length ≤ index) :
    c.getD index [] = [] := by
  simp [List.getD_eq_getElem?_getD, List.getElem?_eq_none h]

/-- A scan that ends with `found` met a buffer holding `(dev, blockno)`. -/
theorem bgetScan_found (dev blockno : Nat) (bs : List Buf) :
    ∀ (i : Nat) (min_b : Option Nat) (mintime j : Nat),
      bgetScan dev blockno bs i min_b mintime = .found j →
      ∃ b ∈ bs, b.dev = dev ∧ b.blockno = blockno := by
  induction bs with
  | nil =>
    intro i min_b mintime j h
    simp [bgetScan] at h
  | cons b bs ih =>
    intro i min_b mintime j h
    unfold bgetScan at h
    split at h
    · rename_i hm
      exact ⟨b, List.mem_cons_self _ _, hm⟩
    · split at h
      · obtain ⟨b', hb', hm⟩ := ih _ _ _ _ h
        exact ⟨b', List.mem_cons_of_mem _ hb', hm⟩
      · obtain ⟨b', hb', hm⟩ := ih _ _ _ _ h
        exact ⟨b', List.mem_cons_of_mem _ hb', hm⟩

/-- A scan that ends with `notFound (some j) t` either kept the `min_b` it was entered with,
and then no idle buffer of the rest is older than `mintime`, or chose the buffer at position
`j`, which is idle, has `timeticks = t`, and is at least as old as every idle buffer of the
rest. -/
theorem bgetScan_notFound (dev blockno : Nat) (bs : List Buf) :
    ∀ (i : Nat) (min_b : Option Nat) (mintime j t : Nat),
      bgetScan dev blockno bs i min_b mintime = .notFound (some j) t →
      t ≤ mintime ∧ (∀ b ∈ bs, b.refcnt = 0 → t ≤ b.timeticks) ∧
      ((min_b = some j ∧ t = mintime) ∨
        (∃ e, i ≤ j ∧ bs[j - i]? = some e ∧ e.refcnt = 0 ∧ e.timeticks = t)) := by
  induction bs with
  | nil =>
    intro i min_b mintime j t h
    simp only [bgetScan, Scan.notFound.injEq] at h
    exact ⟨by omega, by simp, Or.inl ⟨h.1, h.2.symm⟩⟩
  | cons b bs ih =>
    intro i min_b mintime j t h
    unfold bgetScan at h
    split at h
    · exact absurd h (by simp)
    · split at h
      · rename_i hc
        obtain ⟨h1, h2, h3⟩ := ih _ _ _ _ _ h
        refine ⟨by omega, ?_, Or.inr ?_⟩
        · intro b' hb' hz
          rcases List.mem_cons.1 hb' with rfl | hb'
          · exact h1
          · exact h2 b' hb' hz
        · rcases h3 with ⟨hj, ht⟩ | ⟨e, hij, he, hz, ht⟩
          · injection hj with hj
            subst hj
            exact ⟨b, Nat.le_refl _, by simp, hc.1, ht.symm⟩
          · refine ⟨e, by omega, ?_, hz, ht⟩
            have : j - i = (j - (i + 1)) + 1 := by omega
            rw [this, List.getElem?_cons_succ]
            exact he
      · rename_i hc
        obtain ⟨h1, h2, h3⟩ := ih _ _ _ _ _ h
        refine ⟨h1, ?_, ?_⟩
        · intro b' hb' hz
          rcases List.mem_cons.1 hb' with rfl | hb'
          · have : ¬ (b'.timeticks < mintime) := fun hlt => hc ⟨hz, hlt⟩
            omega
          · exact h2 b' hb' hz
        · rcases h3 with h3 | ⟨e, hij, he, hz, ht⟩
          · exact Or.inl h3
          · refine Or.inr ⟨e, by omega, ?_, hz, ht⟩
            have : j - i = (j - (i + 1)) + 1 := by omega
            rw [this, List.getElem?_cons_succ]
            exact he

/-- When `acquiresleep` on buffer `i` of bucket `index` does not panic, it concerns buffer
`i`, leaves every other buffer of the bucket as it was, and changes at most the `lock` field
of buffer `i`. -/
theorem acquiresleepAt_spec (c c' : Bcache) (index i i' pid : Nat) (hlen : index < c.length)
    (h : acquiresleepAt c index i pid = .locked c' i' ∨
      acquiresleepAt c index i pid = .asleep c' i') :
    i' = i ∧ (∀ j, j ≠ i → (c'.getD index [])[j]? = (c.getD index [])[j]?) ∧
    ∃ b lk, (c.getD index [])[i]? = some b ∧
      (c'.getD index [])[i]? = some { b with lock := lk } := by
  unfold acquiresleepAt at h
  split at h
  · simp at h
  · rename_i b hb
    split at h
    · simp only [BgetResult.asleep.injEq, false_or, reduceCtorEq] at h
      obtain ⟨rfl, rfl⟩ := h
      exact ⟨rfl, fun _ _ => rfl, b, b.lock, hb, hb⟩
    · simp only [BgetResult.locked.injEq, or_false, reduceCtorEq] at h
      obtain ⟨rfl, rfl⟩ := h
      rw [getD_set_self _ _ _ hlen]
      refine ⟨rfl, fun j hj => modifyAt_getElem?_ne _ _ _ _ hj, b, ⟨true, pid⟩, hb, ?_⟩
      rw [modifyAt_getElem?_eq, hb]
      rfl

end Bio

/-! ## Buffer cache: the claims -/

namespace Bio

/-- C10: when no buffer of the target bucket holds `(dev, blockno)` and `bget` returns buffer
`i` of that bucket (with its lock taken, or sleeping on its lock), buffer `i` had
`refcnt = 0` before the call and its `timeticks` was at most the `timeticks` of every buffer
of the bucket with `refcnt = 0`; after the call it holds `dev` and `blockno`, is not valid
and has `refcnt = 1`.  Every other buffer of the bucket, and so every buffer with
`refcnt > 0`, is unchanged. -/
theorem C10_bget_recycles_oldest_idle (NBUCKET : Nat) (c c' : Bcache)
    (pid dev blockno i : Nat)
    (hmiss : ∀ b ∈ c.getD (idx NBUCKET blockno) [], ¬ (b.dev = dev ∧ b.blockno = blockno))
    (hret : bget NBUCKET c pid dev blockno = .locked c' i ∨
      bget NBUCKET c pid dev blockno = .asleep c' i) :
    ∃ e e' : Buf,
      (c.getD (idx NBUCKET blockno) [])[i]? = some e ∧ e.refcnt = 0 ∧
      (∀ b ∈ c.getD (idx NBUCKET blockno) [], b.refcnt = 0 → e.timeticks ≤ b.timeticks) ∧
      (c'.getD (idx NBUCKET blockno) [])[i]? = some e' ∧
      e'.dev = dev ∧ e'.blockno = blockno ∧ e'.valid = false ∧ e'.refcnt = 1 ∧
      (∀ j, j ≠ i →
        (c'.getD (idx NBUCKET blockno) [])[j]? = (c.getD (idx NBUCKET blockno) [])[j]?) ∧
      (∀ (j : Nat) (b : Buf), (c.getD (idx NBUCKET blockno) [])[j]? = some b → 0 < b.refcnt →
        (c'.getD (idx NBUCKET blockno) [])[j]? = some b) := by
  unfold bget at hret
  simp only at hret
  cases hscan : bgetScan dev blockno (c.getD (idx NBUCKET blockno) []) 0 none UINT_MAX with
  | found j =>
    obtain ⟨b, hb, hm⟩ := bgetScan_found _ _ _ _ _ _ _ hscan
    exact absurd hm (hmiss b hb)
  | notFound min_b t =>
    rw [hscan] at hret
    cases min_b with
    | none => simp at hret
    | some j =>
    simp only at hret
    obtain ⟨-, hmin, hsel⟩ := bgetScan_notFound _ _ _ _ _ _ _ _ hscan
    rcases hsel with ⟨hnone, -⟩ | ⟨e, -, he, hz, ht⟩
    · exact absurd hnone (by simp)
    · simp only [Nat.sub_zero] at he
      have hlen : idx NBUCKET blockno < c.length := by
        by_contra hge
        rw [getD_nil_of_length_le c _ (by omega)] at he
        simp at he
      have hlen' : idx NBUCKET blockno < (c.set (idx NBUCKET blockno) (modifyAt
          (fun b => { b with dev := dev, blockno := blockno, valid := false, refcnt := 1 })
          (c.getD (idx NBUCKET blockno) []) j)).length := by
        rw [List.length_set]; exact hlen
      obtain ⟨rfl, hothers, b, lk, hb, hb'⟩ := acquiresleepAt_spec _ _ _ _ _ _ hlen' hret
      rw [getD_set_self _ _ _ hlen] at hothers hb
      rw [modifyAt_getElem?_eq, he] at hb
      simp only [Option.map_some', Option.some.injEq] at hb
      subst hb
      have hrest : ∀ k, k ≠ i → (c'.getD (idx NBUCKET blockno) [])[k]? =
          (c.getD (idx NBUCKET blockno) [])[k]? := by
        intro k hk
        rw [hothers k hk, modifyAt_getElem?_ne _ _ _ _ hk]
      refine ⟨e, _, he, hz, ?_, hb', rfl, rfl, rfl, rfl, hrest, ?_⟩
      · intro b hb hbz
        rw [ht]
        exact hmin b hb hbz
      · intro k b hk hpos
        by_cases hki : k = i
        · subst hki
          rw [he] at hk
          injection hk with hk
          subst hk
          omega
        · rw [hrest k hki]
          exact hk

/-- Witness of `C10_bget_recycles_oldest_idle`: in `smallCache` with two buckets, process 1
asks for block 9 of device 1; bucket 1 does not hold it and `bget` returns buffer 2. -/
theorem C10_bget_recycles_oldest_idle_witness :
    (∀ b ∈ smallCache.getD (idx 2 9) [], ¬ (b.dev = 1 ∧ b.blockno = 9)) ∧
    bget 2 smallCache 1 1 9 = .locked smallCacheAfter 2 ∧
    ∃ e e' : Buf,
      (smallCache.getD (idx 2 9) [])[2]? = some e ∧ e.refcnt = 0 ∧
      (∀ b ∈ smallCache.getD (idx 2 9) [], b.refcnt = 0 → e.timeticks ≤ b.timeticks) ∧
      (smallCacheAfter.getD (idx 2 9) [])[2]? = some e' ∧
      e'.dev = 1 ∧ e'.blockno = 9 ∧ e'.valid = false ∧ e'.refcnt = 1 ∧
      (∀ j, j ≠ 2 →
        (smallCacheAfter.getD (idx 2 9) [])[j]? = (smallCache.getD (idx 2 9) [])[j]?) ∧
      (∀ (j : Nat) (b : Buf), (smallCache.getD (idx 2 9) [])[j]? = some b → 0 < b.refcnt →
        (smallCacheAfter.getD (idx 2 9) [])[j]? = some b) :=
  ⟨by decide, by decide,
    C10_bget_recycles_oldest_idle 2 smallCache smallCacheAfter 1 1 9 2 (by decide)
      (Or.inl (by decide))⟩

end Bio

/-! ## Page allocator: lock discipline and the free-list invariant -/

namespace Kalloc

theorem mem_kinit_iff_managed (L : Layout) (p : Nat) :
    p ∈ pushedPages (PGROUNDUP L.kend) ((L.PHYSTOP - PGROUNDUP L.kend) / PGSIZE) ↔
      managed L p := by
  have hb := PGROUNDUP_mod L.kend
  rw [mem_pushedPages]
  unfold managed
  constructor
  · rintro ⟨k, hk, rfl⟩
    have h4 : (k + 1) * PGSIZE ≤ L.PHYSTOP - PGROUNDUP L.kend :=
      (Nat.le_div_iff_mul_le PGSIZE_pos).1 hk
    have h5 : (PGROUNDUP L.kend + k * PGSIZE) % PGSIZE = 0 := by
      rw [Nat.add_mul_mod_self_right]; exact hb
    have h6 : (k + 1) * PGSIZE = k * PGSIZE + PGSIZE := by ring
    have h7 := PGSIZE_pos
    exact ⟨h5, by omega, by omega⟩
  · rintro ⟨h1, h2, h3⟩
    have hd : PGSIZE ∣ p - PGROUNDUP L.kend := by
      apply Nat.dvd_of_mod_eq_zero
      unfold PGSIZE at *
      omega
    refine ⟨(p - PGROUNDUP L.kend) / PGSIZE, ?_, ?_⟩
    · apply Nat.div_lt_of_lt_mul
      have h8 : p - PGROUNDUP L.kend + PGSIZE ≤ L.PHYSTOP - PGROUNDUP L.kend := by omega
      have h11 : (p - PGROUNDUP L.kend) / PGSIZE + 1 ≤
          (L.PHYSTOP - PGROUNDUP L.kend) / PGSIZE := by
        rw [Nat.le_div_iff_mul_le PGSIZE_pos, Nat.add_mul, Nat.div_mul_cancel hd]
        omega
      calc p - PGROUNDUP L.kend
          = (p - PGROUNDUP L.kend) / PGSIZE * PGSIZE := (Nat.div_mul_cancel hd).symm
        _ < ((p - PGROUNDUP L.kend) / PGSIZE + 1) * PGSIZE := by
            rw [Nat.add_mul]; have := PGSIZE_pos; omega
        _ ≤ (L.PHYSTOP - PGROUNDUP L.kend) / PGSIZE * PGSIZE :=
            Nat.mul_le_mul_right _ h11
        _ = PGSIZE * ((L.PHYSTOP - PGROUNDUP L.kend) / PGSIZE) := Nat.mul_comm _ _
    · rw [Nat.div_mul_cancel hd]
      omega

/-- Every call leaves every count a value of an `int`. -/
theorem step_cntInt (L : Layout) (s s' : KState) (op : Op) (hi : CntInt s)
    (h : step L s op = .ok s') : CntInt s' := by
  cases op with
  | alloc =>
    simp only [step, Result.ok.injEq] at h
    subst h
    cases hfl : s.freelist with
    | nil =>
      have : kalloc s = (0, s) := by unfold kalloc; rw [hfl]
      rw [this]
      exact hi
    | cons r rest =>
      rw [kalloc_cons s r rest hfl]
      intro i
      by_cases hir : i = r / PGSIZE
      · subst hir
        simp [INT_MIN, INT_MAX]
      · simp only [Function.update_noteq hir]
        exact hi i
  | free pa =>
    simp only [step] at h
    by_cases hb : badPa L pa
    · simp [kfree, hb] at h
    · rw [kfree_ok L s pa hb] at h
      injection h with h
      subst h
      intro i
      by_cases hir : i = pa / PGSIZE
      · subst hir
        simp only [Function.update_same]
        exact wrapInt_range _
      · simp only [Function.update_noteq hir]
        exact hi i
  | addref pa =>
    simp only [step, Result.ok.injEq] at h
    subst h
    by_cases hb : badPa L pa
    · have : kaddrefcnt L s pa = (-1, s) := by
        unfold kaddrefcnt
        rw [if_pos hb]
      rw [this]
      exact hi
    · rw [kaddrefcnt_ok L s pa hb]
      intro i
      by_cases hir : i = pa / PGSIZE
      · subst hir
        simp only [Function.update_same]
        exact wrapInt_range _
      · simp only [Function.update_noteq hir]
        exact hi i

/-- In every state reached from `kinit` every count is a value of an `int`. -/
theorem ReachableBy.cntInt (L : Layout) (pre : KState → Op → Prop) (s : KState)
    (h : ReachableBy L pre s) : CntInt s := by
  induction h with
  | init s h =>
    intro i
    rw [kinit_cnt_zero L s h i]
    simp [INT_MIN, INT_MAX]
  | step s s' op _ _ h ih => exact step_cntInt L s s' op ih h

/-- Under ownership-respecting use a managed frame with count 0 is on the free list. -/
theorem step_zero_on_list (L : Layout) (s s' : KState) (op : Op) (hr : CntInt s)
    (hz : ∀ p, managed L p → s.cnt (p / PGSIZE) = 0 → p ∈ s.freelist)
    (ho : op.owned L s) (h : step L s op = .ok s') :
    ∀ p, managed L p → s'.cnt (p / PGSIZE) = 0 → p ∈ s'.freelist := by
  cases op with
  | alloc =>
    simp only [step, Result.ok.injEq] at h
    subst h
    cases hfl : s.freelist with
    | nil =>
      have : kalloc s = (0, s) := by unfold kalloc; rw [hfl]
      rw [this]
      exact hz
    | cons r rest =>
      rw [kalloc_cons s r rest hfl]
      intro p hm hc
      by_cases hpr : p / PGSIZE = r / PGSIZE
      · rw [hpr] at hc
        simp only [Function.update_same] at hc
        exact absurd hc (by decide)
      · simp only [Function.update_noteq hpr] at hc
        have hmem := hz p hm hc
        rw [hfl] at hmem
        rcases List.mem_cons.1 hmem with rfl | hmem
        · exact absurd rfl hpr
        · exact hmem
  | free pa =>
    obtain ⟨hb, hc⟩ := ho
    simp only [step] at h
    rw [kfree_ok L s pa hb] at h
    injection h with h
    subst h
    by_cases h1 : wrapInt (s.cnt (pa / PGSIZE) - 1) = 0
    · rw [if_pos h1]
      intro p hm hcp
      by_cases hpr : p / PGSIZE = pa / PGSIZE
      · have := aligned_div_inj p pa hm.1 (not_badPa_aligned L pa hb) hpr
        rw [this]
        exact List.mem_cons_self _ _
      · simp only [Function.update_noteq hpr] at hcp
        exact List.mem_cons_of_mem _ (hz p hm hcp)
    · rw [if_neg h1]
      intro p hm hcp
      by_cases hpr : p / PGSIZE = pa / PGSIZE
      · rw [hpr] at hcp
        simp only [Function.update_same] at hcp
        exact absurd hcp h1
      · simp only [Function.update_noteq hpr] at hcp
        exact hz p hm hcp
  | addref pa =>
    obtain ⟨hb, hc⟩ := ho
    simp only [step, Result.ok.injEq] at h
    subst h
    rw [kaddrefcnt_ok L s pa hb]
    intro p hm hcp
    by_cases hpr : p / PGSIZE = pa / PGSIZE
    · rw [hpr] at hcp
      simp only [Function.update_same] at hcp
      have := (hr (pa / PGSIZE)).2
      unfold INT_MAX at this
      unfold wrapInt at hcp
      omega
    · simp only [Function.update_noteq hpr] at hcp
      exact hz p hm hcp

theorem ReachableOwned.zero_on_list (L : Layout) (s : KState) (h : ReachableOwned L s) :
    FreeListInv L s ∧ ∀ p, managed L p → s.cnt (p / PGSIZE) = 0 → p ∈ s.freelist := by
  induction h with
  | init s h =>
    refine ⟨kinit_freeListInv L s h, ?_⟩
    rw [kinit_eq] at h
    injection h with h
    subst h
    intro p hm _
    exact (mem_kinit_iff_managed L p).2 hm
  | step s s' op hs ho h ih =>
    exact ⟨step_freeListInv L s s' op ih.1 ho h,
      step_zero_on_list L s s' op (ReachableBy.cntInt L _ s hs) ih.2 ho h⟩

/-- Calls other than `free` put no page on the free list. -/
theorem OwnedNoFree.freelist_subset (L : Layout) (s t : KState) (h : OwnedNoFree L s t) :
    ∀ p ∈ t.freelist, p ∈ s.freelist := by
  induction h with
  | refl => exact fun _ hp => hp
  | step t t' op _ ho hf h ih =>
    intro p hp
    apply ih
    cases op with
    | alloc =>
      simp only [Kalloc.step, Result.ok.injEq] at h
      subst h
      cases hfl : t.freelist with
      | nil =>
        have : kalloc t = (0, t) := by unfold kalloc; rw [hfl]
        rw [this, hfl] at hp
        exact hp
      | cons r rest =>
        rw [kalloc_cons t r rest hfl] at hp
        exact List.mem_cons_of_mem _ hp
    | free pa => simp [Op.isFree] at hf
    | addref pa =>
      simp only [Kalloc.step, Result.ok.injEq] at h
      subst h
      rw [kaddrefcnt_ok L t pa ho.1] at hp
      exact hp

/-- C19: in every state reachable from `kinit` by `kalloc` and by `kfree` and `kaddrefcnt`
applied to accepted pointers whose frame has a count of at least 1, no frame is on the free
list twice and a managed frame is on the free list exactly when its count is 0.  So `kalloc`
on a non-empty free list returns a frame whose count is 0, not one whose count is at least
1, and a later `kalloc` reached through calls none of which is a `kfree` returns a frame
other than the first. -/
theorem C19_free_list_exact_under_ownership (L : Layout) (s : KState)
    (h : ReachableOwned L s) :
    s.freelist.Nodup ∧
    (∀ p, managed L p → (p ∈ s.freelist ↔ krefcnt s p = 0)) ∧
    (∀ (r : Nat) (rest : List Nat), s.freelist = r :: rest →
      (kalloc s).1 = r ∧ krefcnt s r = 0 ∧ ¬ (1 ≤ krefcnt s r)) ∧
    (∀ (r r2 : Nat) (rest rest2 : List Nat) (t : KState), s.freelist = r :: rest →
      OwnedNoFree L (kalloc s).2 t → t.freelist = r2 :: rest2 →
      (kalloc s).1 = r ∧ (kalloc t).1 = r2 ∧ r2 ≠ r) := by
  obtain ⟨⟨hv, hnd, hz⟩, hon⟩ := ReachableOwned.zero_on_list L s h
  refine ⟨hnd, ?_, ?_, ?_⟩
  · intro p hm
    exact ⟨fun hp => hz p hp, fun hc => hon p hm hc⟩
  · intro r rest hfl
    have hr : krefcnt s r = 0 := hz r (by rw [hfl]; exact List.mem_cons_self _ _)
    rw [kalloc_cons s r rest hfl]
    exact ⟨rfl, hr, by omega⟩
  · intro r r2 rest rest2 t hfl hsteps ht
    have hsub := OwnedNoFree.freelist_subset L _ t hsteps r2
      (by rw [ht]; exact List.mem_cons_self _ _)
    rw [kalloc_cons s r rest hfl] at hsub
    rw [hfl] at hnd
    rw [kalloc_cons s r rest hfl, kalloc_cons t r2 rest2 ht]
    refine ⟨rfl, rfl, ?_⟩
    intro heq
    rw [heq] at hsub
    exact (List.nodup_cons.1 hnd).1 hsub

/-- Witness of `C19_free_list_exact_under_ownership` at the state `kinit` leaves for the
layout `twoFrames`. -/
theorem C19_free_list_exact_under_ownership_witness :
    ReachableOwned twoFrames twoFramesInit ∧
    twoFramesInit.freelist.Nodup ∧
    (∀ p, managed twoFrames p → (p ∈ twoFramesInit.freelist ↔ krefcnt twoFramesInit p = 0)) ∧
    (∀ (r : Nat) (rest : List Nat), twoFramesInit.freelist = r :: rest →
      (kalloc twoFramesInit).1 = r ∧ krefcnt twoFramesInit r = 0 ∧
      ¬ (1 ≤ krefcnt twoFramesInit r)) ∧
    (∀ (r r2 : Nat) (rest rest2 : List Nat) (t : KState), twoFramesInit.freelist = r :: rest →
      OwnedNoFree twoFrames (kalloc twoFramesInit).2 t → t.freelist = r2 :: rest2 →
      (kalloc twoFramesInit).1 = r ∧ (kalloc t).1 = r2 ∧ r2 ≠ r) :=
  ⟨ReachableBy.init _ twoFrames_kinit,
    C19_free_list_exact_under_ownership twoFrames twoFramesInit
      (ReachableBy.init _ twoFrames_kinit)⟩

theorem kfreeLocks_after_mark (L : Layout) (s : KState) (p : Nat) (h : ¬ badPa L p) :
    kfreeLocks L { s with cnt := Function.update s.cnt (p / PGSIZE) 1 } p =
      [.acquire .ref, .release .ref, .acquire .kmem, .release .kmem] := by
  unfold kfreeLocks
  rw [if_neg h]
  simp

theorem everBoth_kfree_prefix (evs : List LockEv) :
    everBoth (false, false)
      ([.acquire .ref, .release .ref, .acquire .kmem, .release .kmem] ++ evs) =
      everBoth (false, false) evs := by
  simp [everBoth, LockEv.apply]

/-- The loop of `freerange` never holds both locks. -/
theorem freerangeLoopLocks_never_both (L : Layout) (pa_end : Nat) (hend : pa_end ≤ L.PHYSTOP) :
    ∀ (n p : Nat) (s : KState), p % PGSIZE = 0 → L.kend ≤ p → n = (pa_end - p) / PGSIZE →
      everBoth (false, false) (freerangeLoopLocks L pa_end p s) = false := by
  intro n
  induction n with
  | zero =>
    intro p s _ _ hn
    have hlt : ¬ (p + PGSIZE ≤ pa_end) := by
      intro h
      have : 1 ≤ (pa_end - p) / PGSIZE := by
        rw [Nat.le_div_iff_mul_le PGSIZE_pos]; omega
      omega
    rw [freerangeLoopLocks, if_neg hlt]
    rfl
  | succ n ih =>
    intro p s hp hk hn
    have hle : p + PGSIZE ≤ pa_end := by
      by_contra h
      have hpos := PGSIZE_pos
      have : (pa_end - p) / PGSIZE = 0 := by
        apply Nat.div_eq_of_lt; omega
      omega
    have hgood : ¬ badPa L p := by
      unfold badPa
      have := PGSIZE_pos
      omega
    have hn' : n = (pa_end - (p + PGSIZE)) / PGSIZE := by
      have h1 : pa_end - p = (pa_end - (p + PGSIZE)) + PGSIZE := by omega
      rw [h1, Nat.add_div_right _ PGSIZE_pos] at hn
      omega
    have hp' : (p + PGSIZE) % PGSIZE = 0 := by
      simp [Nat.add_mod, hp]
    rw [freerangeLoopLocks, if_pos hle, kfree_after_mark L s p hgood,
      kfreeLocks_after_mark L s p hgood, everBoth_kfree_prefix]
    exact ih (p + PGSIZE) _ hp' (by omega) hn'

/-- C17, as stated, fails: `kalloc` on the non-empty free list that `kinit` leaves for the
layout `twoFrames` acquires `ref.lock` while it holds `kmem.lock`. -/
theorem C17_kalloc_holds_both_locks :
    kallocLocks twoFramesInit =
      [.acquire .kmem, .acquire .ref, .release .ref, .release .kmem] ∧
    everBoth (false, false) (kallocLocks twoFramesInit) = true := by
  constructor <;> rfl

/-- C17, amended: `kinit`, `kfree` and `kaddrefcnt` never hold `ref.lock` and `kmem.lock`
at once.  `kalloc` holds both exactly when the free list is not empty: it then acquires
`ref.lock` while holding `kmem.lock` and releases it before releasing `kmem.lock`; on an
empty free list it takes and releases `kmem.lock` only. -/
theorem C17_lock_discipline (L : Layout) (s : KState) (pa : Nat) :
    everBoth (false, false) (kinitLocks L) = false ∧
    everBoth (false, false) (kfreeLocks L s pa) = false ∧
    everBoth (false, false) (kaddrefcntLocks L pa) = false ∧
    (everBoth (false, false) (kallocLocks s) = true ↔ s.freelist ≠ []) ∧
    (s.freelist ≠ [] →
      kallocLocks s = [.acquire .kmem, .acquire .ref, .release .ref, .release .kmem]) ∧
    (s.freelist = [] → kallocLocks s = [.acquire .kmem, .release .kmem]) := by
  refine ⟨?_, ?_, ?_, ?_, ?_, ?_⟩
  · unfold kinitLocks
    exact freerangeLoopLocks_never_both L L.PHYSTOP (Nat.le_refl _) _ _ boot
      (PGROUNDUP_mod _) (PGROUNDUP_ge _) rfl
  · unfold kfreeLocks
    split
    · rfl
    · split <;> rfl
  · unfold kaddrefcntLocks
    split <;> rfl
  · unfold kallocLocks
    cases s.freelist with
    | nil => simp [everBoth, LockEv.apply]
    | cons r rest => simp [everBoth, LockEv.apply]
  · intro hne
    unfold kallocLocks
    cases hfl : s.freelist with
    | nil => exact absurd hfl hne
    | cons r rest => rfl
  · intro he
    unfold kallocLocks
    rw [he]

end Kalloc

/-! ## Buffer cache: how `bget` ends -/

namespace Bio

theorem getD_set_ne (c : Bcache) (k k' : Nat) (x : Bucket) (h : k' ≠ k) :
    (c.set k x).getD k' [] = c.getD k' [] := by
  simp [List.getD_eq_getElem?_getD, List.getElem?_set_ne (Ne.symm h)]

theorem getBuf_updBuf_same (c : Bcache) (k i : Nat) (f : Buf → Buf) :
    getBuf (updBuf c k i f) k i = (getBuf c k i).map f := by
  unfold getBuf updBuf
  by_cases hk : k < c.length
  · rw [getD_set_self _ _ _ hk, modifyAt_getElem?_eq]
  · have hnil := getD_nil_of_length_le c k (by omega)
    rw [List.set_eq_of_length_le (by omega), hnil]
    simp

theorem getBuf_updBuf_ne (c : Bcache) (k i k' i' : Nat) (f : Buf → Buf)
    (h : ¬ (k' = k ∧ i' = i)) :
    getBuf (updBuf c k i f) k' i' = getBuf c k' i' := by
  unfold getBuf updBuf
  by_cases hk' : k' = k
  · subst hk'
    have hi : i' ≠ i := fun hi => h ⟨rfl, hi⟩
    by_cases hk : k' < c.length
    · rw [getD_set_self _ _ _ hk, modifyAt_getElem?_ne _ _ _ _ hi]
    · rw [List.set_eq_of_length_le (by omega)]
  · rw [getD_set_ne _ _ _ _ hk']

theorem getD_updBuf_ne (c : Bcache) (k i k' : Nat) (f : Buf → Buf) (h : k' ≠ k) :
    (updBuf c k i f).getD k' [] = c.getD k' [] := by
  unfold updBuf
  exact getD_set_ne _ _ _ _ h

theorem length_updBuf (c : Bcache) (k i : Nat) (f : Buf → Buf) :
    (updBuf c k i f).length = c.length := by
  unfold updBuf
  exact List.length_set _ _ _

theorem modifyAt_modifyAt {α : Type} (f g : α → α) (l : List α) (i : Nat) :
    modifyAt g (modifyAt f l i) i = modifyAt (fun a => g (f a)) l i := by
  induction l generalizing i with
  | nil => simp [modifyAt]
  | cons a as ih =>
    cases i with
    | zero => simp [modifyAt]
    | succ i => simp [modifyAt, ih]

theorem updBuf_updBuf (c : Bcache) (k i : Nat) (f g : Buf → Buf) :
    updBuf (updBuf c k i f) k i g = updBuf c k i (fun b => g (f b)) := by
  unfold updBuf
  by_cases hk : k < c.length
  · rw [getD_set_self _ _ _ hk, List.set_set, modifyAt_modifyAt]
  · have h1 : c.set k (modifyAt f (c.getD k []) i) = c := List.set_eq_of_length_le (by omega)
    rw [h1, List.set_eq_of_length_le (by omega), List.set_eq_of_length_le (by omega)]

/-- A scan that ends with `found j` stopped at the first buffer holding `(dev, blockno)`. -/
theorem bgetScan_found_first (dev blockno : Nat) (bs : List Buf) :
    ∀ (o : Nat) (min_b : Option Nat) (mintime j : Nat),
      bgetScan dev blockno bs o min_b mintime = .found j →
      o ≤ j ∧ ∃ e, bs[j - o]? = some e ∧ e.holds dev blockno ∧
        ∀ (j' : Nat) (e' : Buf), j' < j - o → bs[j']? = some e' → ¬ e'.holds dev blockno := by
  induction bs with
  | nil =>
    intro o min_b mintime j h
    simp [bgetScan] at h
  | cons b bs ih =>
    intro o min_b mintime j h
    unfold bgetScan at h
    split at h
    · rename_i hm
      injection h with h
      subst h
      refine ⟨Nat.le_refl _, b, by simp, hm, ?_⟩
      intro j' e' hj'
      omega
    · rename_i hm
      have key : ∀ (m : Option Nat) (t : Nat), bgetScan dev blockno bs (o + 1) m t = .found j →
          o ≤ j ∧ ∃ e, (b :: bs)[j - o]? = some e ∧ e.holds dev blockno ∧
            ∀ (j' : Nat) (e' : Buf), j' < j - o → (b :: bs)[j']? = some e' →
              ¬ e'.holds dev blockno := by
        intro m t h'
        obtain ⟨hle, e, he, hh, hfirst⟩ := ih _ _ _ _ h'
        have hjo : j - o = (j - (o + 1)) + 1 := by omega
        refine ⟨by omega, e, ?_, hh, ?_⟩
        · rw [hjo, List.getElem?_cons_succ]
          exact he
        · intro j' e' hj' he'
          cases j' with
          | zero =>
            simp only [List.getElem?_cons_zero, Option.some.injEq] at he'
            subst he'
            exact hm
          | succ j' =>
            rw [List.getElem?_cons_succ] at he'
            exact hfirst j' e' (by omega) he'
      split at h
      · exact key _ _ h
      · exact key _ _ h

/-- A scan that ends with `notFound` met no buffer holding `(dev, blockno)`. -/
theorem bgetScan_notFound_nomatch (dev blockno : Nat) (bs : List Buf) :
    ∀ (o : Nat) (min_b : Option Nat) (mintime : Nat) (m : Option Nat) (t : Nat),
      bgetScan dev blockno bs o min_b mintime = .notFound m t →
      ∀ e ∈ bs, ¬ e.holds dev blockno := by
  induction bs with
  | nil =>
    intro o min_b mintime m t _ e he
    simp at he
  | cons b bs ih =>
    intro o min_b mintime m t h e he
    unfold bgetScan at h
    split at h
    · exact absurd h (by simp)
    · rename_i hm
      rcases List.mem_cons.1 he with rfl | he
      · exact hm
      · split at h
        · exact ih _ _ _ _ _ h e he
        · exact ih _ _ _ _ _ h e he

/-- A scan that ends with no candidate was entered without one and met no buffer with
`refcnt == 0` and `timeticks < mintime`. -/
theorem bgetScan_none (dev blockno : Nat) (bs : List Buf) :
    ∀ (o : Nat) (min_b : Option Nat) (mintime t : Nat),
      bgetScan dev blockno bs o min_b mintime = .notFound none t →
      min_b = none ∧ ∀ e ∈ bs, ¬ (e.refcnt = 0 ∧ e.timeticks < mintime) := by
  induction bs with
  | nil =>
    intro o min_b mintime t h
    simp only [bgetScan, Scan.notFound.injEq] at h
    exact ⟨h.1, by simp⟩
  | cons b bs ih =>
    intro o min_b mintime t h
    unfold bgetScan at h
    split at h
    · exact absurd h (by simp)
    · split at h
      · have := (ih _ _ _ _ h).1
        exact absurd this (by simp)
      · rename_i hc
        obtain ⟨h1, h2⟩ := ih _ _ _ _ h
        refine ⟨h1, ?_⟩
        intro e he
        rcases List.mem_cons.1 he with rfl | he
        · exact hc
        · exact h2 e he

/-- What `acquiresleep` does to a buffer that `bget` has just rewritten with `F`, when `F`
leaves the sleep lock alone. -/
theorem acquiresleepAt_updBuf (c : Bcache) (k i pid : Nat) (F : Buf → Buf) (e : Buf)
    (he : getBuf c k i = some e) (hl : (F e).lock = e.lock) :
    acquiresleepAt (updBuf c k i F) k i pid =
      if e.lock.locked then .asleep (updBuf c k i F) i
      else .locked (updBuf c k i (fun b => (F b).lockBy pid)) i := by
  have h1 : getBuf (updBuf c k i F) k i = some (F e) := by
    rw [getBuf_updBuf_same, he]
    rfl
  unfold getBuf at h1
  unfold acquiresleepAt
  rw [h1]
  simp only [hl]
  split
  · rfl
  · congr 1
    exact updBuf_updBuf c k i F (Buf.lockBy pid)

/-- A candidate chosen by the scan is strictly older than the `mintime` the scan was entered
with. -/
theorem bgetScan_some_lt (dev blockno : Nat) (bs : List Buf) :
    ∀ (o : Nat) (min_b : Option Nat) (mintime j t : Nat),
      bgetScan dev blockno bs o min_b mintime = .notFound (some j) t →
      (min_b = some j ∧ t = mintime) ∨ t < mintime := by
  induction bs with
  | nil =>
    intro o min_b mintime j t h
    simp only [bgetScan, Scan.notFound.injEq] at h
    exact Or.inl ⟨h.1, h.2.symm⟩
  | cons b bs ih =>
    intro o min_b mintime j t h
    unfold bgetScan at h
    split at h
    · exact absurd h (by simp)
    · split at h
      · rename_i hc
        rcases ih _ _ _ _ _ h with ⟨-, ht⟩ | hlt
        · exact Or.inr (by omega)
        · exact Or.inr (by omega)
      · exact ih _ _ _ _ _ h

/-- The three ways in which `bget` ends, with `k` the target bucket: it panics on an
unchanged cache when no buffer of the bucket holds the block and none is an idle buffer with
`timeticks < UINT_MAX`; it takes the first buffer holding the block and increments its
`refcnt`; or, no buffer holding the block, it reassigns an idle buffer of least
`timeticks`.  In the last two cases the caller then takes the buffer's lock or sleeps on
it. -/
theorem bget_cases (NBUCKET : Nat) (c : Bcache) (pid dev blockno : Nat) :
    (bget NBUCKET c pid dev blockno = .panic c ∧
      (∀ e ∈ c.getD (idx NBUCKET blockno) [], ¬ e.holds dev blockno) ∧
      (∀ e ∈ c.getD (idx NBUCKET blockno) [], ¬ (e.refcnt = 0 ∧ e.timeticks < UINT_MAX))) ∨
    (∃ (i : Nat) (e : Buf), getBuf c (idx NBUCKET blockno) i = some e ∧ e.holds dev blockno ∧
      (∀ (j : Nat) (e' : Buf), j < i → getBuf c (idx NBUCKET blockno) j = some e' →
        ¬ e'.holds dev blockno) ∧
      bget NBUCKET c pid dev blockno =
        if e.lock.locked then .asleep (updBuf c (idx NBUCKET blockno) i Buf.hit) i
        else .locked (updBuf c (idx NBUCKET blockno) i (fun x => x.hit.lockBy pid)) i) ∨
    (∃ (i : Nat) (e : Buf), (∀ e' ∈ c.getD (idx NBUCKET blockno) [], ¬ e'.holds dev blockno) ∧
      getBuf c (idx NBUCKET blockno) i = some e ∧ e.refcnt = 0 ∧ e.timeticks < UINT_MAX ∧
      (∀ e' ∈ c.getD (idx NBUCKET blockno) [], e'.refcnt = 0 → e.timeticks ≤ e'.timeticks) ∧
      bget NBUCKET c pid dev blockno =
        if e.lock.locked then
          .asleep (updBuf c (idx NBUCKET blockno) i (Buf.recycle dev blockno)) i
        else
          .locked (updBuf c (idx NBUCKET blockno) i
            (fun x => (x.recycle dev blockno).lockBy pid)) i) := by
  cases hscan : bgetScan dev blockno (c.getD (idx NBUCKET blockno) []) 0 none UINT_MAX with
  | found i =>
    right; left
    obtain ⟨-, e, he, hh, hfirst⟩ := bgetScan_found_first _ _ _ _ _ _ _ hscan
    simp only [Nat.sub_zero] at he hfirst
    refine ⟨i, e, he, hh, fun j e' hj he' => hfirst j e' hj he', ?_⟩
    have hb : bget NBUCKET c pid dev blockno =
        acquiresleepAt (updBuf c (idx NBUCKET blockno) i Buf.hit) (idx NBUCKET blockno) i
          pid := by
      unfold bget
      simp only [hscan]
      rfl
    rw [hb]
    exact acquiresleepAt_updBuf c _ i pid Buf.hit e he rfl
  | notFound m t =>
    have hno := bgetScan_notFound_nomatch _ _ _ _ _ _ _ _ hscan
    cases m with
    | none =>
      left
      refine ⟨?_, hno, (bgetScan_none _ _ _ _ _ _ _ hscan).2⟩
      unfold bget
      simp only [hscan]
    | some i =>
      right; right
      obtain ⟨-, hmin, hsel⟩ := bgetScan_notFound _ _ _ _ _ _ _ _ hscan
      have hlt := bgetScan_some_lt _ _ _ _ _ _ _ _ hscan
      rcases hsel with ⟨hnone, -⟩ | ⟨e, -, he, hz, ht⟩
      · exact absurd hnone (by simp)
      · simp only [Nat.sub_zero] at he
        have htlt : t < UINT_MAX := by
          rcases hlt with ⟨hnone, -⟩ | hlt
          · exact absurd hnone (by simp)
          · exact hlt
        refine ⟨i, e, hno, he, hz, by omega, ?_, ?_⟩
        · intro e' he' hz'
          rw [ht]
          exact hmin e' he' hz'
        · have hb : bget NBUCKET c pid dev blockno =
              acquiresleepAt (updBuf c (idx NBUCKET blockno) i (Buf.recycle dev blockno))
                (idx NBUCKET blockno) i pid := by
            unfold bget
            simp only [hscan]
            rfl
          rw [hb]
          exact acquiresleepAt_updBuf c _ i pid (Buf.recycle dev blockno) e he rfl

theorem mem_of_getBuf (c : Bcache) (k i : Nat) (e : Buf) (h : getBuf c k i = some e) :
    e ∈ c.getD k [] :=
  List.getElem?_mem h

theorem getBuf_of_mem (c : Bcache) (k : Nat) (e : Buf) (h : e ∈ c.getD k []) :
    ∃ i, getBuf c k i = some e :=
  List.mem_iff_getElem?.1 h

/-- `bget` on a cache in which buffer `i` of the target bucket is the first one holding
`(dev, blockno)`: the hit branch is taken on buffer `i`. -/
theorem bget_of_first_match (NBUCKET : Nat) (c : Bcache) (pid dev blockno i : Nat) (e : Buf)
    (he : getBuf c (idx NBUCKET blockno) i = some e) (hh : e.holds dev blockno)
    (hfirst : ∀ (j : Nat) (e' : Buf), j < i → getBuf c (idx NBUCKET blockno) j = some e' →
      ¬ e'.holds dev blockno) :
    bget NBUCKET c pid dev blockno =
      if e.lock.locked then .asleep (updBuf c (idx NBUCKET blockno) i Buf.hit) i
      else .locked (updBuf c (idx NBUCKET blockno) i (fun x => x.hit.lockBy pid)) i := by
  have hmem := mem_of_getBuf c _ i e he
  rcases bget_cases NBUCKET c pid dev blockno with ⟨-, hno, -⟩ | ⟨i', e', he', hh', hf', hb⟩ |
    ⟨i', e', hno, -⟩
  · exact absurd hh (hno e hmem)
  · have hii : i' = i := by
      rcases Nat.lt_trichotomy i' i with hlt | heq | hgt
      · exact absurd hh' (hfirst i' e' hlt he')
      · exact heq
      · exact absurd hh (hf' i e hgt he)
    subst hii
    rw [he] at he'
    injection he' with he'
    subst he'
    exact hb
  · exact absurd hh (hno e hmem)

/-- What a call of `bget` that selects buffer `i` leaves: buffer `i` of the target bucket
holds `(dev, blockno)`, is the first of the bucket to do so, and is locked; nothing else in
the cache has changed. -/
theorem bget_slot_spec (NBUCKET : Nat) (c : Bcache) (pid dev blockno i : Nat)
    (h : (bget NBUCKET c pid dev blockno).slot = some i) :
    ∃ (e e1 : Buf), getBuf c (idx NBUCKET blockno) i = some e ∧
      getBuf (bget NBUCKET c pid dev blockno).cache (idx NBUCKET blockno) i = some e1 ∧
      e1.holds dev blockno ∧ e1.lock.locked = true ∧
      e1.data = e.data ∧ e1.timeticks = e.timeticks ∧
      (∀ (j : Nat) (e' : Buf), j < i →
        getBuf (bget NBUCKET c pid dev blockno).cache (idx NBUCKET blockno) j = some e' →
        ¬ e'.holds dev blockno) ∧
      (∀ k j, ¬ (k = idx NBUCKET blockno ∧ j = i) →
        getBuf (bget NBUCKET c pid dev blockno).cache k j = getBuf c k j) ∧
      (∀ k, k ≠ idx NBUCKET blockno →
        (bget NBUCKET c pid dev blockno).cache.getD k [] = c.getD k []) ∧
      ((bget NBUCKET c pid dev blockno).sleeps = false → e1.lock.pid = pid) ∧
      ((bget NBUCKET c pid dev blockno).sleeps = true → e1.lock = e.lock) ∧
      ((e.holds dev blockno ∧ e1.valid = e.valid ∧ e1.refcnt = (e.refcnt + 1) % 2 ^ 32) ∨
        ((∀ e' ∈ c.getD (idx NBUCKET blockno) [], ¬ e'.holds dev blockno) ∧ e.refcnt = 0 ∧
          e1.valid = false ∧ e1.refcnt = 1)) := by
  have key : ∀ (F : Buf → Buf) (e : Buf) (i' : Nat),
      getBuf c (idx NBUCKET blockno) i' = some e →
      (bget NBUCKET c pid dev blockno =
        if e.lock.locked then .asleep (updBuf c (idx NBUCKET blockno) i' F) i'
        else .locked (updBuf c (idx NBUCKET blockno) i' (fun x => (F x).lockBy pid)) i') →
      i' = i ∧ ∃ e1 : Buf,
        getBuf (bget NBUCKET c pid dev blockno).cache (idx NBUCKET blockno) i = some e1 ∧
        (e1 = F e ∨ e1 = (F e).lockBy pid) ∧
        ((bget NBUCKET c pid dev blockno).sleeps = false → e1 = (F e).lockBy pid) ∧
        ((bget NBUCKET c pid dev blockno).sleeps = true → e1 = F e ∧ e.lock.locked = true) ∧
        (∀ k j, ¬ (k = idx NBUCKET blockno ∧ j = i) →
          getBuf (bget NBUCKET c pid dev blockno).cache k j = getBuf c k j) ∧
        (∀ k, k ≠ idx NBUCKET blockno →
          (bget NBUCKET c pid dev blockno).cache.getD k [] = c.getD k []) := by
    intro F e i' he hb
    rw [hb] at h ⊢
    by_cases hl : e.lock.locked = true
    · simp only [hl, if_true, BgetResult.slot, Option.some.injEq] at h ⊢
      subst h
      refine ⟨rfl, F e, ?_, Or.inl rfl, ?_, ?_, ?_, ?_⟩
      · simp only [BgetResult.cache]
        rw [getBuf_updBuf_same, he]
        rfl
      · intro hs
        simp [BgetResult.sleeps] at hs
      · intro _
        exact ⟨rfl, trivial⟩
      · intro k j hkj
        exact getBuf_updBuf_ne _ _ _ _ _ _ hkj
      · intro k hk
        exact getD_updBuf_ne _ _ _ _ _ hk
    · simp only [hl, BgetResult.slot, Option.some.injEq] at h ⊢
      simp only [Bool.false_eq_true, if_false, BgetResult.slot, Option.some.injEq] at h ⊢
      subst h
      refine ⟨rfl, (F e).lockBy pid, ?_, Or.inr rfl, ?_, ?_, ?_, ?_⟩
      · simp only [BgetResult.cache]
        rw [getBuf_updBuf_same, he]
        rfl
      · intro _
        rfl
      · intro hs
        simp [BgetResult.sleeps] at hs
      · intro k j hkj
        exact getBuf_updBuf_ne _ _ _ _ _ _ hkj
      · intro k hk
        exact getD_updBuf_ne _ _ _ _ _ hk
  rcases bget_cases NBUCKET c pid dev blockno with ⟨hp, -, -⟩ | ⟨i', e, he, hh, hf, hb⟩ |
    ⟨i', e, hno, he, hz, -, -, hb⟩
  · rw [hp] at h
    simp [BgetResult.slot] at h
  · obtain ⟨rfl, e1, he1, hform, hns, hs, hoth, hbk⟩ := key Buf.hit e i' he hb
    have hfields : e1.holds dev blockno ∧ e1.data = e.data ∧ e1.timeticks = e.timeticks ∧
        e1.valid = e.valid ∧ e1.refcnt = (e.refcnt + 1) % 2 ^ 32 := by
      rcases hform with rfl | rfl
      · exact ⟨hh, rfl, rfl, rfl, rfl⟩
      · exact ⟨hh, rfl, rfl, rfl, rfl⟩
    refine ⟨e, e1, he, he1, hfields.1, ?_, hfields.2.1, hfields.2.2.1, ?_, hoth, hbk, ?_, ?_,
      Or.inl ⟨hh, hfields.2.2.2⟩⟩
    · cases hsl : (bget NBUCKET c pid dev blockno).sleeps with
      | true =>
        obtain ⟨rfl, hl⟩ := hs hsl
        exact hl
      | false =>
        rw [hns hsl]
        rfl
    · intro j e' hj he'
      rw [hoth _ j (by omega)] at he'
      exact hf j e' hj he'
    · intro hsl
      rw [hns hsl]
      rfl
    · intro hsl
      rw [(hs hsl).1]
      rfl
  · obtain ⟨rfl, e1, he1, hform, hns, hs, hoth, hbk⟩ := key (Buf.recycle dev blockno) e i' he hb
    have hfields : e1.holds dev blockno ∧ e1.data = e.data ∧ e1.timeticks = e.timeticks ∧
        e1.valid = false ∧ e1.refcnt = 1 := by
      rcases hform with rfl | rfl
      · exact ⟨⟨rfl, rfl⟩, rfl, rfl, rfl, rfl⟩
      · exact ⟨⟨rfl, rfl⟩, rfl, rfl, rfl, rfl⟩
    refine ⟨e, e1, he, he1, hfields.1, ?_, hfields.2.1, hfields.2.2.1, ?_, hoth, hbk, ?_, ?_,
      Or.inr ⟨hno, hz, hfields.2.2.2⟩⟩
    · cases hsl : (bget NBUCKET c pid dev blockno).sleeps with
      | true =>
        obtain ⟨rfl, hl⟩ := hs hsl
        exact hl
      | false =>
        rw [hns hsl]
        rfl
    · intro j e' hj he'
      rw [hoth _ j (by omega)] at he'
      exact hno e' (mem_of_getBuf c _ j e' he')
    · intro hsl
      rw [hns hsl]
      rfl
    · intro hsl
      rw [(hs hsl).1]
      rfl

theorem getD_updBuf_same (c : Bcache) (k i : Nat) (f : Buf → Buf) :
    (updBuf c k i f).getD k [] = modifyAt f (c.getD k []) i := by
  unfold updBuf
  by_cases hk : k < c.length
  · exact getD_set_self _ _ _ hk
  · rw [List.set_eq_of_length_le (by omega), getD_nil_of_length_le c k (by omega)]
    rfl

/-- The outcome of `acquiresleep` on buffer `i` of bucket `k` is determined by bucket `k`. -/
theorem acquiresleepAt_congr (c c2 : Bcache) (k i pid : Nat)
    (h : c2.getD k [] = c.getD k []) :
    (acquiresleepAt c2 k i pid).slot = (acquiresleepAt c k i pid).slot ∧
    (acquiresleepAt c2 k i pid).sleeps = (acquiresleepAt c k i pid).sleeps ∧
    (acquiresleepAt c2 k i pid).isPanic = (acquiresleepAt c k i pid).isPanic ∧
    (acquiresleepAt c2 k i pid).cache.getD k [] = (acquiresleepAt c k i pid).cache.getD k [] := by
  have e1 : ∀ d : Bcache, acquiresleepAt d k i pid =
      match getBuf d k i with
      | none => .panic d
      | some b => if b.lock.locked then .asleep d i else .locked (updBuf d k i (Buf.lockBy pid)) i :=
    fun _ => rfl
  have hg : getBuf c2 k i = getBuf c k i := by
    unfold getBuf
    rw [h]
  rw [e1 c, e1 c2, hg]
  cases getBuf c k i with
  | none => exact ⟨rfl, rfl, rfl, h⟩
  | some b =>
    by_cases hl : b.lock.locked = true
    · simp only [hl, if_true]
      exact ⟨rfl, rfl, rfl, h⟩
    · simp only [hl, Bool.false_eq_true, if_false]
      refine ⟨rfl, rfl, rfl, ?_⟩
      simp only [BgetResult.cache]
      rw [getD_updBuf_same, getD_updBuf_same, h]

/-- `bget` panics exactly when no buffer of the target bucket holds the block and no buffer
of the bucket is idle with `timeticks < UINT_MAX`. -/
theorem bget_isPanic_iff (NBUCKET : Nat) (c : Bcache) (pid dev blockno : Nat) :
    (bget NBUCKET c pid dev blockno).isPanic = true ↔
      ((∀ e ∈ c.getD (idx NBUCKET blockno) [], ¬ e.holds dev blockno) ∧
        ∀ e ∈ c.getD (idx NBUCKET blockno) [], ¬ (e.refcnt = 0 ∧ e.timeticks < UINT_MAX)) := by
  rcases bget_cases NBUCKET c pid dev blockno with ⟨hp, hno, hnc⟩ | ⟨i, e, he, hh, -, hb⟩ |
    ⟨i, e, -, he, hz, hlt, -, hb⟩
  · rw [hp]
    exact ⟨fun _ => ⟨hno, hnc⟩, fun _ => rfl⟩
  · rw [hb]
    constructor
    · intro h
      split at h <;> simp [BgetResult.isPanic] at h
    · intro h
      exact absurd hh (h.1 e (mem_of_getBuf c _ i e he))
  · rw [hb]
    constructor
    · intro h
      split at h <;> simp [BgetResult.isPanic] at h
    · intro h
      exact absurd ⟨hz, hlt⟩ (h.2 e (mem_of_getBuf c _ i e he))

end Bio

/-! ## Buffer cache: claims on `bget` -/

namespace Bio

/-- C11: the code departs from the claim on `maxTickCache`, whose only bucket holds three
buffers in use and one idle buffer with `timeticks = 0xFFFFFFFF`.  No buffer holds block 5 of
device 1 and a buffer with `refcnt = 0` exists, yet `bget` ends in `panic`: the idle buffer
is not below `mintime = UINT_MAX`. -/
theorem C11_idle_buffer_at_max_tick_panics :
    (∀ b ∈ maxTickCache.getD (idx 1 5) [], ¬ b.holds 1 5) ∧
    (∃ b ∈ maxTickCache.getD (idx 1 5) [], b.refcnt = 0) ∧
    bget 1 maxTickCache 1 1 5 = .panic maxTickCache := by
  decide

/-- C18: `bget` changes no bucket other than bucket `blockno % NBUCKET`, whether it hits,
reassigns a buffer or panics, and what it does is determined by that bucket alone: on two
caches whose target buckets are equal it selects the same buffer, sleeps or panics alike and
leaves equal target buckets.  When the target bucket has no buffer holding the block and no
buffer with `refcnt = 0`, it panics on an unchanged cache, whatever the other buckets
hold. -/
theorem C18_bget_confined_to_target_bucket (NBUCKET : Nat) (c : Bcache)
    (pid dev blockno : Nat) :
    (∀ k, k ≠ idx NBUCKET blockno →
      (bget NBUCKET c pid dev blockno).cache.getD k [] = c.getD k []) ∧
    (bget NBUCKET c pid dev blockno).cache.length = c.length ∧
    (∀ c2 : Bcache, c2.getD (idx NBUCKET blockno) [] = c.getD (idx NBUCKET blockno) [] →
      (bget NBUCKET c2 pid dev blockno).slot = (bget NBUCKET c pid dev blockno).slot ∧
      (bget NBUCKET c2 pid dev blockno).sleeps = (bget NBUCKET c pid dev blockno).sleeps ∧
      (bget NBUCKET c2 pid dev blockno).isPanic = (bget NBUCKET c pid dev blockno).isPanic ∧
      (bget NBUCKET c2 pid dev blockno).cache.getD (idx NBUCKET blockno) [] =
        (bget NBUCKET c pid dev blockno).cache.getD (idx NBUCKET blockno) []) ∧
    ((∀ e ∈ c.getD (idx NBUCKET blockno) [], ¬ e.holds dev blockno ∧ e.refcnt ≠ 0) →
      bget NBUCKET c pid dev blockno = .panic c) := by
  refine ⟨?_, ?_, ?_, ?_⟩
  · intro k hk
    rcases bget_cases NBUCKET c pid dev blockno with ⟨hp, -, -⟩ | ⟨i, e, -, -, -, hb⟩ |
      ⟨i, e, -, -, -, -, -, hb⟩
    · rw [hp]
      rfl
    · rw [hb]
      split <;> exact getD_updBuf_ne _ _ _ _ _ hk
    · rw [hb]
      split <;> exact getD_updBuf_ne _ _ _ _ _ hk
  · rcases bget_cases NBUCKET c pid dev blockno with ⟨hp, -, -⟩ | ⟨i, e, -, -, -, hb⟩ |
      ⟨i, e, -, -, -, -, -, hb⟩
    · rw [hp]
      rfl
    · rw [hb]
      split <;> exact length_updBuf _ _ _ _
    · rw [hb]
      split <;> exact length_updBuf _ _ _ _
  · intro c2 h2
    have e1 : ∀ d : Bcache, bget NBUCKET d pid dev blockno =
        match bgetScan dev blockno (d.getD (idx NBUCKET blockno) []) 0 none UINT_MAX with
        | .found i =>
          acquiresleepAt (updBuf d (idx NBUCKET blockno) i Buf.hit) (idx NBUCKET blockno) i pid
        | .notFound (some i) _ =>
          acquiresleepAt (updBuf d (idx NBUCKET blockno) i (Buf.recycle dev blockno))
            (idx NBUCKET blockno) i pid
        | .notFound none _ => .panic d := fun _ => rfl
    rw [e1 c, e1 c2, h2]
    cases bgetScan dev blockno (c.getD (idx NBUCKET blockno) []) 0 none UINT_MAX with
    | found i =>
      apply acquiresleepAt_congr
      rw [getD_updBuf_same, getD_updBuf_same, h2]
    | notFound m t =>
      cases m with
      | none => exact ⟨rfl, rfl, rfl, h2⟩
      | some i =>
        apply acquiresleepAt_congr
        rw [getD_updBuf_same, getD_updBuf_same, h2]
  · intro hall
    rcases bget_cases NBUCKET c pid dev blockno with ⟨hp, -, -⟩ | ⟨i, e, he, hh, -, -⟩ |
      ⟨i, e, -, he, hz, -, -, -⟩
    · exact hp
    · exact absurd hh (hall e (mem_of_getBuf c _ i e he)).1
    · exact absurd hz (hall e (mem_of_getBuf c _ i e he)).2

end Bio

/-! ## Buffer cache: claims on `brelse`, `bwrite`, `bpin` and `bunpin` -/

namespace Bio

open Kalloc (Result)

theorem uintDec_of_pos (x : Nat) (h1 : 0 < x) (h2 : x < 2 ^ 32) : uintDec x + 1 = x := by
  unfold uintDec
  have : x + 2 ^ 32 - 1 = (x - 1) + 2 ^ 32 := by omega
  rw [this, Nat.add_mod_right, Nat.mod_eq_of_lt (by omega)]
  omega

theorem uintDec_lt (x : Nat) : uintDec x < 2 ^ 32 := Nat.mod_lt _ (by decide)

theorem uintInc_lt (x : Nat) : uintInc x < 2 ^ 32 := Nat.mod_lt _ (by decide)

/-- C14, as stated, fails: on a cache of one bucket with two buffers, after process 1 has
got block 0 of device 0 with `bget` and the buffer has been unpinned with `bunpin`, process 1
holds the lock of a buffer whose `refcnt` is 0.  Its `brelse` succeeds and leaves `refcnt` at
`0xFFFFFFFF`, which is not the count less 1, and does not set `timeticks`. -/
theorem C14_brelse_wraps_at_zero :
    BReachableBy 1 (fun t op => op.pinsHeld t) (bootState 1 2 0 (fun _ _ => []))
      demoUnpinned ∧
    getBuf demoUnpinned.bcache 0 0 = some
      { valid := false, dev := 0, blockno := 0, lock := { locked := true, pid := 1 },
        refcnt := 0, timeticks := 0, data := [] } ∧
    holdingsleep (Sleeplock.mk true 1) 1 = true ∧
    (brelse demoUnpinned 1 0 0).isPanic = false ∧
    getBuf (brelse demoUnpinned 1 0 0).state.bcache 0 0 = some
      { valid := false, dev := 0, blockno := 0, lock := { locked := false, pid := 0 },
        refcnt := 4294967295, timeticks := 0, data := [] } ∧
    (4294967295 : Int) ≠ 0 - 1 :=
  ⟨BReachableBy.step demoHeld demoUnpinned (.bunpin 0 0)
      (BReachableBy.step _ demoHeld (.bget 1 0 0) BReachableBy.init trivial rfl)
      ⟨_, (by decide : getBuf demoHeld.bcache 0 0 = some
        { valid := false, dev := 0, blockno := 0, lock := { locked := true, pid := 1 },
          refcnt := 1, timeticks := 0, data := [] }), by decide⟩ rfl,
    by decide, by decide, by decide, by decide, by decide⟩

/-- C14, amended: `brelse` by the holder of the buffer's lock succeeds, releases the lock and
decrements `refcnt` as a `uint`: by exactly 1 when the count is at least 1, and from 0 to
`0xFFFFFFFF`.  When the new count is 0 it sets `timeticks` to the current `ticks`, otherwise
`timeticks` is unchanged.  `dev`, `blockno`, `valid` and the payload of the buffer, every
other buffer, the disk and `ticks` are unchanged. -/
theorem C14_brelse_effect (s : BState) (pid k i : Nat) (e : Buf)
    (he : getBuf s.bcache k i = some e) (hhold : holdingsleep e.lock pid = true) :
    ∃ (s' : BState) (e' : Buf), brelse s pid k i = .ok s' ∧
      getBuf s'.bcache k i = some e' ∧
      e'.refcnt = uintDec e.refcnt ∧
      (0 < e.refcnt → e.refcnt < 2 ^ 32 → e'.refcnt + 1 = e.refcnt) ∧
      (e.refcnt = 0 → e'.refcnt = 4294967295 ∧ e'.timeticks = e.timeticks) ∧
      (e'.refcnt = 0 → e'.timeticks = s.ticks) ∧
      (e'.refcnt ≠ 0 → e'.timeticks = e.timeticks) ∧
      e'.dev = e.dev ∧ e'.blockno = e.blockno ∧ e'.valid = e.valid ∧ e'.data = e.data ∧
      e'.lock.locked = false ∧
      (∀ k' j, ¬ (k' = k ∧ j = i) → getBuf s'.bcache k' j = getBuf s.bcache k' j) ∧
      s'.disk = s.disk ∧ s'.ticks = s.ticks := by
  have hb : brelse s pid k i =
      .ok { s with bcache := updBuf s.bcache k i (Buf.release s.ticks) } := by
    unfold brelse
    rw [he]
    simp only [hhold, if_true]
  have he' : getBuf (updBuf s.bcache k i (Buf.release s.ticks)) k i =
      some (Buf.release s.ticks e) := by
    rw [getBuf_updBuf_same, he]
    rfl
  refine ⟨{ s with bcache := updBuf s.bcache k i (Buf.release s.ticks) },
    Buf.release s.ticks e, hb, he', rfl, ?_, ?_, ?_, ?_, rfl, rfl, rfl, rfl, rfl, ?_, rfl,
    rfl⟩
  · intro h1 h2
    exact uintDec_of_pos _ h1 h2
  · intro h0
    have hw : uintDec e.refcnt = 4294967295 := by
      rw [h0]
      norm_num [uintDec]
    have hne : ¬ uintDec e.refcnt = 0 := by
      rw [hw]
      norm_num
    exact ⟨hw, by simp only [Buf.release, hne, if_false]⟩
  · intro h0
    have h0' : uintDec e.refcnt = 0 := h0
    simp only [Buf.release, h0', if_true]
  · intro h0
    have h0' : ¬ uintDec e.refcnt = 0 := h0
    simp only [Buf.release, h0', if_false]
  · intro k' j hkj
    exact getBuf_updBuf_ne _ _ _ _ _ _ hkj

/-- Witness of `C14_brelse_effect`: in `smallState` process 1 releases buffer 2 of bucket 1,
which it holds. -/
theorem C14_brelse_effect_witness :
    getBuf smallState.bcache 1 2 = some
      { valid := false, dev := 1, blockno := 9, lock := { locked := true, pid := 1 },
        refcnt := 1, timeticks := 4, data := [] } ∧
    holdingsleep (Sleeplock.mk true 1) 1 = true ∧
    ∃ (s' : BState) (e' : Buf), brelse smallState 1 1 2 = .ok s' ∧
      getBuf s'.bcache 1 2 = some e' ∧
      e'.refcnt = uintDec 1 ∧
      (0 < 1 → 1 < 2 ^ 32 → e'.refcnt + 1 = 1) ∧
      (1 = 0 → e'.refcnt = 4294967295 ∧ e'.timeticks = 4) ∧
      (e'.refcnt = 0 → e'.timeticks = smallState.ticks) ∧
      (e'.refcnt ≠ 0 → e'.timeticks = 4) ∧
      e'.dev = 1 ∧ e'.blockno = 9 ∧ e'.valid = false ∧ e'.data = [] ∧
      e'.lock.locked = false ∧
      (∀ k' j, ¬ (k' = 1 ∧ j = 2) → getBuf s'.bcache k' j = getBuf smallState.bcache k' j) ∧
      s'.disk = smallState.disk ∧ s'.ticks = smallState.ticks :=
  ⟨by decide, by decide,
    C14_brelse_effect smallState 1 1 2
      { valid := false, dev := 1, blockno := 9, lock := { locked := true, pid := 1 },
        refcnt := 1, timeticks := 4, data := [] } (by decide) (by decide)⟩

/-- C15: `bwrite` and `brelse` on a buffer panic exactly when the caller does not hold the
buffer's sleep lock, and then the cache (every `refcnt`, `timeticks` and lock), the disk and
`ticks` are as before the call.  When the caller holds the lock, `bwrite` stores the payload
on the disk at the buffer's `(dev, blockno)`, changes no other block of the disk, and leaves
the cache, so the buffer's `refcnt` and lock holder, unchanged. -/
theorem C15_lock_required (s : BState) (pid k i : Nat) (e : Buf)
    (he : getBuf s.bcache k i = some e) :
    ((bwrite s pid k i).isPanic = true ↔ holdingsleep e.lock pid = false) ∧
    ((brelse s pid k i).isPanic = true ↔ holdingsleep e.lock pid = false) ∧
    (holdingsleep e.lock pid = false →
      bwrite s pid k i = .panic s ∧ brelse s pid k i = .panic s) ∧
    (holdingsleep e.lock pid = true →
      ∃ s' : BState, bwrite s pid k i = .ok s' ∧
        s'.disk e.dev e.blockno = e.data ∧
        (∀ d n, ¬ (d = e.dev ∧ n = e.blockno) → s'.disk d n = s.disk d n) ∧
        s'.bcache = s.bcache ∧ s'.ticks = s.ticks) := by
  cases hh : holdingsleep e.lock pid with
  | false =>
    have hw : bwrite s pid k i = .panic s := by
      unfold bwrite
      rw [he]
      simp only [hh, Bool.false_eq_true, if_false]
    have hr : brelse s pid k i = .panic s := by
      unfold brelse
      rw [he]
      simp only [hh, Bool.false_eq_true, if_false]
    rw [hw, hr]
    refine ⟨⟨fun _ => rfl, fun _ => rfl⟩, ⟨fun _ => rfl, fun _ => rfl⟩, fun _ => ⟨rfl, rfl⟩, ?_⟩
    intro h
    exact absurd h (by simp)
  | true =>
    have hw : bwrite s pid k i = .ok (virtio_disk_rw s k i true) := by
      unfold bwrite
      rw [he]
      simp only [hh, if_true]
    have hr : brelse s pid k i =
        .ok { s with bcache := updBuf s.bcache k i (Buf.release s.ticks) } := by
      unfold brelse
      rw [he]
      simp only [hh, if_true]
    have hd : virtio_disk_rw s k i true =
        { s with disk := fun d n => if d = e.dev ∧ n = e.blockno then e.data else s.disk d n } := by
      unfold virtio_disk_rw
      rw [he]
      simp only [if_true]
    rw [hw, hr, hd]
    refine ⟨⟨fun h => ?_, fun h => ?_⟩, ⟨fun h => ?_, fun h => ?_⟩, fun h => ?_, fun _ => ?_⟩
    · simp [Result.isPanic] at h
    · simp at h
    · simp [Result.isPanic] at h
    · simp at h
    · simp at h
    · refine ⟨_, rfl, ?_, ?_, rfl, rfl⟩
      · simp
      · intro d n hdn
        simp only [hdn, if_false]

/-- Witness of `C15_lock_required`: buffer 2 of bucket 1 of `smallState`, held by process 1,
on a call by process 1. -/
theorem C15_lock_required_witness :
    getBuf smallState.bcache 1 2 = some
      { valid := false, dev := 1, blockno := 9, lock := { locked := true, pid := 1 },
        refcnt := 1, timeticks := 4, data := [] } ∧
    ((bwrite smallState 1 1 2).isPanic = true ↔ holdingsleep (Sleeplock.mk true 1) 1 = false) ∧
    ((brelse smallState 1 1 2).isPanic = true ↔ holdingsleep (Sleeplock.mk true 1) 1 = false) ∧
    (holdingsleep (Sleeplock.mk true 1) 1 = false →
      bwrite smallState 1 1 2 = .panic smallState ∧
      brelse smallState 1 1 2 = .panic smallState) ∧
    (holdingsleep (Sleeplock.mk true 1) 1 = true →
      ∃ s' : BState, bwrite smallState 1 1 2 = .ok s' ∧
        s'.disk 1 9 = [] ∧
        (∀ d n, ¬ (d = 1 ∧ n = 9) → s'.disk d n = smallState.disk d n) ∧
        s'.bcache = smallState.bcache ∧ s'.ticks = smallState.ticks) :=
  ⟨by decide,
    C15_lock_required smallState 1 1 2
      { valid := false, dev := 1, blockno := 9, lock := { locked := true, pid := 1 },
        refcnt := 1, timeticks := 4, data := [] } (by decide)⟩

/-- C16, as stated, fails: buffer 1 of bucket 1 of `smallCache` has `refcnt = 0`, and after
`bunpin` its `refcnt` is `0xFFFFFFFF`, the wrapped-around value. -/
theorem C16_bunpin_wraps_at_zero :
    (getBuf smallCache 1 1).map Buf.refcnt = some 0 ∧
    (getBuf (bunpin smallCache 1 1) 1 1).map Buf.refcnt = some 4294967295 ∧
    countAfter smallCache 1 1 [.unpin] = some (2 ^ 32 - 1) := by
  decide

theorem countAfter_cons (c : Bcache) (k i : Nat) (op : PinOp) (ops : List PinOp) :
    countAfter c k i (op :: ops) = countAfter (op.run c k i) k i ops := rfl

theorem getBuf_bunpin (c : Bcache) (k i : Nat) :
    (getBuf (bunpin c k i) k i).map Buf.refcnt =
      (getBuf c k i).map (fun b => uintDec b.refcnt) := by
  unfold bunpin
  rw [getBuf_updBuf_same]
  cases getBuf c k i <;> simp

theorem getBuf_bpin (c : Bcache) (k i : Nat) :
    (getBuf (bpin c k i) k i).map Buf.refcnt =
      (getBuf c k i).map (fun b => uintInc b.refcnt) := by
  unfold bpin
  rw [getBuf_updBuf_same]
  cases getBuf c k i <;> simp

/-- C16, amended: take a buffer whose `refcnt` is a `uint` and a sequence of `bpin` and
`bunpin` calls on it in which every `bunpin` finds a count of at least 1.  Then every
`bunpin` of the sequence lowers the count by exactly 1, to a value that is at least 0 and not
wrapped, and every `bpin` increments it as a `uint`. -/
theorem C16_unpin_held_never_wraps (k i : Nat) (ops : List PinOp) :
    ∀ (c : Bcache) (e : Buf), getBuf c k i = some e → e.refcnt < 2 ^ 32 →
      UnpinsHeld c k i ops → ∀ n, n < ops.length →
      (ops[n]? = some .unpin →
        ∃ x, countAfter c k i (ops.take n) = some (x + 1) ∧
          countAfter c k i (ops.take (n + 1)) = some x) ∧
      (ops[n]? = some .pin →
        ∃ x, countAfter c k i (ops.take n) = some x ∧
          countAfter c k i (ops.take (n + 1)) = some (uintInc x)) := by
  induction ops with
  | nil =>
    intro c e _ _ _ n hn
    simp at hn
  | cons op ops ih =>
    intro c e he hwf hg n hn
    cases n with
    | zero =>
      simp only [List.take_zero, List.take_succ_cons, List.getElem?_cons_zero,
        Option.some.injEq, countAfter_cons]
      have h0 : ∀ d : Bcache, countAfter d k i [] = (getBuf d k i).map Buf.refcnt :=
        fun _ => rfl
      rw [h0, h0, he]
      constructor
      · intro hop
        subst hop
        obtain ⟨⟨e0, he0, hpos⟩, -⟩ := hg
        rw [he] at he0
        injection he0 with he0
        subst he0
        refine ⟨uintDec e.refcnt, ?_, ?_⟩
        · simp only [Option.map_some']
          rw [uintDec_of_pos _ hpos hwf]
        · show (getBuf (bunpin c k i) k i).map Buf.refcnt = _
          rw [getBuf_bunpin, he]
          rfl
      · intro hop
        subst hop
        refine ⟨e.refcnt, rfl, ?_⟩
        show (getBuf (bpin c k i) k i).map Buf.refcnt = _
        rw [getBuf_bpin, he]
        rfl
    | succ n =>
      simp only [List.take_succ_cons, List.getElem?_cons_succ, countAfter_cons]
      have hn' : n < ops.length := by
        simp only [List.length_cons] at hn
        omega
      cases op with
      | pin =>
        have he' : getBuf (bpin c k i) k i = some e.hit := by
          unfold bpin
          rw [getBuf_updBuf_same, he]
          rfl
        exact ih (bpin c k i) e.hit he' (uintInc_lt _) hg n hn'
      | unpin =>
        have he' : getBuf (bunpin c k i) k i =
            some { e with refcnt := uintDec e.refcnt } := by
          unfold bunpin
          rw [getBuf_updBuf_same, he]
          rfl
        exact ih (bunpin c k i) _ he' (uintDec_lt _) hg.2 n hn'

/-- Witness of `C16_unpin_held_never_wraps`: `bpin` then `bunpin` on buffer 1 of bucket 1
of `smallCache`, whose count is 0; the `bunpin`, call number 1, brings the count from 1 back
to 0. -/
theorem C16_unpin_held_never_wraps_witness :
    getBuf smallCache 1 1 = some (mkBuf 1 5 0 7) ∧ (mkBuf 1 5 0 7).refcnt < 2 ^ 32 ∧
    UnpinsHeld smallCache 1 1 [.pin, .unpin] ∧ 1 < [PinOp.pin, PinOp.unpin].length ∧
    ([PinOp.pin, PinOp.unpin][1]? = some .unpin →
      ∃ x, countAfter smallCache 1 1 ([PinOp.pin, PinOp.unpin].take 1) = some (x + 1) ∧
        countAfter smallCache 1 1 ([PinOp.pin, PinOp.unpin].take (1 + 1)) = some x) ∧
    ([PinOp.pin, PinOp.unpin][1]? = some .pin →
      ∃ x, countAfter smallCache 1 1 ([PinOp.pin, PinOp.unpin].take 1) = some x ∧
        countAfter smallCache 1 1 ([PinOp.pin, PinOp.unpin].take (1 + 1)) =
          some (uintInc x)) :=
  ⟨by decide, by decide, ⟨⟨mkBuf 1 5 1 7, by decide, by decide⟩, trivial⟩, by decide,
    C16_unpin_held_never_wraps 1 1 [.pin, .unpin] smallCache (mkBuf 1 5 0 7) (by decide)
      (by decide) ⟨⟨mkBuf 1 5 1 7, by decide, by decide⟩, trivial⟩ 1 (by decide)⟩

end Bio

/-! ## Buffer cache: the invariant behind the uniqueness of cached blocks -/

namespace Bio

open Kalloc (Result)

/-- What a `bread` that returns leaves: `bget` returned the buffer locked, and the buffer was
either valid already, and then only `bget` acted, or it was loaded from the disk. -/
theorem bread_locked (NBUCKET : Nat) (s s3 : BState) (pid dev blockno j : Nat)
    (h : bread NBUCKET s pid dev blockno = .locked s3 j) :
    ∃ (c1 : Bcache) (e1 : Buf), bget NBUCKET s.bcache pid dev blockno = .locked c1 j ∧
      getBuf c1 (idx NBUCKET blockno) j = some e1 ∧ s3.disk = s.disk ∧ s3.ticks = s.ticks ∧
      ((e1.valid = true ∧ s3.bcache = c1) ∨
        (e1.valid = false ∧
          s3.bcache = updBuf c1 (idx NBUCKET blockno) j (Buf.load s.disk))) := by
  have hslot : ∀ c1 i, bget NBUCKET s.bcache pid dev blockno = .locked c1 i →
      ∃ e1, getBuf c1 (idx NBUCKET blockno) i = some e1 := by
    intro c1 i hb
    have hs : (bget NBUCKET s.bcache pid dev blockno).slot = some i := by rw [hb]; rfl
    obtain ⟨e, e1, -, he1, -⟩ := bget_slot_spec NBUCKET s.bcache pid dev blockno i hs
    rw [hb] at he1
    exact ⟨e1, he1⟩
  unfold bread at h
  cases hb : bget NBUCKET s.bcache pid dev blockno with
  | panic c => rw [hb] at h; simp at h
  | asleep c i => rw [hb] at h; simp at h
  | locked c1 i =>
    obtain ⟨e1, he1⟩ := hslot c1 i hb
    rw [hb] at h
    simp only [he1] at h
    by_cases hv : e1.valid = true
    · simp only [hv, if_true, BreadResult.locked.injEq] at h
      obtain ⟨rfl, rfl⟩ := h
      exact ⟨c1, e1, rfl, he1, rfl, rfl, Or.inl ⟨hv, rfl⟩⟩
    · have hv' : e1.valid = false := by simpa using hv
      simp only [hv', Bool.false_eq_true, if_false, BreadResult.locked.injEq] at h
      obtain ⟨rfl, rfl⟩ := h
      refine ⟨c1, e1, rfl, he1, ?_, ?_, Or.inr ⟨hv', ?_⟩⟩
      · simp [virtio_disk_rw, he1]
      · simp [virtio_disk_rw, he1]
      · simp only [virtio_disk_rw, he1, Bool.false_eq_true, if_false]
        rw [updBuf_updBuf]
        rfl

/-- The cache a call of `bread` leaves, however it ends: the cache `bget` left, or that
cache with the returned buffer, which was not valid, loaded from the disk.  The disk and
`ticks` are unchanged. -/
theorem bread_state (NBUCKET : Nat) (s : BState) (pid dev blockno : Nat) :
    (bread NBUCKET s pid dev blockno).state.disk = s.disk ∧
    (bread NBUCKET s pid dev blockno).state.ticks = s.ticks ∧
    ((bread NBUCKET s pid dev blockno).state.bcache =
        (bget NBUCKET s.bcache pid dev blockno).cache ∨
      ∃ (j : Nat) (e1 : Buf),
        (bget NBUCKET s.bcache pid dev blockno).slot = some j ∧
        getBuf (bget NBUCKET s.bcache pid dev blockno).cache (idx NBUCKET blockno) j =
          some e1 ∧
        e1.valid = false ∧
        (bread NBUCKET s pid dev blockno).state.bcache =
          updBuf (bget NBUCKET s.bcache pid dev blockno).cache (idx NBUCKET blockno) j
            (Buf.load s.disk)) := by
  cases hr : bread NBUCKET s pid dev blockno with
  | locked s3 j =>
    obtain ⟨c1, e1, hb, he1, hd, ht, hc⟩ := bread_locked NBUCKET s s3 pid dev blockno j hr
    rw [hb]
    refine ⟨hd, ht, ?_⟩
    rcases hc with ⟨-, hc⟩ | ⟨hv, hc⟩
    · exact Or.inl hc
    · exact Or.inr ⟨j, e1, rfl, he1, hv, hc⟩
  | asleep s3 j =>
    unfold bread at hr
    cases hb : bget NBUCKET s.bcache pid dev blockno with
    | panic c => rw [hb] at hr; simp at hr
    | asleep c i =>
      rw [hb] at hr
      simp only [BreadResult.asleep.injEq] at hr
      obtain ⟨rfl, rfl⟩ := hr
      exact ⟨rfl, rfl, Or.inl rfl⟩
    | locked c1 i =>
      rw [hb] at hr
      simp only at hr
      split at hr
      · simp at hr
      · split at hr <;> simp at hr
  | panic s3 =>
    unfold bread at hr
    cases hb : bget NBUCKET s.bcache pid dev blockno with
    | panic c =>
      rw [hb] at hr
      simp only [BreadResult.panic.injEq] at hr
      subst hr
      exact ⟨rfl, rfl, Or.inl rfl⟩
    | asleep c i => rw [hb] at hr; simp at hr
    | locked c1 i =>
      rw [hb] at hr
      simp only at hr
      split at hr
      · simp at hr
      · split at hr <;> simp at hr

theorem getBuf_updBuf_some (c : Bcache) (k i : Nat) (F : Buf → Buf) (x : Buf)
    (h : getBuf (updBuf c k i F) k i = some x) : ∃ e, getBuf c k i = some e ∧ x = F e := by
  rw [getBuf_updBuf_same] at h
  cases he : getBuf c k i with
  | none => rw [he] at h; simp at h
  | some e =>
    rw [he] at h
    simp only [Option.map_some', Option.some.injEq] at h
    exact ⟨e, rfl, h.symm⟩

/-- Rewriting a buffer without changing the block it holds keeps the invariant, provided the
rewritten buffer, if in use, was the first of its bucket to hold its block. -/
theorem cacheInv_updBuf_keep (NBUCKET : Nat) (r : Bool) (c : Bcache) (k i : Nat)
    (F : Buf → Buf) (hid : ∀ b, (F b).dev = b.dev ∧ (F b).blockno = b.blockno)
    (hmark : ∀ e, getBuf c k i = some e → marked r (F e) →
      idx NBUCKET e.blockno = k ∧ FirstMatch c k i e)
    (hinv : CacheInv NBUCKET r c) : CacheInv NBUCKET r (updBuf c k i F) := by
  intro k' i' x hx hm
  by_cases hki : k' = k ∧ i' = i
  · obtain ⟨rfl, rfl⟩ := hki
    obtain ⟨e, he, rfl⟩ := getBuf_updBuf_some c k' i' F x hx
    obtain ⟨hb, hf⟩ := hmark e he hm
    refine ⟨by rw [(hid e).2]; exact hb, ?_⟩
    intro j e' hj he'
    rw [getBuf_updBuf_ne _ _ _ _ _ _ (by omega)] at he'
    rw [(hid e).1, (hid e).2]
    exact hf j e' hj he'
  · rw [getBuf_updBuf_ne _ _ _ _ _ _ hki] at hx
    obtain ⟨hb, hf⟩ := hinv k' i' x hx hm
    refine ⟨hb, ?_⟩
    intro j e' hj he'
    by_cases hkj : k' = k ∧ j = i
    · obtain ⟨rfl, rfl⟩ := hkj
      obtain ⟨e, he, rfl⟩ := getBuf_updBuf_some c k' j F e' he'
      intro hh
      exact hf j e hj he ⟨by rw [← (hid e).1]; exact hh.1, by rw [← (hid e).2]; exact hh.2⟩
    · rw [getBuf_updBuf_ne _ _ _ _ _ _ hkj] at he'
      exact hf j e' hj he'

/-- Reassigning a buffer of bucket `k` to a block of that bucket that no buffer of the
bucket holds keeps the invariant. -/
theorem cacheInv_updBuf_recycle (NBUCKET : Nat) (r : Bool) (c : Bcache) (k i : Nat)
    (F : Buf → Buf) (dev blockno : Nat) (hk : idx NBUCKET blockno = k)
    (hF : ∀ b, (F b).dev = dev ∧ (F b).blockno = blockno)
    (hno : ∀ e ∈ c.getD k [], ¬ e.holds dev blockno)
    (hinv : CacheInv NBUCKET r c) : CacheInv NBUCKET r (updBuf c k i F) := by
  intro k' i' x hx hm
  by_cases hki : k' = k ∧ i' = i
  · obtain ⟨rfl, rfl⟩ := hki
    obtain ⟨e, he, rfl⟩ := getBuf_updBuf_some c k' i' F x hx
    refine ⟨by rw [(hF e).2]; exact hk, ?_⟩
    intro j e' hj he'
    rw [getBuf_updBuf_ne _ _ _ _ _ _ (by omega)] at he'
    rw [(hF e).1, (hF e).2]
    exact hno e' (mem_of_getBuf c _ j e' he')
  · rw [getBuf_updBuf_ne _ _ _ _ _ _ hki] at hx
    obtain ⟨hb, hf⟩ := hinv k' i' x hx hm
    refine ⟨hb, ?_⟩
    intro j e' hj he'
    by_cases hkj : k' = k ∧ j = i
    · obtain ⟨rfl, rfl⟩ := hkj
      obtain ⟨e, he, rfl⟩ := getBuf_updBuf_some c k' j F e' he'
      intro hh
      have hx' := hno x (mem_of_getBuf c _ i' x hx)
      exact hx' ⟨by rw [← hh.1]; exact (hF e).1, by rw [← hh.2]; exact (hF e).2⟩
    · rw [getBuf_updBuf_ne _ _ _ _ _ _ hkj] at he'
      exact hf j e' hj he'

/-- Rewriting a buffer that stays unused unless it was in use, without changing the block
it holds, keeps the invariant. -/
theorem cacheInv_updBuf_marked (NBUCKET : Nat) (r : Bool) (c : Bcache) (k i : Nat)
    (F : Buf → Buf) (hid : ∀ b, (F b).dev = b.dev ∧ (F b).blockno = b.blockno)
    (hmark : ∀ e, getBuf c k i = some e → marked r (F e) → marked r e)
    (hinv : CacheInv NBUCKET r c) : CacheInv NBUCKET r (updBuf c k i F) :=
  cacheInv_updBuf_keep NBUCKET r c k i F hid
    (fun e he hm => hinv k i e he (hmark e he hm)) hinv

/-- `bget` keeps the invariant, however it ends. -/
theorem cacheInv_bget (NBUCKET : Nat) (r : Bool) (c : Bcache) (pid dev blockno : Nat)
    (hinv : CacheInv NBUCKET r c) :
    CacheInv NBUCKET r (Bio.bget NBUCKET c pid dev blockno).cache := by
  rcases bget_cases NBUCKET c pid dev blockno with ⟨hp, -, -⟩ | ⟨i, e, he, hh, hf, hb⟩ |
    ⟨i, e, hno, he, -, -, -, hb⟩
  · rw [hp]
    exact hinv
  · have key : ∀ F : Buf → Buf, (∀ b, (F b).dev = b.dev ∧ (F b).blockno = b.blockno) →
        CacheInv NBUCKET r (updBuf c (idx NBUCKET blockno) i F) := by
      intro F hid
      apply cacheInv_updBuf_keep NBUCKET r c _ i F hid _ hinv
      intro e0 he0 _
      rw [he] at he0
      injection he0 with he0
      subst he0
      refine ⟨by rw [hh.2], ?_⟩
      intro j e' hj he'
      rw [hh.1, hh.2]
      exact hf j e' hj he'
    rw [hb]
    split
    · exact key _ (fun _ => ⟨rfl, rfl⟩)
    · exact key _ (fun _ => ⟨rfl, rfl⟩)
  · have key : ∀ F : Buf → Buf, (∀ b, (F b).dev = dev ∧ (F b).blockno = blockno) →
        CacheInv NBUCKET r (updBuf c (idx NBUCKET blockno) i F) := by
      intro F hF
      exact cacheInv_updBuf_recycle NBUCKET r c _ i F dev blockno rfl hF hno hinv
    rw [hb]
    split
    · exact key _ (fun _ => ⟨rfl, rfl⟩)
    · exact key _ (fun _ => ⟨rfl, rfl⟩)

theorem holdingsleep_locked (lk : Sleeplock) (pid : Nat) (h : holdingsleep lk pid = true) :
    lk.locked = true := by
  unfold holdingsleep at h
  simp only [Bool.and_eq_true] at h
  exact h.1

theorem bwrite_ok (s s' : BState) (pid k i : Nat) (h : bwrite s pid k i = .ok s') :
    ∃ e, getBuf s.bcache k i = some e ∧ holdingsleep e.lock pid = true ∧
      s'.bcache = s.bcache ∧ s'.ticks = s.ticks ∧
      s'.disk = fun d n => if d = e.dev ∧ n = e.blockno then e.data else s.disk d n := by
  unfold bwrite at h
  cases he : getBuf s.bcache k i with
  | none => rw [he] at h; simp at h
  | some e =>
    rw [he] at h
    by_cases hh : holdingsleep e.lock pid = true
    · simp only [hh, if_true, Result.ok.injEq] at h
      subst h
      refine ⟨e, rfl, hh, ?_, ?_, ?_⟩ <;> simp [virtio_disk_rw, he]
    · simp [hh] at h

theorem brelse_ok (s s' : BState) (pid k i : Nat) (h : brelse s pid k i = .ok s') :
    ∃ e, getBuf s.bcache k i = some e ∧ holdingsleep e.lock pid = true ∧
      s' = { s with bcache := updBuf s.bcache k i (Buf.release s.ticks) } := by
  unfold brelse at h
  cases he : getBuf s.bcache k i with
  | none => rw [he] at h; simp at h
  | some e =>
    rw [he] at h
    by_cases hh : holdingsleep e.lock pid = true
    · simp only [hh, if_true, Result.ok.injEq] at h
      exact ⟨e, rfl, hh, h.symm⟩
    · simp [hh] at h

/-- What `breadRest` leaves: the state itself when the buffer is valid, and otherwise the
state with the buffer loaded from the disk. -/
theorem breadRest_cases (s : BState) (k i : Nat) :
    (breadRest s k i).disk = s.disk ∧ (breadRest s k i).ticks = s.ticks ∧
    (breadRest s k i).asleep = s.asleep ∧
    (((breadRest s k i).bcache = s.bcache ∧
        ∀ b, getBuf s.bcache k i = some b → b.valid = true) ∨
      (∃ b, getBuf s.bcache k i = some b ∧ b.valid = false ∧
        (breadRest s k i).bcache = updBuf s.bcache k i (Buf.load s.disk))) := by
  cases he : getBuf s.bcache k i with
  | none =>
    have hr : breadRest s k i = s := by
      unfold breadRest
      rw [he]
    rw [hr]
    exact ⟨rfl, rfl, rfl, Or.inl ⟨rfl, fun b hb => by simp at hb⟩⟩
  | some e =>
    by_cases hv : e.valid = true
    · have hr : breadRest s k i = s := by
        unfold breadRest
        rw [he]
        simp [hv]
      rw [hr]
      refine ⟨rfl, rfl, rfl, Or.inl ⟨rfl, ?_⟩⟩
      intro b hb
      injection hb with hb
      rw [← hb]
      exact hv
    · have hv' : e.valid = false := by simpa using hv
      have hr : breadRest s k i =
          { virtio_disk_rw s k i false with
            bcache := updBuf (virtio_disk_rw s k i false).bcache k i
              (fun b => { b with valid := true }) } := by
        unfold breadRest
        rw [he]
        simp [hv']
      rw [hr]
      refine ⟨?_, ?_, ?_, Or.inr ⟨e, rfl, hv', ?_⟩⟩
      · simp [virtio_disk_rw, he]
      · simp [virtio_disk_rw, he]
      · simp [virtio_disk_rw, he]
      · simp only [virtio_disk_rw, he, Bool.false_eq_true, if_false]
        rw [updBuf_updBuf]
        rfl

/-- What a wake-up that lets the sleeper go on leaves: the sleeper was asleep and found the
lock of its buffer free; it holds the lock now, and when it sleeps in `bread` and the buffer
is not valid the buffer has been loaded from the disk. -/
theorem wakeup_cases (s s' : BState) (w : Sleeper) (h : wakeup s w = some s') :
    w ∈ s.asleep ∧ s'.disk = s.disk ∧ s'.ticks = s.ticks ∧ s'.asleep = s.asleep.erase w ∧
    ∃ b, getBuf s.bcache w.k w.i = some b ∧ b.lock.locked = false ∧
      ((s'.bcache = updBuf s.bcache w.k w.i (Buf.lockBy w.pid) ∧
          (w.read = true → b.valid = true)) ∨
        (w.read = true ∧ b.valid = false ∧
          s'.bcache = updBuf (updBuf s.bcache w.k w.i (Buf.lockBy w.pid)) w.k w.i
            (Buf.load s.disk))) := by
  unfold wakeup at h
  by_cases hm : w ∈ s.asleep
  · rw [if_pos hm] at h
    cases he : getBuf s.bcache w.k w.i with
    | none => rw [he] at h; simp at h
    | some b =>
      rw [he] at h
      by_cases hl : b.lock.locked = true
      · simp [hl] at h
      · have hl' : b.lock.locked = false := by simpa using hl
        simp only [hl', Bool.false_eq_true, if_false] at h
        by_cases hr : w.read = true
        · simp only [hr, if_true, Option.some.injEq] at h
          subst h
          have hg : getBuf (updBuf s.bcache w.k w.i (Buf.lockBy w.pid)) w.k w.i =
              some (b.lockBy w.pid) := by
            rw [getBuf_updBuf_same, he]
            rfl
          obtain ⟨hd, ht, ha, hc⟩ := breadRest_cases
            ⟨updBuf s.bcache w.k w.i (Buf.lockBy w.pid), s.disk, s.ticks, s.asleep.erase w⟩
            w.k w.i
          refine ⟨hm, hd, ht, ha, b, rfl, hl', ?_⟩
          rcases hc with ⟨hc, hv⟩ | ⟨b', hb', hv, hc⟩
          · exact Or.inl ⟨hc, fun _ => hv (b.lockBy w.pid) hg⟩
          · rw [hg] at hb'
            injection hb' with hb'
            subst hb'
            exact Or.inr ⟨hr, hv, hc⟩
        · have hr' : w.read = false := by simpa using hr
          simp only [hr', Bool.false_eq_true, if_false, Option.some.injEq] at h
          subst h
          exact ⟨hm, rfl, rfl, rfl, b, rfl, hl', Or.inl ⟨rfl, fun hh => by simp [hr'] at hh⟩⟩
  · rw [if_neg hm] at h
    simp at h

/-- Rewriting a buffer without changing the block it holds keeps a settled buffer
settled. -/
theorem settled_updBuf_keep (NBUCKET : Nat) (c : Bcache) (k i k' i' : Nat) (F : Buf → Buf)
    (hid : ∀ b, (F b).dev = b.dev ∧ (F b).blockno = b.blockno)
    (h : Settled NBUCKET c k i) : Settled NBUCKET (updBuf c k' i' F) k i := by
  intro x hx
  by_cases hki : k = k' ∧ i = i'
  · obtain ⟨rfl, rfl⟩ := hki
    obtain ⟨e, he, rfl⟩ := getBuf_updBuf_some c k i F x hx
    obtain ⟨hb, hf⟩ := h e he
    refine ⟨by rw [(hid e).2]; exact hb, ?_⟩
    intro j e' hj he'
    rw [getBuf_updBuf_ne _ _ _ _ _ _ (by omega)] at he'
    rw [(hid e).1, (hid e).2]
    exact hf j e' hj he'
  · rw [getBuf_updBuf_ne _ _ _ _ _ _ hki] at hx
    obtain ⟨hb, hf⟩ := h x hx
    refine ⟨hb, ?_⟩
    intro j e' hj he'
    by_cases hkj : k = k' ∧ j = i'
    · obtain ⟨rfl, rfl⟩ := hkj
      obtain ⟨e, he, rfl⟩ := getBuf_updBuf_some c k j F e' he'
      intro hh
      exact hf j e hj he ⟨by rw [← (hid e).1]; exact hh.1, by rw [← (hid e).2]; exact hh.2⟩
    · rw [getBuf_updBuf_ne _ _ _ _ _ _ hkj] at he'
      exact hf j e' hj he'

/-- Reassigning a buffer of bucket `k'` to a block of that bucket that no buffer of the
bucket holds keeps a settled buffer settled, and settles the reassigned buffer. -/
theorem settled_updBuf_recycle (NBUCKET : Nat) (c : Bcache) (k i k' i' : Nat)
    (F : Buf → Buf) (dev blockno : Nat) (hk : idx NBUCKET blockno = k')
    (hF : ∀ b, (F b).dev = dev ∧ (F b).blockno = blockno)
    (hno : ∀ e ∈ c.getD k' [], ¬ e.holds dev blockno)
    (h : ¬ (k = k' ∧ i = i') → Settled NBUCKET c k i) :
    Settled NBUCKET (updBuf c k' i' F) k i := by
  intro x hx
  by_cases hki : k = k' ∧ i = i'
  · obtain ⟨rfl, rfl⟩ := hki
    obtain ⟨e, he, rfl⟩ := getBuf_updBuf_some c k i F x hx
    refine ⟨by rw [(hF e).2]; exact hk, ?_⟩
    intro j e' hj he'
    rw [getBuf_updBuf_ne _ _ _ _ _ _ (by omega)] at he'
    rw [(hF e).1, (hF e).2]
    exact hno e' (mem_of_getBuf c _ j e' he')
  · rw [getBuf_updBuf_ne _ _ _ _ _ _ hki] at hx
    obtain ⟨hb, hf⟩ := h hki x hx
    refine ⟨hb, ?_⟩
    intro j e' hj he'
    by_cases hkj : k = k' ∧ j = i'
    · obtain ⟨rfl, rfl⟩ := hkj
      obtain ⟨e, he, rfl⟩ := getBuf_updBuf_some c k j F e' he'
      intro hh
      have hx' := hno x (mem_of_getBuf c _ i x hx)
      exact hx' ⟨by rw [← hh.1]; exact (hF e).1, by rw [← hh.2]; exact (hF e).2⟩
    · rw [getBuf_updBuf_ne _ _ _ _ _ _ hkj] at he'
      exact hf j e' hj he'

/-- `bget` keeps a settled buffer settled, however it ends. -/
theorem settled_bget (NBUCKET : Nat) (c : Bcache) (pid dev blockno k i : Nat)
    (h : Settled NBUCKET c k i) :
    Settled NBUCKET (Bio.bget NBUCKET c pid dev blockno).cache k i := by
  rcases bget_cases NBUCKET c pid dev blockno with ⟨hp, -, -⟩ | ⟨j, e, he, hh, hf, hb⟩ |
    ⟨j, e, hno, he, -, -, -, hb⟩
  · rw [hp]
    exact h
  · rw [hb]
    split
    · exact settled_updBuf_keep NBUCKET c k i _ j Buf.hit (fun _ => ⟨rfl, rfl⟩) h
    · exact settled_updBuf_keep NBUCKET c k i _ j (fun x => x.hit.lockBy pid)
        (fun _ => ⟨rfl, rfl⟩) h
  · rw [hb]
    split
    · exact settled_updBuf_recycle NBUCKET c k i _ j (Buf.recycle dev blockno) dev blockno rfl
        (fun _ => ⟨rfl, rfl⟩) hno (fun _ => h)
    · exact settled_updBuf_recycle NBUCKET c k i _ j
        (fun x => (x.recycle dev blockno).lockBy pid) dev blockno rfl
        (fun _ => ⟨rfl, rfl⟩) hno (fun _ => h)

/-- The buffer a call of `bget` selects is settled afterwards. -/
theorem bget_settles (NBUCKET : Nat) (c : Bcache) (pid dev blockno i : Nat)
    (h : (Bio.bget NBUCKET c pid dev blockno).slot = some i) :
    Settled NBUCKET (Bio.bget NBUCKET c pid dev blockno).cache (idx NBUCKET blockno) i := by
  obtain ⟨e, e1, -, he1, hh1, -, -, -, hfirst, -⟩ :=
    bget_slot_spec NBUCKET c pid dev blockno i h
  intro x hx
  rw [he1] at hx
  injection hx with hx
  subst hx
  have h1 : e1.dev = dev := hh1.1
  have h2 : e1.blockno = blockno := hh1.2
  refine ⟨by rw [h2], ?_⟩
  intro j e' hj he'
  rw [h1, h2]
  exact hfirst j e' hj he'

/-- The sleepers after an event: those before it and, for a `bget` or `bread` that sleeps,
the caller, which sleeps on the buffer `bget` selected. -/
theorem bstep_asleep (NBUCKET : Nat) (s s' : BState) (op : BOp)
    (h : Bio.bstep NBUCKET s op = .ok s') :
    ∀ w ∈ s'.asleep, w ∈ s.asleep ∨
      ∃ pid dev blockno, (op = .bget pid dev blockno ∨ op = .bread pid dev blockno) ∧
        w.k = idx NBUCKET blockno ∧
        (Bio.bget NBUCKET s.bcache pid dev blockno).slot = some w.i := by
  have hsl : ∀ (pid dev blockno : Nat) (read : Bool) (w : Sleeper),
      w ∈ (Bio.bget NBUCKET s.bcache pid dev blockno).sleeper pid (idx NBUCKET blockno) read →
      w.k = idx NBUCKET blockno ∧
        (Bio.bget NBUCKET s.bcache pid dev blockno).slot = some w.i := by
    intro pid dev blockno read w hw
    cases hb : Bio.bget NBUCKET s.bcache pid dev blockno with
    | locked c i => rw [hb] at hw; simp [BgetResult.sleeper] at hw
    | panic c => rw [hb] at hw; simp [BgetResult.sleeper] at hw
    | asleep c i =>
      rw [hb] at hw
      simp only [BgetResult.sleeper, List.mem_singleton] at hw
      subst hw
      exact ⟨rfl, rfl⟩
  intro w hw
  cases op with
  | bget pid dev blockno =>
    simp only [Bio.bstep] at h
    split at h
    · simp at h
    · injection h with h
      subst h
      rcases List.mem_append.1 hw with hw | hw
      · exact Or.inl hw
      · exact Or.inr ⟨pid, dev, blockno, Or.inl rfl, hsl pid dev blockno false w hw⟩
  | bread pid dev blockno =>
    simp only [Bio.bstep] at h
    split at h
    · simp at h
    · injection h with h
      subst h
      have ha : (Bio.bread NBUCKET s pid dev blockno).state.asleep =
          s.asleep ++
            (Bio.bget NBUCKET s.bcache pid dev blockno).sleeper pid (idx NBUCKET blockno)
              true := by
        unfold Bio.bread
        cases hb : Bio.bget NBUCKET s.bcache pid dev blockno with
        | panic c => simp [BreadResult.state, BgetResult.sleeper]
        | asleep c i => simp [BreadResult.state, BgetResult.sleeper]
        | locked c i =>
          simp only [BgetResult.sleeper, List.append_nil]
          split
          · rfl
          · split
            · rfl
            · simp [BreadResult.state, virtio_disk_rw]
              split <;> rfl
      rw [ha] at hw
      rcases List.mem_append.1 hw with hw | hw
      · exact Or.inl hw
      · exact Or.inr ⟨pid, dev, blockno, Or.inr rfl, hsl pid dev blockno true w hw⟩
  | bwrite pid k i =>
    left
    simp only [Bio.bstep] at h
    unfold Bio.bwrite at h
    cases he : getBuf s.bcache k i with
    | none => rw [he] at h; simp at h
    | some e =>
      rw [he] at h
      by_cases hh : holdingsleep e.lock pid = true
      · simp only [hh, if_true, Result.ok.injEq] at h
        subst h
        simp only [virtio_disk_rw, he, if_true] at hw
        exact hw
      · simp [hh] at h
  | brelse pid k i =>
    obtain ⟨e, -, -, rfl⟩ := brelse_ok s s' pid k i h
    exact Or.inl hw
  | bpin k i =>
    simp only [Bio.bstep, Result.ok.injEq] at h
    subst h
    exact Or.inl hw
  | bunpin k i =>
    simp only [Bio.bstep, Result.ok.injEq] at h
    subst h
    exact Or.inl hw
  | store k i data =>
    simp only [Bio.bstep, Result.ok.injEq] at h
    subst h
    exact Or.inl hw
  | tick =>
    simp only [Bio.bstep, Result.ok.injEq] at h
    subst h
    exact Or.inl hw
  | wake w' =>
    simp only [Bio.bstep] at h
    cases hk : wakeup s w' with
    | none =>
      rw [hk] at h
      injection h with h
      subst h
      exact Or.inl hw
    | some t =>
      rw [hk] at h
      injection h with h
      subst h
      obtain ⟨-, -, -, ha, -⟩ := wakeup_cases s t w' hk
      rw [ha] at hw
      exact Or.inl (List.mem_of_mem_erase hw)

/-- Every event keeps a settled buffer settled. -/
theorem settled_bstep (NBUCKET : Nat) (s s' : BState) (op : BOp) (k i : Nat)
    (hs : Settled NBUCKET s.bcache k i) (h : Bio.bstep NBUCKET s op = .ok s') :
    Settled NBUCKET s'.bcache k i := by
  cases op with
  | bget pid dev blockno =>
    simp only [Bio.bstep] at h
    split at h
    · simp at h
    · injection h with h
      subst h
      exact settled_bget NBUCKET s.bcache pid dev blockno k i hs
  | bread pid dev blockno =>
    simp only [Bio.bstep] at h
    split at h
    · simp at h
    · injection h with h
      subst h
      have hg := settled_bget NBUCKET s.bcache pid dev blockno k i hs
      obtain ⟨-, -, hc | ⟨j, e1, -, -, -, hc⟩⟩ := bread_state NBUCKET s pid dev blockno
      · rw [hc]
        exact hg
      · rw [hc]
        exact settled_updBuf_keep NBUCKET _ k i _ j (Buf.load s.disk) (fun _ => ⟨rfl, rfl⟩) hg
  | bwrite pid k' i' =>
    obtain ⟨e, -, -, hc, -⟩ := bwrite_ok s s' pid k' i' h
    rw [hc]
    exact hs
  | brelse pid k' i' =>
    obtain ⟨e, -, -, rfl⟩ := brelse_ok s s' pid k' i' h
    exact settled_updBuf_keep NBUCKET s.bcache k i k' i' (Buf.release s.ticks)
      (fun _ => ⟨rfl, rfl⟩) hs
  | bpin k' i' =>
    simp only [Bio.bstep, Result.ok.injEq] at h
    subst h
    exact settled_updBuf_keep NBUCKET s.bcache k i k' i'
      (fun b => { b with refcnt := uintInc b.refcnt }) (fun _ => ⟨rfl, rfl⟩) hs
  | bunpin k' i' =>
    simp only [Bio.bstep, Result.ok.injEq] at h
    subst h
    exact settled_updBuf_keep NBUCKET s.bcache k i k' i'
      (fun b => { b with refcnt := uintDec b.refcnt }) (fun _ => ⟨rfl, rfl⟩) hs
  | store k' i' data =>
    simp only [Bio.bstep, Result.ok.injEq] at h
    subst h
    exact settled_updBuf_keep NBUCKET s.bcache k i k' i'
      (fun b => { b with data := data }) (fun _ => ⟨rfl, rfl⟩) hs
  | tick =>
    simp only [Bio.bstep, Result.ok.injEq] at h
    subst h
    exact hs
  | wake w =>
    simp only [Bio.bstep] at h
    cases hk : wakeup s w with
    | none =>
      rw [hk] at h
      injection h with h
      subst h
      exact hs
    | some t =>
      rw [hk] at h
      injection h with h
      subst h
      obtain ⟨-, -, -, -, b, -, -, hc⟩ := wakeup_cases s t w hk
      have h1 := settled_updBuf_keep NBUCKET s.bcache k i w.k w.i (Buf.lockBy w.pid)
        (fun _ => ⟨rfl, rfl⟩) hs
      rcases hc with ⟨hc, -⟩ | ⟨-, -, hc⟩
      · rw [hc]
        exact h1
      · rw [hc]
        exact settled_updBuf_keep NBUCKET _ k i w.k w.i (Buf.load s.disk)
          (fun _ => ⟨rfl, rfl⟩) h1

/-- Every event keeps the invariant of the sleepers. -/
theorem sleepInv_bstep (NBUCKET : Nat) (s s' : BState) (op : BOp)
    (hs : SleepInv NBUCKET s) (h : Bio.bstep NBUCKET s op = .ok s') :
    SleepInv NBUCKET s' := by
  intro w hw
  rcases bstep_asleep NBUCKET s s' op h w hw with hold | ⟨pid, dev, blockno, hop, hk, hslot⟩
  · exact settled_bstep NBUCKET s s' op w.k w.i (hs w hold) h
  · have hg := bget_settles NBUCKET s.bcache pid dev blockno w.i hslot
    rw [← hk] at hg
    have hne : (Bio.bget NBUCKET s.bcache pid dev blockno).isPanic = false := by
      cases hb : Bio.bget NBUCKET s.bcache pid dev blockno with
      | panic c => rw [hb] at hslot; simp [BgetResult.slot] at hslot
      | locked c i => rfl
      | asleep c i => rfl
    rcases hop with rfl | rfl
    · simp only [Bio.bstep, hne, Bool.false_eq_true, if_false, Result.ok.injEq] at h
      subst h
      exact hg
    · simp only [Bio.bstep] at h
      split at h
      · simp at h
      · injection h with h
        subst h
        obtain ⟨-, -, hc | ⟨j, e1, -, -, -, hc⟩⟩ := bread_state NBUCKET s pid dev blockno
        · rw [hc]
          exact hg
        · rw [hc]
          exact settled_updBuf_keep NBUCKET _ w.k w.i _ j (Buf.load s.disk)
            (fun _ => ⟨rfl, rfl⟩) hg

/-- Rewriting a buffer without changing the block it holds leaves every buffer holding the
block it held. -/
theorem ident_updBuf (c : Bcache) (k i k' i' : Nat) (F : Buf → Buf)
    (hid : ∀ b, (F b).dev = b.dev ∧ (F b).blockno = b.blockno) (e : Buf)
    (he : getBuf c k i = some e) :
    ∃ e', getBuf (updBuf c k' i' F) k i = some e' ∧ e'.dev = e.dev ∧
      e'.blockno = e.blockno := by
  by_cases hki : k = k' ∧ i = i'
  · obtain ⟨rfl, rfl⟩ := hki
    exact ⟨F e, by rw [getBuf_updBuf_same, he]; rfl, (hid e).1, (hid e).2⟩
  · exact ⟨e, by rw [getBuf_updBuf_ne _ _ _ _ _ _ hki]; exact he, rfl, rfl⟩

/-- `bget` leaves a referenced buffer holding the block it held. -/
theorem ident_bget (NBUCKET : Nat) (c : Bcache) (pid dev blockno k i : Nat) (e : Buf)
    (he : getBuf c k i = some e) (hc : 1 ≤ e.refcnt) :
    ∃ e', getBuf (Bio.bget NBUCKET c pid dev blockno).cache k i = some e' ∧
      e'.dev = e.dev ∧ e'.blockno = e.blockno := by
  rcases bget_cases NBUCKET c pid dev blockno with ⟨hp, -, -⟩ | ⟨j, e0, -, -, -, hb⟩ |
    ⟨j, e0, -, he0, hz, -, -, hb⟩
  · rw [hp]
    exact ⟨e, he, rfl, rfl⟩
  · rw [hb]
    split
    · exact ident_updBuf c k i _ j Buf.hit (fun _ => ⟨rfl, rfl⟩) e he
    · exact ident_updBuf c k i _ j (fun x => x.hit.lockBy pid) (fun _ => ⟨rfl, rfl⟩) e he
  · have hne : ¬ (k = idx NBUCKET blockno ∧ i = j) := by
      rintro ⟨rfl, rfl⟩
      rw [he] at he0
      injection he0 with he0
      subst he0
      omega
    rw [hb]
    split
    · exact ⟨e, by
        show getBuf (updBuf c _ j _) k i = some e
        rw [getBuf_updBuf_ne _ _ _ _ _ _ hne]; exact he, rfl, rfl⟩
    · exact ⟨e, by
        show getBuf (updBuf c _ j _) k i = some e
        rw [getBuf_updBuf_ne _ _ _ _ _ _ hne]; exact he, rfl, rfl⟩

/-- Every event leaves a referenced buffer holding the block it held. -/
theorem ident_bstep (NBUCKET : Nat) (s s' : BState) (op : BOp) (k i : Nat) (e : Buf)
    (he : getBuf s.bcache k i = some e) (hc : 1 ≤ e.refcnt)
    (h : Bio.bstep NBUCKET s op = .ok s') :
    ∃ e', getBuf s'.bcache k i = some e' ∧ e'.dev = e.dev ∧ e'.blockno = e.blockno := by
  cases op with
  | bget pid dev blockno =>
    simp only [Bio.bstep] at h
    split at h
    · simp at h
    · injection h with h
      subst h
      exact ident_bget NBUCKET s.bcache pid dev blockno k i e he hc
  | bread pid dev blockno =>
    simp only [Bio.bstep] at h
    split at h
    · simp at h
    · injection h with h
      subst h
      obtain ⟨e1, he1, hd1, hb1⟩ := ident_bget NBUCKET s.bcache pid dev blockno k i e he hc
      obtain ⟨-, -, hcc | ⟨j, e2, -, -, -, hcc⟩⟩ := bread_state NBUCKET s pid dev blockno
      · rw [hcc]
        exact ⟨e1, he1, hd1, hb1⟩
      · rw [hcc]
        obtain ⟨e3, he3, hd3, hb3⟩ := ident_updBuf _ k i _ j (Buf.load s.disk)
          (fun _ => ⟨rfl, rfl⟩) e1 he1
        exact ⟨e3, he3, hd3.trans hd1, hb3.trans hb1⟩
  | bwrite pid k' i' =>
    obtain ⟨e0, -, -, hcc, -⟩ := bwrite_ok s s' pid k' i' h
    rw [hcc]
    exact ⟨e, he, rfl, rfl⟩
  | brelse pid k' i' =>
    obtain ⟨e0, -, -, rfl⟩ := brelse_ok s s' pid k' i' h
    exact ident_updBuf s.bcache k i k' i' (Buf.release s.ticks) (fun _ => ⟨rfl, rfl⟩) e he
  | bpin k' i' =>
    simp only [Bio.bstep, Result.ok.injEq] at h
    subst h
    exact ident_updBuf s.bcache k i k' i' (fun b => { b with refcnt := uintInc b.refcnt })
      (fun _ => ⟨rfl, rfl⟩) e he
  | bunpin k' i' =>
    simp only [Bio.bstep, Result.ok.injEq] at h
    subst h
    exact ident_updBuf s.bcache k i k' i' (fun b => { b with refcnt := uintDec b.refcnt })
      (fun _ => ⟨rfl, rfl⟩) e he
  | store k' i' data =>
    simp only [Bio.bstep, Result.ok.injEq] at h
    subst h
    exact ident_updBuf s.bcache k i k' i' (fun b => { b with data := data })
      (fun _ => ⟨rfl, rfl⟩) e he
  | tick =>
    simp only [Bio.bstep, Result.ok.injEq] at h
    subst h
    exact ⟨e, he, rfl, rfl⟩
  | wake w =>
    simp only [Bio.bstep] at h
    cases hk : wakeup s w with
    | none =>
      rw [hk] at h
      injection h with h
      subst h
      exact ⟨e, he, rfl, rfl⟩
    | some t =>
      rw [hk] at h
      injection h with h
      subst h
      obtain ⟨-, -, -, -, b, -, -, hcc⟩ := wakeup_cases s t w hk
      obtain ⟨e1, he1, hd1, hb1⟩ := ident_updBuf s.bcache k i w.k w.i (Buf.lockBy w.pid)
        (fun _ => ⟨rfl, rfl⟩) e he
      rcases hcc with ⟨hcc, -⟩ | ⟨-, -, hcc⟩
      · rw [hcc]
        exact ⟨e1, he1, hd1, hb1⟩
      · rw [hcc]
        obtain ⟨e3, he3, hd3, hb3⟩ := ident_updBuf _ k i w.k w.i (Buf.load s.disk)
          (fun _ => ⟨rfl, rfl⟩) e1 he1
        exact ⟨e3, he3, hd3.trans hd1, hb3.trans hb1⟩

/-- Along a run each event of which finds buffer `i` of bucket `k` referenced, the buffer
goes on holding the block it held. -/
theorem RunBy.keeps_block (NBUCKET : Nat) (pre : BState → BOp → Prop) (k i : Nat)
    (hpre : ∀ u op, pre u op → held u.bcache k i) (s t : BState)
    (h : RunBy NBUCKET pre s t) (e : Buf) (he : getBuf s.bcache k i = some e) :
    ∃ e', getBuf t.bcache k i = some e' ∧ e'.dev = e.dev ∧ e'.blockno = e.blockno := by
  induction h with
  | refl => exact ⟨e, he, rfl, rfl⟩
  | step t t' op _ hp hs ih =>
    obtain ⟨e1, he1, hd1, hb1⟩ := ih
    obtain ⟨e2, he2, hc2⟩ := hpre t op hp
    rw [he1] at he2
    injection he2 with he2
    subst he2
    obtain ⟨e3, he3, hd3, hb3⟩ := ident_bstep NBUCKET t t' op k i e1 he1 hc2 hs
    exact ⟨e3, he3, hd3.trans hd1, hb3.trans hb1⟩

/-- A settled buffer stays settled along every run. -/
theorem RunBy.settled (NBUCKET : Nat) (pre : BState → BOp → Prop) (k i : Nat) (s t : BState)
    (h : RunBy NBUCKET pre s t) (hs : Settled NBUCKET s.bcache k i) :
    Settled NBUCKET t.bcache k i := by
  induction h with
  | refl => exact hs
  | step t t' op _ _ hst ih => exact settled_bstep NBUCKET t t' op k i ih hst

/-- Every event keeps the invariant; with `r` set, provided `bpin` and `bunpin` are applied
to buffers with `refcnt ≥ 1`. -/
theorem cacheInv_bstep (NBUCKET : Nat) (r : Bool) (s s' : BState) (op : BOp)
    (hinv : CacheInv NBUCKET r s.bcache) (hsl : SleepInv NBUCKET s)
    (hp : r = true → op.pinsHeld s)
    (h : Bio.bstep NBUCKET s op = .ok s') : CacheInv NBUCKET r s'.bcache := by
  cases op with
  | bget pid dev blockno =>
    simp only [Bio.bstep] at h
    split at h
    · simp at h
    · injection h with h
      subst h
      exact cacheInv_bget NBUCKET r s.bcache pid dev blockno hinv
  | bread pid dev blockno =>
    simp only [Bio.bstep] at h
    split at h
    · simp at h
    · injection h with h
      subst h
      have hg := cacheInv_bget NBUCKET r s.bcache pid dev blockno hinv
      obtain ⟨-, -, hc | ⟨j, e1, hslot, he1, -, hc⟩⟩ := bread_state NBUCKET s pid dev blockno
      · rw [hc]
        exact hg
      · rw [hc]
        obtain ⟨e, e1', -, he1', -, hl, -⟩ :=
          bget_slot_spec NBUCKET s.bcache pid dev blockno j hslot
        rw [he1] at he1'
        injection he1' with he1'
        subst he1'
        apply cacheInv_updBuf_marked NBUCKET r _ _ j (Buf.load s.disk)
          (fun _ => ⟨rfl, rfl⟩) _ hg
        intro e0 he0 _
        rw [he1] at he0
        injection he0 with he0
        subst he0
        exact Or.inr (Or.inl hl)
  | bwrite pid k i =>
    obtain ⟨e, -, -, hc, -⟩ := bwrite_ok s s' pid k i h
    rw [hc]
    exact hinv
  | brelse pid k i =>
    obtain ⟨e, he, hh, rfl⟩ := brelse_ok s s' pid k i h
    show CacheInv NBUCKET r (updBuf s.bcache k i (Buf.release s.ticks))
    apply cacheInv_updBuf_marked NBUCKET r _ k i (Buf.release s.ticks)
      (fun _ => ⟨rfl, rfl⟩) _ hinv
    intro e0 he0 _
    rw [he] at he0
    injection he0 with he0
    subst he0
    exact Or.inr (Or.inl (holdingsleep_locked _ _ hh))
  | bpin k i =>
    simp only [Bio.bstep, Result.ok.injEq] at h
    subst h
    show CacheInv NBUCKET r (updBuf s.bcache k i (fun b => { b with refcnt := uintInc b.refcnt }))
    apply cacheInv_updBuf_marked NBUCKET r _ k i
      (fun b => { b with refcnt := uintInc b.refcnt }) (fun _ => ⟨rfl, rfl⟩) _ hinv
    intro e0 he0 hm
    rcases hm with hv | hl | ⟨hr, -⟩
    · exact Or.inl hv
    · exact Or.inr (Or.inl hl)
    · obtain ⟨e, he, hpos⟩ := hp hr
      rw [he0] at he
      injection he with he
      subst he
      exact Or.inr (Or.inr ⟨hr, by omega⟩)
  | bunpin k i =>
    simp only [Bio.bstep, Result.ok.injEq] at h
    subst h
    show CacheInv NBUCKET r (updBuf s.bcache k i (fun b => { b with refcnt := uintDec b.refcnt }))
    apply cacheInv_updBuf_marked NBUCKET r _ k i
      (fun b => { b with refcnt := uintDec b.refcnt }) (fun _ => ⟨rfl, rfl⟩) _ hinv
    intro e0 he0 hm
    rcases hm with hv | hl | ⟨hr, -⟩
    · exact Or.inl hv
    · exact Or.inr (Or.inl hl)
    · obtain ⟨e, he, hpos⟩ := hp hr
      rw [he0] at he
      injection he with he
      subst he
      exact Or.inr (Or.inr ⟨hr, by omega⟩)
  | store k i data =>
    simp only [Bio.bstep, Result.ok.injEq] at h
    subst h
    show CacheInv NBUCKET r (updBuf s.bcache k i (fun b => { b with data := data }))
    apply cacheInv_updBuf_marked NBUCKET r _ k i (fun b => { b with data := data })
      (fun _ => ⟨rfl, rfl⟩) _ hinv
    intro e0 _ hm
    exact hm
  | tick =>
    simp only [Bio.bstep, Result.ok.injEq] at h
    subst h
    exact hinv
  | wake w =>
    simp only [Bio.bstep] at h
    cases hk : wakeup s w with
    | none =>
      rw [hk] at h
      injection h with h
      subst h
      exact hinv
    | some t =>
      rw [hk] at h
      injection h with h
      subst h
      obtain ⟨hm, -, -, -, b, hb, -, hc⟩ := wakeup_cases s t w hk
      have h1 : CacheInv NBUCKET r (updBuf s.bcache w.k w.i (Buf.lockBy w.pid)) :=
        cacheInv_updBuf_keep NBUCKET r s.bcache w.k w.i (Buf.lockBy w.pid)
          (fun _ => ⟨rfl, rfl⟩) (fun e he _ => hsl w hm e he) hinv
      rcases hc with ⟨hc, -⟩ | ⟨-, -, hc⟩
      · rw [hc]
        exact h1
      · rw [hc]
        apply cacheInv_updBuf_marked NBUCKET r _ w.k w.i (Buf.load s.disk)
          (fun _ => ⟨rfl, rfl⟩) _ h1
        intro e0 he0 _
        obtain ⟨e, -, rfl⟩ := getBuf_updBuf_some s.bcache w.k w.i (Buf.lockBy w.pid) e0 he0
        exact Or.inr (Or.inl rfl)

theorem bootState_unused (NBUCKET NBUF BSIZE : Nat) (disk : Nat → Nat → List Nat)
    (k i : Nat) (e : Buf) (h : getBuf (bootState NBUCKET NBUF BSIZE disk).bcache k i = some e) :
    e = zeroBuf BSIZE := by
  have hmem := mem_of_getBuf _ k i e h
  simp only [bootState, binit, List.map_replicate, List.getD_eq_getElem?_getD] at hmem
  by_cases hk : k < NBUCKET
  · rw [List.getElem?_replicate] at hmem
    simp only [hk, if_true, Option.getD_some, List.mem_replicate] at hmem
    rw [hmem.2]
    rfl
  · rw [List.getElem?_replicate] at hmem
    simp [hk] at hmem

theorem bootState_CacheInv (NBUCKET NBUF BSIZE : Nat) (disk : Nat → Nat → List Nat)
    (r : Bool) : CacheInv NBUCKET r (bootState NBUCKET NBUF BSIZE disk).bcache := by
  intro k i e he hm
  have := bootState_unused NBUCKET NBUF BSIZE disk k i e he
  subst this
  rcases hm with h | h | ⟨-, h⟩
  · simp [zeroBuf] at h
  · simp [zeroBuf] at h
  · simp [zeroBuf] at h

/-- The invariants hold in every state reachable from the state `binit` leaves. -/
theorem BReachableBy.cacheInv (NBUCKET NBUF BSIZE : Nat) (disk : Nat → Nat → List Nat)
    (r : Bool) (pre : BState → BOp → Prop)
    (hpre : ∀ s op, pre s op → r = true → op.pinsHeld s) (s : BState)
    (h : BReachableBy NBUCKET pre (bootState NBUCKET NBUF BSIZE disk) s) :
    CacheInv NBUCKET r s.bcache ∧ SleepInv NBUCKET s := by
  induction h with
  | init =>
    refine ⟨bootState_CacheInv NBUCKET NBUF BSIZE disk r, ?_⟩
    intro w hw
    simp [bootState] at hw
  | step s s' op _ hp h ih =>
    exact ⟨cacheInv_bstep NBUCKET r s s' op ih.1 ih.2 (hpre s op hp) h,
      sleepInv_bstep NBUCKET s s' op ih.2 h⟩

end Bio

/-! ## Buffer cache: uniqueness of cached blocks and read after write -/

namespace Bio

open Kalloc (Result)

/-- C20: in every state reachable from the zero-initialised cache by `bget`, `bread`,
`bwrite`, `brelse`, client stores and ticks, and by `bpin` and `bunpin` applied to buffers
with `refcnt ≥ 1`, two buffers of one bucket that have `refcnt > 0` and hold the same
`(dev, blockno)` are the same buffer. -/
theorem C20_block_in_use_has_one_buffer (NBUCKET NBUF BSIZE : Nat)
    (disk : Nat → Nat → List Nat) (s : BState)
    (h : BReachableBy NBUCKET (fun t op => op.pinsHeld t)
      (bootState NBUCKET NBUF BSIZE disk) s) :
    ∀ (k i j : Nat) (ei ej : Buf), getBuf s.bcache k i = some ei →
      getBuf s.bcache k j = some ej → 0 < ei.refcnt → 0 < ej.refcnt →
      ei.dev = ej.dev → ei.blockno = ej.blockno → i = j := by
  have hinv :=
    (BReachableBy.cacheInv NBUCKET NBUF BSIZE disk true _ (fun _ _ hp _ => hp) s h).1
  intro k i j ei ej hi hj hri hrj hd hb
  rcases Nat.lt_trichotomy i j with hlt | heq | hgt
  · exact absurd ⟨hd, hb⟩ ((hinv k j ej hj (Or.inr (Or.inr ⟨rfl, hrj⟩))).2 i ei hlt hi)
  · exact heq
  · exact absurd ⟨hd.symm, hb.symm⟩
      ((hinv k i ei hi (Or.inr (Or.inr ⟨rfl, hri⟩))).2 j ej hgt hj)

/-- C12, as stated, fails in two ways.  In `smallCache` process 1 gets block 9 of device 1 in
buffer 2 of bucket 1 and does not release it.  After a `bunpin` of that buffer and a `bget`
by process 3 for block 11, which reassigns buffer 2, the second `bget` for block 9 selects
buffer 1, not buffer 2.  And in `wrappedBoot`, reached from the zero-initialised cache by two
calls of `bunpin`, the first `bget` for block 0 of device 0 selects buffer 0 and leaves its
`refcnt` at `0xFFFFFFFF`; the second `bget`, made at once, selects the same buffer and leaves
its `refcnt` at 0, not at the count plus 1. -/
theorem C12_second_bget_may_differ :
    (bget 2 smallCache 1 1 9 = .locked smallCacheAfter 2 ∧
      (getBuf (bunpin smallCacheAfter 1 2) 1 2).map Buf.lock = some (Sleeplock.mk true 1) ∧
      (bget 2 (bunpin smallCacheAfter 1 2) 3 1 11).slot = some 2 ∧
      (bget 2 (bget 2 (bunpin smallCacheAfter 1 2) 3 1 11).cache 2 1 9).slot = some 1) ∧
    (BReachableBy 1 (fun _ _ => True) (bootState 1 1 0 (fun _ _ => [])) wrappedBoot ∧
      (bget 1 wrappedBoot.bcache 1 0 0).slot = some 0 ∧
      (bget 1 wrappedBoot.bcache 1 0 0).sleeps = false ∧
      (getBuf (bget 1 wrappedBoot.bcache 1 0 0).cache 0 0).map Buf.refcnt =
        some 4294967295 ∧
      (bget 1 (bget 1 wrappedBoot.bcache 1 0 0).cache 2 0 0).slot = some 0 ∧
      (getBuf (bget 1 (bget 1 wrappedBoot.bcache 1 0 0).cache 2 0 0).cache 0 0).map
        Buf.refcnt = some 0) :=
  ⟨by decide,
    BReachableBy.step _ wrappedBoot (.bunpin 0 0)
      (BReachableBy.step _ _ (.bunpin 0 0) BReachableBy.init trivial rfl) trivial rfl,
    by decide, by decide, by decide, by decide, by decide⟩

/-- C12, amended: let `bget` for `(dev, blockno)` return buffer `i` locked, and let any
events follow each of which finds the buffer with `refcnt ≥ 1`.  A second `bget` for
`(dev, blockno)`, by any process, then selects the same buffer `i` through the hit branch
(and sleeps on its lock when it is held).  It leaves `dev`, `blockno`, `valid` and the
payload of the buffer and every other buffer unchanged, and increments `refcnt` as a `uint`:
by exactly 1 when the count is below `UINT_MAX`, and from 1 to 2 when the first call was a
miss and the second follows at once. -/
theorem C12_second_bget_selects_same_buffer (NBUCKET : Nat) (s t : BState) (c1 : Bcache)
    (pid pid2 dev blockno i : Nat)
    (h : bget NBUCKET s.bcache pid dev blockno = .locked c1 i)
    (hrun : HeldRun NBUCKET (idx NBUCKET blockno) i { s with bcache := c1 } t) :
    ∃ e1 e2 e3 : Buf,
      getBuf c1 (idx NBUCKET blockno) i = some e1 ∧ e1.dev = dev ∧ e1.blockno = blockno ∧
      getBuf t.bcache (idx NBUCKET blockno) i = some e2 ∧ e2.dev = dev ∧
      e2.blockno = blockno ∧
      bget NBUCKET t.bcache pid2 dev blockno =
        (if e2.lock.locked then .asleep (updBuf t.bcache (idx NBUCKET blockno) i Buf.hit) i
        else
          .locked (updBuf t.bcache (idx NBUCKET blockno) i (fun x => x.hit.lockBy pid2)) i) ∧
      (bget NBUCKET t.bcache pid2 dev blockno).slot = some i ∧
      getBuf (bget NBUCKET t.bcache pid2 dev blockno).cache (idx NBUCKET blockno) i =
        some e3 ∧
      e3.dev = e2.dev ∧ e3.blockno = e2.blockno ∧ e3.valid = e2.valid ∧ e3.data = e2.data ∧
      e3.refcnt = uintInc e2.refcnt ∧
      (e2.refcnt < UINT_MAX → e3.refcnt = e2.refcnt + 1) ∧
      ((∀ e ∈ s.bcache.getD (idx NBUCKET blockno) [], ¬ e.holds dev blockno) →
        e1.refcnt = 1 ∧ (t.bcache = c1 → e3.refcnt = 2)) ∧
      (∀ k j, ¬ (k = idx NBUCKET blockno ∧ j = i) →
        getBuf (bget NBUCKET t.bcache pid2 dev blockno).cache k j = getBuf t.bcache k j) := by
  have hslot : (bget NBUCKET s.bcache pid dev blockno).slot = some i := by rw [h]; rfl
  obtain ⟨e, e1, he, he1, hh1, -, -, -, -, -, -, -, -, hkind⟩ :=
    bget_slot_spec NBUCKET s.bcache pid dev blockno i hslot
  have hset := bget_settles NBUCKET s.bcache pid dev blockno i hslot
  rw [h] at he1 hset
  simp only [BgetResult.cache] at he1 hset
  obtain ⟨e2, he2, hd2, hb2⟩ := RunBy.keeps_block NBUCKET _ (idx NBUCKET blockno) i
    (fun _ _ hp => hp) _ t hrun e1 he1
  have hset2 := RunBy.settled NBUCKET _ (idx NBUCKET blockno) i _ t hrun hset
  have hd2' : e2.dev = dev := hd2.trans hh1.1
  have hb2' : e2.blockno = blockno := hb2.trans hh1.2
  have hfirst : ∀ (j : Nat) (e' : Buf), j < i →
      getBuf t.bcache (idx NBUCKET blockno) j = some e' → ¬ e'.holds dev blockno := by
    intro j e' hj he'
    have := (hset2 e2 he2).2 j e' hj he'
    rw [hd2', hb2'] at this
    exact this
  have h2 := bget_of_first_match NBUCKET t.bcache pid2 dev blockno i e2 he2 ⟨hd2', hb2'⟩ hfirst
  have hinc : ∀ x : Nat, x < UINT_MAX → uintInc x = x + 1 := by
    intro x hx
    unfold uintInc
    apply Nat.mod_eq_of_lt
    unfold UINT_MAX at hx
    omega
  have hmiss : (∀ e ∈ s.bcache.getD (idx NBUCKET blockno) [], ¬ e.holds dev blockno) →
      e1.refcnt = 1 ∧ (t.bcache = c1 → uintInc e2.refcnt = 2) := by
    intro hm
    rcases hkind with ⟨hhit, -, -⟩ | ⟨-, -, -, hr⟩
    · exact absurd hhit (hm e (mem_of_getBuf s.bcache _ i e he))
    · refine ⟨hr, ?_⟩
      intro ht
      rw [ht, he1] at he2
      injection he2 with he2
      rw [← he2, hr]
      rfl
  by_cases hl : e2.lock.locked = true
  · have h2' : bget NBUCKET t.bcache pid2 dev blockno =
        .asleep (updBuf t.bcache (idx NBUCKET blockno) i Buf.hit) i := by
      rw [h2, if_pos hl]
    refine ⟨e1, e2, e2.hit, he1, hh1.1, hh1.2, he2, hd2', hb2', h2, ?_, ?_, rfl, rfl, rfl, rfl,
      rfl, hinc e2.refcnt, hmiss, ?_⟩
    · rw [h2']
      rfl
    · rw [h2']
      show getBuf (updBuf t.bcache (idx NBUCKET blockno) i Buf.hit) _ i = some e2.hit
      rw [getBuf_updBuf_same, he2]
      rfl
    · intro k j hkj
      rw [h2']
      exact getBuf_updBuf_ne _ _ _ _ _ _ hkj
  · have h2' : bget NBUCKET t.bcache pid2 dev blockno =
        .locked (updBuf t.bcache (idx NBUCKET blockno) i (fun x => x.hit.lockBy pid2)) i := by
      rw [h2, if_neg hl]
    refine ⟨e1, e2, e2.hit.lockBy pid2, he1, hh1.1, hh1.2, he2, hd2', hb2', h2, ?_, ?_, rfl,
      rfl, rfl, rfl, rfl, hinc e2.refcnt, hmiss, ?_⟩
    · rw [h2']
      rfl
    · rw [h2']
      show getBuf (updBuf t.bcache (idx NBUCKET blockno) i (fun x => x.hit.lockBy pid2)) _ i =
        some (e2.hit.lockBy pid2)
      rw [getBuf_updBuf_same, he2]
      rfl
    · intro k j hkj
      rw [h2']
      exact getBuf_updBuf_ne _ _ _ _ _ _ hkj

/-- Witness of `C12_second_bget_selects_same_buffer`: in `smallCache` process 1 gets block 9
of device 1 in buffer 2 of bucket 1; process 3 then gets block 11, of the same bucket, while
buffer 2 is referenced; process 2 then asks for block 9. -/
theorem C12_second_bget_selects_same_buffer_witness :
    bget 2 smallStart.bcache 1 1 9 = .locked smallCacheAfter 2 ∧
    HeldRun 2 (idx 2 9) 2 { smallStart with bcache := smallCacheAfter } smallBusy ∧
    ∃ e1 e2 e3 : Buf,
      getBuf smallCacheAfter (idx 2 9) 2 = some e1 ∧ e1.dev = 1 ∧ e1.blockno = 9 ∧
      getBuf smallBusy.bcache (idx 2 9) 2 = some e2 ∧ e2.dev = 1 ∧ e2.blockno = 9 ∧
      bget 2 smallBusy.bcache 2 1 9 =
        (if e2.lock.locked then .asleep (updBuf smallBusy.bcache (idx 2 9) 2 Buf.hit) 2
        else .locked (updBuf smallBusy.bcache (idx 2 9) 2 (fun x => x.hit.lockBy 2)) 2) ∧
      (bget 2 smallBusy.bcache 2 1 9).slot = some 2 ∧
      getBuf (bget 2 smallBusy.bcache 2 1 9).cache (idx 2 9) 2 = some e3 ∧
      e3.dev = e2.dev ∧ e3.blockno = e2.blockno ∧ e3.valid = e2.valid ∧ e3.data = e2.data ∧
      e3.refcnt = uintInc e2.refcnt ∧
      (e2.refcnt < UINT_MAX → e3.refcnt = e2.refcnt + 1) ∧
      ((∀ e ∈ smallStart.bcache.getD (idx 2 9) [], ¬ e.holds 1 9) →
        e1.refcnt = 1 ∧ (smallBusy.bcache = smallCacheAfter → e3.refcnt = 2)) ∧
      (∀ k j, ¬ (k = idx 2 9 ∧ j = 2) →
        getBuf (bget 2 smallBusy.bcache 2 1 9).cache k j = getBuf smallBusy.bcache k j) :=
  ⟨by decide,
    RunBy.step _ smallState smallBusy (.bget 3 1 11) (RunBy.refl _)
      ⟨_, (by decide : getBuf smallState.bcache (idx 2 9) 2 = some
        { valid := false, dev := 1, blockno := 9, lock := { locked := true, pid := 1 },
          refcnt := 1, timeticks := 4, data := [] }), by decide⟩ rfl,
    C12_second_bget_selects_same_buffer 2 smallStart smallBusy smallCacheAfter 1 2 1 9 2
      (by decide)
      (RunBy.step _ smallState smallBusy (.bget 3 1 11) (RunBy.refl _)
        ⟨_, (by decide : getBuf smallState.bcache (idx 2 9) 2 = some
          { valid := false, dev := 1, blockno := 9, lock := { locked := true, pid := 1 },
            refcnt := 1, timeticks := 4, data := [] }), by decide⟩ rfl)⟩

/-- Witness of `C20_block_in_use_has_one_buffer`: the state in which process 1 has got
block 0 of device 0 on a cache of one bucket with two buffers. -/
theorem C20_block_in_use_has_one_buffer_witness :
    BReachableBy 1 (fun t op => op.pinsHeld t) (bootState 1 2 0 (fun _ _ => [])) demoHeld ∧
    ∀ (k i j : Nat) (ei ej : Buf), getBuf demoHeld.bcache k i = some ei →
      getBuf demoHeld.bcache k j = some ej → 0 < ei.refcnt → 0 < ej.refcnt →
      ei.dev = ej.dev → ei.blockno = ej.blockno → i = j :=
  ⟨BReachableBy.step _ demoHeld (.bget 1 0 0) BReachableBy.init trivial rfl,
    C20_block_in_use_has_one_buffer 1 2 0 (fun _ _ => []) demoHeld
      (BReachableBy.step _ demoHeld (.bget 1 0 0) BReachableBy.init trivial rfl)⟩

end Bio
